import Mathlib

/-! # Breadth-first grid planner of CppRobotics

A shallow embedding of `BreadthFirstSearchPlanner::planning`
(`PathPlanning/src/GlobalPlanner/breadth_first_search.cpp`) and proofs about it.

* `double` values are exact numbers: world coordinates are rationals, the
  accumulated cost lives in an arbitrary type `α` with `+` and `0`.
* `shared_ptr<Node>` values are immutable once stored, so a pointer is
  modelled by the value it points to (a node carries its whole parent chain).
* `unordered_map<double, shared_ptr<Node>>` is an association list with at
  most one entry per key; iteration order of the map is never observed.
* The `while (true)` loop is `step` (one pass through the body) iterated by
  `run` under a fuel counter: one unit of fuel is one pass. `micro` is the
  same loop in small steps (removal, goal test, one move at a time).
* The loop of `move_to_pose` (`move_to_pose/move_to_pose.cpp`) is `pose_loop`;
  the library functions it calls are parameters.
-/

namespace CppRobotics

/-- Modelled from the spec: class `Node` of `GraphSearchPlanner.hpp`, built by
`std::make_shared<Node>(x, y, cost, parent_index, parent)`: cell-x, cell-y,
accumulated cost, the scalar parent index and the parent pointer.
`root` is a node whose parent pointer is `nullptr`, `child` one whose parent
pointer refers to the given node. -/
inductive Node (α : Type) where
  | root (x y : Int) (cost : α) (parent_index : Int) : Node α
  | child (x y : Int) (cost : α) (parent_index : Int) (parent : Node α) : Node α
  deriving DecidableEq, Repr

namespace Node

variable {α : Type}

/-- Field `x` of a node. -/
def x : Node α → Int
  | root x _ _ _ => x
  | child x _ _ _ _ => x

/-- Field `y` of a node. -/
def y : Node α → Int
  | root _ y _ _ => y
  | child _ y _ _ _ => y

/-- Field `cost` of a node. -/
def cost : Node α → α
  | root _ _ c _ => c
  | child _ _ c _ _ => c

/-- Field `parent_index` of a node. -/
def parent_index : Node α → Int
  | root _ _ _ i => i
  | child _ _ _ i _ => i

/-- Field `parent` of a node; `none` is `nullptr`. -/
def parent : Node α → Option (Node α)
  | root _ _ _ _ => none
  | child _ _ _ _ p => some p

/-- Assignment `n->parent_index = i`. -/
def set_parent_index : Node α → Int → Node α
  | root x y c _, i => root x y c i
  | child x y c _ p, i => child x y c i p

/-- Assignment `n->cost = c`. -/
def set_cost : Node α → α → Node α
  | root x y _ i, c => root x y c i
  | child x y _ i p, c => child x y c i p

/-- Number of parent pointers that can be followed from a node. -/
def depth : Node α → Nat
  | root _ _ _ _ => 0
  | child _ _ _ _ p => p.depth + 1

/-- Nodes met by following parent pointers, nearest first. -/
def ancestors : Node α → List (Node α)
  | root _ _ _ _ => []
  | child _ _ _ _ p => p :: p.ancestors

/-- Cell of a node. -/
def cell (n : Node α) : Int × Int := (n.x, n.y)

end Node

/-- Modelled from the spec: the data members of `GraphSearchPlanner`
(`GraphSearchPlanner.hpp` is not among the sources): minimum world coordinates,
resolution, grid width and height in cells, the occupancy table indexed by
(cell-x, cell-y) and the MotionModel, an ordered list of
(delta-x, delta-y, step-cost). -/
structure GraphSearchPlanner (α : Type) where
  minx : ℚ
  miny : ℚ
  reso : ℚ
  xwidth : Nat
  ywidth : Nat
  obmap : Int → Int → Bool
  motion : List (Int × Int × α)

/-- The C++ `std::round` on exact rationals: nearest integer, halves away
from zero. -/
def cpp_round (t : ℚ) : Int :=
  if 0 ≤ t then ⌊t + 1 / 2⌋ else -⌊-t + 1 / 2⌋

section Planner

variable {α : Type}

/-- Modelled from the spec: `calc_xyindex` (`world_to_cell`),
`round((coord - axis_min) / resolution)`. -/
def calc_xyindex (P : GraphSearchPlanner α) (position min_pos : ℚ) : Int :=
  cpp_round ((position - min_pos) / P.reso)

/-- Modelled from the spec: `calc_grid_position` (`cell_to_world`),
`cell * resolution + axis_min`. -/
def calc_grid_position (P : GraphSearchPlanner α) (index : Int) (min_pos : ℚ) : ℚ :=
  (index : ℚ) * P.reso + min_pos

/-- Modelled from the spec: `calc_grid_index`, the map key
`index = cell_x + cell_y * width`. -/
def calc_grid_index (P : GraphSearchPlanner α) (node : Node α) : Int :=
  node.x + node.y * (P.xwidth : Int)

/-- Modelled from the spec: the query `is_free` on a cell: blocked when the
cell is outside `[0, width) × [0, height)` or the occupancy table marks it. -/
def is_free (P : GraphSearchPlanner α) (cx cy : Int) : Bool :=
  decide (0 ≤ cx) && decide (cx < (P.xwidth : Int)) && decide (0 ≤ cy)
    && decide (cy < (P.ywidth : Int)) && !P.obmap cx cy

/-- Modelled from the spec: `verify_node`, the `is_free` query on the cell of
a node. -/
def verify_node (P : GraphSearchPlanner α) (node : Node α) : Bool :=
  is_free P node.x node.y

/-- An `unordered_map<double, shared_ptr<Node>>`. -/
abbrev NodeMap (α : Type) := List (Int × Node α)

/-- Lookup `m.find(k)`; `none` is `m.end()`. -/
def NodeMap.find : NodeMap α → Int → Option (Node α)
  | [], _ => none
  | (k, v) :: r, key => if k = key then some v else NodeMap.find r key

/-- Removal `m.erase(k)`. -/
def NodeMap.erase (m : NodeMap α) (key : Int) : NodeMap α :=
  m.filter (fun e => decide (e.1 ≠ key))

/-- Assignment `m[k] = v`: the entry for `k` is replaced or created. -/
def NodeMap.set (m : NodeMap α) (key : Int) (v : Node α) : NodeMap α :=
  NodeMap.erase m key ++ [(key, v)]

/-- The two ways the expansion loop is left. -/
inductive Exit where
  | GoalFound
  | FrontierExhausted
  deriving DecidableEq, Repr

/-- Local variables of `planning` that live across loop iterations. -/
structure State (α : Type) where
  open_set : NodeMap α
  closed_set : NodeMap α
  node_queue : List (Node α)
  ngoal : Node α

variable [Add α] [Zero α]

/-- Lines 39-43: both maps empty, then `open_set[calc_grid_index(nstart)] =
nstart` and `node_queue.emplace(nstart)`. -/
def initState (P : GraphSearchPlanner α) (nstart ngoal : Node α) : State α :=
  { open_set := NodeMap.set [] (calc_grid_index P nstart) nstart
    closed_set := []
    node_queue := [nstart]
    ngoal := ngoal }

/-- Lines 72-73: the candidate neighbour of `current` for the move `m`. -/
def neighbour (current : Node α) (key : Int) (m : Int × Int × α) : Node α :=
  Node.child (current.x + m.1) (current.y + m.2.1) (current.cost + m.2.2) key current

/-- Lines 72-83: one pass of the `for` loop over the moves. -/
def tryInsert (P : GraphSearchPlanner α) (current : Node α) (key : Int)
    (s : State α) (m : Int × Int × α) : State α :=
  let node := neighbour current key m
  let n_id := calc_grid_index P node
  if !verify_node P node then s
  else if (s.closed_set.find n_id).isNone && (s.open_set.find n_id).isNone then
    { s with open_set := s.open_set.set n_id node, node_queue := s.node_queue ++ [node] }
  else s

/-- Lines 46-84: one pass through the body of `while (true)`. The result
carries `some e` when the pass leaves the loop through a `break`. -/
def step (P : GraphSearchPlanner α) (s : State α) : State α × Option Exit :=
  match s.node_queue with
  | [] => (s, some Exit.FrontierExhausted)
  | current :: rest =>
    if s.open_set.length = 0 then (s, some Exit.FrontierExhausted)
    else
      let key := calc_grid_index P current
      let s1 : State α :=
        { s with node_queue := rest
                 open_set := s.open_set.erase key
                 closed_set := s.closed_set.set key current }
      if current.x = s1.ngoal.x ∧ current.y = s1.ngoal.y then
        ({ s1 with ngoal := (s1.ngoal.set_parent_index current.parent_index).set_cost
                     current.cost }, some Exit.GoalFound)
      else (P.motion.foldl (tryInsert P current key) s1, none)

/-- The loop `while (true)`: at most `fuel` passes through the body; `none`
when the loop is still running after that many passes. -/
def run (P : GraphSearchPlanner α) : Nat → State α → Option (Exit × State α)
  | 0, _ => none
  | fuel + 1, s =>
    match step P s with
    | (s1, some e) => some (e, s1)
    | (s1, none) => run P fuel s1

/-- Lines 35-36: the start node. -/
def mk_nstart (P : GraphSearchPlanner α) (sx sy : ℚ) : Node α :=
  Node.root (calc_xyindex P sx P.minx) (calc_xyindex P sy P.miny) 0 (-1)

/-- Lines 37-38: the goal node. -/
def mk_ngoal (P : GraphSearchPlanner α) (gx gy : ℚ) : Node α :=
  Node.root (calc_xyindex P gx P.minx) (calc_xyindex P gy P.miny) 0 (-1)

/-- Lines 35-85 of `planning`: the nodes, the initial collections and the
loop, with fuel for `xwidth * ywidth + 2` passes. -/
def search (P : GraphSearchPlanner α) (sx sy gx gy : ℚ) : Option (Exit × State α) :=
  run P (P.xwidth * P.ywidth + 2) (initState P (mk_nstart P sx sy) (mk_ngoal P gx gy))

/-- Modelled from the spec: the predecessor walk of `calc_final_path`: from a
parent index, look the node up in the visited map and go on from its parent
index, until the index is the "no predecessor" value `-1`. `none` when a
lookup misses or `fuel` lookups were not enough. -/
def pred_chain (closed_set : NodeMap α) : Nat → Int → Option (List (Node α))
  | fuel, idx =>
    if idx = -1 then some []
    else
      match fuel with
      | 0 => none
      | f + 1 =>
        match closed_set.find idx with
        | none => none
        | some n => (pred_chain closed_set f n.parent_index).map (fun r => n :: r)

/-- Modelled from the spec: whether the goal node was reached, as the path
reconstruction sees it from its two arguments: the visited map holds a node on
the cell of the goal node, the node for which the goal test of the loop
succeeded. -/
def goal_reached (ngoal : Node α) (closed_set : NodeMap α) : Bool :=
  closed_set.any (fun e => decide (e.2.x = ngoal.x) && decide (e.2.y = ngoal.y))

/-- Modelled from the spec: the nodes `calc_final_path` visits. When the goal
node was never reached the reconstruction fails with the empty result; else
the nodes are the goal node, then the predecessor walk through the visited
map. -/
def final_nodes (ngoal : Node α) (closed_set : NodeMap α) : Option (List (Node α)) :=
  if goal_reached ngoal closed_set then
    (pred_chain closed_set closed_set.length ngoal.parent_index).map (fun r => ngoal :: r)
  else some []

/-- Modelled from the spec: `calc_final_path` of `GraphSearchPlanner`: the
world coordinates, by `cell_to_world`, of the nodes met walking predecessor
references from the goal node, in goal-to-start order; the empty sequence when
the goal node was never reached. -/
def calc_final_path (P : GraphSearchPlanner α) (ngoal : Node α) (closed_set : NodeMap α) :
    Option (List (ℚ × ℚ)) :=
  (final_nodes ngoal closed_set).map (fun ns =>
    ns.map (fun n => (calc_grid_position P n.x P.minx, calc_grid_position P n.y P.miny)))

/-- The function `planning` (lines 32-89): the search, then
`calc_final_path(ngoal, closed_set)` whichever way the loop was left. -/
def planning (P : GraphSearchPlanner α) (sx sy gx gy : ℚ) : Option (List (ℚ × ℚ)) :=
  match search P sx sy gx gy with
  | none => none
  | some (_, s) => calc_final_path P s.ngoal s.closed_set

end Planner

/-! ## Definitions used to state and prove the properties -/

section Definitions

variable {α : Type} [Add α] [Zero α]

/-- The map entry under which a node is stored. -/
def entry (P : GraphSearchPlanner α) (n : Node α) : Int × Node α := (calc_grid_index P n, n)

/-- The nodes held by the visited map. -/
def closedNodes (s : State α) : List (Node α) := s.closed_set.map Prod.snd

/-- Lines 51-55: the state after `current` was taken from the queue, erased
from the frontier map and stored in the visited map. -/
def pop (P : GraphSearchPlanner α) (s : State α) (cur : Node α) (rest : List (Node α)) :
    State α :=
  { s with node_queue := rest
           open_set := s.open_set.erase (calc_grid_index P cur)
           closed_set := s.closed_set.set (calc_grid_index P cur) cur }

/-- Lines 66-67: the goal node after the hand-over from `current`. -/
def handOver (g cur : Node α) : Node α :=
  (g.set_parent_index cur.parent_index).set_cost cur.cost

/-- A node is the start node or was generated from a visited node by a move
and passed `verify_node`. -/
def Origin (P : GraphSearchPlanner α) (nstart : Node α) (cl : List (Node α)) (n : Node α) :
    Prop :=
  n = nstart ∨ ∃ p m, p ∈ cl ∧ m ∈ P.motion ∧ n = neighbour p (calc_grid_index P p) m ∧
    verify_node P n = true

/-- The invariant of the expansion loop at the top of the loop body (and
between two passes of the inner `for` loop). -/
structure Core (P : GraphSearchPlanner α) (nstart ngoal0 : Node α) (s : State α) : Prop where
  open_eq : s.open_set = s.node_queue.map (entry P)
  closed_eq : s.closed_set = (closedNodes s).map (entry P)
  nodup : ((closedNodes s ++ s.node_queue).map (calc_grid_index P)).Nodup
  origin : ∀ n ∈ closedNodes s ++ s.node_queue, Origin P nstart (closedNodes s) n
  goal_eq : s.ngoal = ngoal0
  start_mem : nstart ∈ closedNodes s ++ s.node_queue
  depth_closed : ∀ n ∈ closedNodes s, n.depth < s.closed_set.length
  depth_queue : ∀ n ∈ s.node_queue, n.depth ≤ s.closed_set.length

/-- The state after a neighbour node was admitted (lines 81-82). -/
def insertNode (P : GraphSearchPlanner α) (s : State α) (node : Node α) : State α :=
  { s with open_set := s.open_set.set (calc_grid_index P node) node
           node_queue := s.node_queue ++ [node] }

/-- A cell lies inside `[0, width) × [0, height)`. -/
def InGrid (P : GraphSearchPlanner α) (cx cy : Int) : Prop :=
  0 ≤ cx ∧ cx < (P.xwidth : Int) ∧ 0 ≤ cy ∧ cy < (P.ywidth : Int)

instance (P : GraphSearchPlanner α) (cx cy : Int) : Decidable (InGrid P cx cy) := by
  unfold InGrid; infer_instance

/-- Node `a` was generated from node `b` by a move of the MotionModel. -/
def GeneratedFrom (P : GraphSearchPlanner α) (a b : Node α) : Prop :=
  ∃ m ∈ P.motion, a = neighbour b (calc_grid_index P b) m

/-- Modelled from the spec: the conventional MotionModel, the 8-connected
neighbours: four orthogonal moves at cost `one`, four diagonal moves at cost
`sqrt2` (`get_motion` of `GraphSearchPlanner` is not among the sources). -/
def motion8 {α : Type} (one sqrt2 : α) : List (Int × Int × α) :=
  [(1, 0, one), (0, 1, one), (-1, 0, one), (0, -1, one),
   (-1, -1, sqrt2), (-1, 1, sqrt2), (1, -1, sqrt2), (1, 1, sqrt2)]

/-- A planner with resolution 1, origin (0, 0), the 8-connected MotionModel
with exact costs 1 and √2 in `ℤ√2`, on a `w × h` grid with occupancy `ob`. -/
def unitPlanner (w h : Nat) (ob : Int → Int → Bool) : GraphSearchPlanner (ℤ√2) :=
  { minx := 0, miny := 0, reso := 1, xwidth := w, ywidth := h, obmap := ob,
    motion := motion8 1 Zsqrtd.sqrtd }

/-- One step relation of the returned path: cell `a` is cell `b` moved by a
step of the MotionModel. -/
def StepFrom (P : GraphSearchPlanner α) (a b : Node α) : Prop :=
  ∃ m ∈ P.motion, a.x = b.x + m.1 ∧ a.y = b.y + m.2.1

/-- World coordinates of the cell of a node, as `calc_final_path` emits them. -/
def world (P : GraphSearchPlanner α) (n : Node α) : ℚ × ℚ :=
  (calc_grid_position P n.x P.minx, calc_grid_position P n.y P.miny)

/-- No visited node lies on the cell of the goal node. -/
def GoalUnvisited (ngoal0 : Node α) (s : State α) : Prop :=
  ∀ n ∈ closedNodes s, ¬ (n.x = ngoal0.x ∧ n.y = ngoal0.y)

/-- Walking a list of moves from a cell: every cell stepped on must pass the
`is_free` query; `none` when one does not. -/
def follow (P : GraphSearchPlanner α) : Int × Int → List (Int × Int × α) → Option (Int × Int)
  | c, [] => some c
  | c, m :: ms =>
    if is_free P (c.1 + m.1) (c.2 + m.2.1) = true then follow P (c.1 + m.1, c.2 + m.2.1) ms
    else none

/-- Every free neighbour cell of `p` is held by a stored node at most one
level deeper than `p`. -/
def Expanded (P : GraphSearchPlanner α) (s : State α) (p : Node α) : Prop :=
  ∀ m ∈ P.motion, is_free P (p.x + m.1) (p.y + m.2.1) = true →
    ∃ x ∈ closedNodes s ++ s.node_queue, x.x = p.x + m.1 ∧ x.y = p.y + m.2.1 ∧
      x.depth ≤ p.depth + 1

/-- The breadth-first invariant of the loop: visited nodes are expanded and
carry no goal cell, the queue is ordered by depth and spans at most two
levels, and nodes were removed in order of depth. -/
structure Bfs (P : GraphSearchPlanner α) (ngoal0 : Node α) (s : State α) : Prop where
  expanded : ∀ p ∈ closedNodes s, Expanded P s p
  no_goal : ∀ p ∈ closedNodes s, ¬ (p.x = ngoal0.x ∧ p.y = ngoal0.y)
  sorted : s.node_queue.Pairwise (fun a b => a.depth ≤ b.depth)
  level : ∀ p ∈ closedNodes s, ∀ n ∈ s.node_queue, p.depth ≤ n.depth
  width : ∀ a ∈ s.node_queue, ∀ b ∈ s.node_queue, b.depth ≤ a.depth + 1
  closed_sorted : (closedNodes s).Pairwise (fun a b => a.depth ≤ b.depth)

/-- The cell of a node lies within `j` cells of `(x0, y0)` on both axes. -/
def Within (x0 y0 : Int) (j : Int) (n : Node α) : Prop :=
  x0 - j ≤ n.x ∧ n.x ≤ x0 + j ∧ y0 - j ≤ n.y ∧ n.y ≤ y0 + j

/-- The node the search stores for the cell `j` steps to the right of the
start cell: generated from its left neighbour by the move `(1, 0, c1)`. -/
def rowNode (P : GraphSearchPlanner α) (x0 y0 : Int) (c0 c1 : α) : Nat → Node α
  | 0 => Node.root x0 y0 c0 (-1)
  | j + 1 => neighbour (rowNode P x0 y0 c0 c1 j)
      (calc_grid_index P (rowNode P x0 y0 c0 c1 j)) (1, 0, c1)

/-- The loop invariant of the straight-line scenario: the queue holds the row
node `j`, everything before it and everything visited is nearer than `j` to
the start cell, everything behind it is no farther than `j`. -/
def Straight (P : GraphSearchPlanner α) (x0 y0 : Int) (c0 c1 : α) (k : Nat) (s : State α) :
    Prop :=
  ∃ (j : Nat) (front back : List (Node α)), j ≤ k ∧
    s.node_queue = front ++ rowNode P x0 y0 c0 c1 j :: back ∧
    (∀ n ∈ closedNodes s ++ front, Within x0 y0 ((j : Int) - 1) n) ∧
    (∀ n ∈ back, Within x0 y0 (j : Int) n)

/-- Scenario 1 of the spec: a row of four free cells. -/
def rowPlanner : GraphSearchPlanner (ℤ√2) := unitPlanner 4 1 (fun _ _ => false)

/-- Two cells in a row, the left one occupied. -/
def occupiedStartPlanner : GraphSearchPlanner (ℤ√2) :=
  unitPlanner 2 1 (fun x _ => decide (x = 0))

/-- A single free cell. -/
def cellPlanner : GraphSearchPlanner (ℤ√2) := unitPlanner 1 1 (fun _ _ => false)

/-- A 3 × 3 grid whose cells are all occupied except the centre `(1, 1)`. -/
def ringPlanner : GraphSearchPlanner (ℤ√2) :=
  unitPlanner 3 3 (fun x y => !(decide (x = 1) && decide (y = 1)))

/-- Three cells in a row, the middle one occupied. -/
def wallPlanner : GraphSearchPlanner (ℤ√2) := unitPlanner 3 1 (fun x _ => decide (x = 1))

/-- The nodes walked by `calc_final_path` at the end of `planning`. -/
def search_nodes (P : GraphSearchPlanner α) (sx sy gx gy : ℚ) : Option (List (Node α)) :=
  (search P sx sy gx gy).bind (fun r => final_nodes r.2.ngoal r.2.closed_set)

/-- Where control stands inside the loop of `planning`: at the top of the loop
body (line 46), after the removal of `current` (lines 51-55, before the goal
test), inside the `for` loop with the moves still to try (lines 71-84), or
after a `break`. -/
inductive Phase (α : Type) where
  | top : Phase α
  | removed (current : Node α) (key : Int) : Phase α
  | expanding (current : Node α) (key : Int) (todo : List (Int × Int × α)) : Phase α
  | finished (e : Exit) : Phase α

/-- A control point together with the local variables of `planning`. -/
structure Config (α : Type) where
  phase : Phase α
  state : State α

/-- One small step of the loop of `planning`: the exhaustion test and the
removal of `current`; the goal test; one pass of the `for` loop; the return to
the top of the loop. -/
def micro (P : GraphSearchPlanner α) (c : Config α) : Config α :=
  match c.phase with
  | Phase.top =>
    match c.state.node_queue with
    | [] => { phase := Phase.finished Exit.FrontierExhausted, state := c.state }
    | current :: rest =>
      if c.state.open_set.length = 0 then
        { phase := Phase.finished Exit.FrontierExhausted, state := c.state }
      else
        { phase := Phase.removed current (calc_grid_index P current),
          state := pop P c.state current rest }
  | Phase.removed current key =>
    if current.x = c.state.ngoal.x ∧ current.y = c.state.ngoal.y then
      { phase := Phase.finished Exit.GoalFound,
        state := { c.state with ngoal := handOver c.state.ngoal current } }
    else { phase := Phase.expanding current key P.motion, state := c.state }
  | Phase.expanding _ _ [] => { phase := Phase.top, state := c.state }
  | Phase.expanding current key (m :: todo) =>
    { phase := Phase.expanding current key todo, state := tryInsert P current key c.state m }
  | Phase.finished _ => c

/-- The configuration `planning` is in after `n` small steps of its loop. -/
def reach (P : GraphSearchPlanner α) (nstart ngoal : Node α) (n : Nat) : Config α :=
  (micro P)^[n] { phase := Phase.top, state := initState P nstart ngoal }

/-- The invariant `Core` along the small steps; after a `break` it holds up to
the hand-over onto the goal node. -/
def CfgInv (P : GraphSearchPlanner α) (nstart ngoal0 : Node α) (c : Config α) : Prop :=
  match c.phase with
  | Phase.top => Core P nstart ngoal0 c.state
  | Phase.removed cur key =>
    Core P nstart ngoal0 c.state ∧ cur ∈ closedNodes c.state ∧ key = calc_grid_index P cur
  | Phase.expanding cur key todo =>
    Core P nstart ngoal0 c.state ∧ cur ∈ closedNodes c.state ∧ key = calc_grid_index P cur ∧
      ∀ m ∈ todo, m ∈ P.motion
  | Phase.finished _ => Core P nstart ngoal0 { c.state with ngoal := ngoal0 }

/-- The node `node` is stored for the grid index `idx`, in the visited map or
in the frontier map. -/
def Stored (s : State α) (idx : Int) (node : Node α) : Prop :=
  s.closed_set.find idx = some node ∨ s.open_set.find idx = some node

/-- The nodes held by the visited map and by the frontier map. -/
def heldNodes (s : State α) : List (Node α) :=
  s.closed_set.map Prod.snd ++ s.open_set.map Prod.snd

/-- The configuration of `planning(sx, sy, gx, gy)` after `n` small steps of
its loop. -/
def search_config (P : GraphSearchPlanner α) (sx sy gx gy : ℚ) (n : Nat) : Config α :=
  reach P (mk_nstart P sx sy) (mk_ngoal P gx gy) n

/-- The cell reached from `c` by a list of moves. -/
def endCell (c : Int × Int) (ms : List (Int × Int × α)) : Int × Int :=
  ms.foldl (fun c m => (c.1 + m.1, c.2 + m.2.1)) c

/-- The cells stepped on from `c` by a list of moves, `c` first. -/
def routeCells : Int × Int → List (Int × Int × α) → List (Int × Int)
  | c, [] => [c]
  | c, m :: ms => c :: routeCells (c.1 + m.1, c.2 + m.2.1) ms

/-- The step costs of a list of moves added one after the other onto `c0`, in
the order of the moves. -/
def routeCost [Add α] (c0 : α) (ms : List (Int × Int × α)) : α :=
  ms.foldl (fun c m => c + m.2.2) c0

/-- The functions `move_to_pose.cpp` calls that are not rational arithmetic
(`<cmath>`) or are not among the sources (`Utils::sign` of `utils.hpp`), and the
constants `M_PI`, `M_PI_2`: parameters of the embedding. -/
structure Libm where
  hypot : ℚ → ℚ → ℚ
  atan2 : ℚ → ℚ → ℚ
  fmod : ℚ → ℚ → ℚ
  cos : ℚ → ℚ
  sin : ℚ → ℚ
  abs : ℚ → ℚ
  sign : ℚ → ℚ
  M_PI : ℚ
  M_PI_2 : ℚ

/-- The class `PathFinderController`: its three gains. -/
structure PathFinderController where
  kp_rho : ℚ
  kp_alpha : ℚ
  kp_beta : ℚ

/-- The method `PathFinderController::calc_control_command` (lines 34-47):
returns `(rho, v, w)`. -/
def calc_control_command (L : Libm) (C : PathFinderController)
    (x_diff y_diff theta theta_goal : ℚ) : ℚ × ℚ × ℚ :=
  let rho := L.hypot x_diff y_diff
  let alpha := L.fmod (L.atan2 y_diff x_diff - theta + L.M_PI) (2 * L.M_PI) - L.M_PI
  let beta := L.fmod (theta_goal - theta - alpha + L.M_PI) (2 * L.M_PI) - L.M_PI
  let v := C.kp_rho * rho
  let w := C.kp_alpha * alpha - C.kp_beta * beta
  if alpha > L.M_PI_2 ∨ alpha < -L.M_PI_2 then (rho, -v, w) else (rho, v, w)

/-- The global `controller = PathFinderController(9, 15, 3)` (line 49). -/
def controller : PathFinderController := { kp_rho := 9, kp_alpha := 15, kp_beta := 3 }

/-- The global `dt = 0.01` (line 50). -/
def dt : ℚ := 1 / 100

/-- The constant `MAX_LINEAR_SPEED` (line 52). -/
def MAX_LINEAR_SPEED : ℚ := 15

/-- The constant `MAX_ANGULAR_SPEED` (line 53). -/
def MAX_ANGULAR_SPEED : ℚ := 10

/-- The local variables of `move_to_pose` that live across loop iterations. -/
structure PoseVars where
  x : ℚ
  y : ℚ
  theta : ℚ
  x_diff : ℚ
  y_diff : ℚ
  rho : ℚ
  epoch : Int
  x_traj : List ℚ
  y_traj : List ℚ

/-- Lines 107-136: one pass through the body of `while (rho > 0.005)`; the
flag tells whether the pass ended in the `break` of line 135. -/
def pose_body (L : Libm) (x_goal y_goal theta_goal : ℚ) (s : PoseVars) : PoseVars × Bool :=
  let x_traj := s.x_traj ++ [s.x]
  let y_traj := s.y_traj ++ [s.y]
  let x_diff := x_goal - s.x
  let y_diff := y_goal - s.y
  let r := calc_control_command L controller x_diff y_diff s.theta theta_goal
  let rho := r.1
  let v := if L.abs r.2.1 > MAX_LINEAR_SPEED then L.sign r.2.1 * MAX_LINEAR_SPEED else r.2.1
  let w := if L.abs r.2.2 > MAX_ANGULAR_SPEED then L.sign r.2.2 * MAX_ANGULAR_SPEED else r.2.2
  let theta := s.theta + w * dt
  let x := s.x + v * L.cos theta * dt
  let y := s.y + v * L.sin theta * dt
  let epoch := s.epoch + 1
  ({ x := x, y := y, theta := theta, x_diff := x_diff, y_diff := y_diff, rho := rho,
     epoch := epoch, x_traj := x_traj, y_traj := y_traj }, decide (epoch > 320))

/-- The loop `while (rho > 0.005)` (lines 106-137): at most `fuel` evaluations
of its condition; `count` counts the passes through the body. Returns
the variables after the loop and the number of passes; `none` when the loop
is still running after `fuel` evaluations of the condition. -/
def pose_loop (L : Libm) (x_goal y_goal theta_goal : ℚ) :
    Nat → PoseVars → Nat → Option (PoseVars × Nat)
  | 0, _, _ => none
  | fuel + 1, s, count =>
    if s.rho > 5 / 1000 then
      match pose_body L x_goal y_goal theta_goal s with
      | (s2, true) => some (s2, count + 1)
      | (s2, false) => pose_loop L x_goal y_goal theta_goal fuel s2 (count + 1)
    else some (s, count)

/-- Lines 95-105: the variables of `move_to_pose` before the loop. -/
def pose_init (L : Libm) (x_start y_start theta_start x_goal y_goal : ℚ) : PoseVars :=
  { x := x_start, y := y_start, theta := theta_start,
    x_diff := x_goal - x_start, y_diff := y_goal - y_start,
    rho := L.hypot (x_goal - x_start) (y_goal - y_start),
    epoch := 0, x_traj := [], y_traj := [] }

/-- The function `move_to_pose` (lines 92-138), with fuel for 321 evaluations
of the loop condition: the variables after the loop and the number of passes
through the loop body. -/
def move_to_pose (L : Libm) (x_start y_start theta_start x_goal y_goal theta_goal : ℚ) :
    Option (PoseVars × Nat) :=
  pose_loop L x_goal y_goal theta_goal 321
    (pose_init L x_start y_start theta_start x_goal y_goal) 0

/-- A 4 × 3 grid with the single occupied cell `(1, 1)`. -/
def detourPlanner : GraphSearchPlanner (ℤ√2) :=
  unitPlanner 4 3 (fun x y => decide (x = 1) && decide (y = 1))

/-- Library functions under which the distance to the goal is always 1. -/
def unitLibm : Libm :=
  { hypot := fun _ _ => 1, atan2 := fun _ _ => 0, fmod := fun _ _ => 0, cos := fun _ => 0,
    sin := fun _ => 0, abs := fun _ => 0, sign := fun _ => 0, M_PI := 3, M_PI_2 := 3 / 2 }

end Definitions

/-! ## Lemmas and theorems -/

section

variable {α : Type}

theorem find_isNone_iff (m : NodeMap α) (k : Int) :
    (NodeMap.find m k).isNone = true ↔ k ∉ m.map Prod.fst := by
  induction m with
  | nil => simp [NodeMap.find]
  | cons e r ih =>
    obtain ⟨k1, v⟩ := e
    by_cases h : k1 = k
    · simp [NodeMap.find, h]
    · have h2 : ¬ k = k1 := fun e => h e.symm
      simp [NodeMap.find, h, h2, ih]

theorem find_of_mem (m : NodeMap α) (k : Int) (v : Node α)
    (hnd : (m.map Prod.fst).Nodup) (hm : (k, v) ∈ m) : NodeMap.find m k = some v := by
  induction m with
  | nil => simp at hm
  | cons e r ih =>
    obtain ⟨k1, v1⟩ := e
    simp only [List.map_cons, List.nodup_cons] at hnd
    rcases List.mem_cons.mp hm with h | h
    · cases h; simp [NodeMap.find]
    · have hk : k1 ≠ k := by
        intro e; subst e
        exact hnd.1 (List.mem_map.mpr ⟨(k1, v), h, rfl⟩)
      simp [NodeMap.find, hk, ih hnd.2 h]

theorem find_some_mem (m : NodeMap α) (k : Int) (v : Node α)
    (h : NodeMap.find m k = some v) : (k, v) ∈ m := by
  induction m with
  | nil => simp [NodeMap.find] at h
  | cons e r ih =>
    obtain ⟨k1, v1⟩ := e
    by_cases hk : k1 = k
    · simp [NodeMap.find, hk] at h; subst hk; subst h; simp
    · simp [NodeMap.find, hk] at h; exact List.mem_cons_of_mem _ (ih h)

theorem erase_of_not_mem (m : NodeMap α) (k : Int) (h : k ∉ m.map Prod.fst) :
    NodeMap.erase m k = m := by
  unfold NodeMap.erase
  rw [List.filter_eq_self]
  intro e he
  have : e.1 ≠ k := by
    intro e1; exact h (List.mem_map.mpr ⟨e, he, e1⟩)
  simpa using this

theorem erase_head (m : NodeMap α) (k : Int) (v : Node α) (h : k ∉ m.map Prod.fst) :
    NodeMap.erase ((k, v) :: m) k = m := by
  have h1 := erase_of_not_mem m k h
  unfold NodeMap.erase at h1 ⊢
  rw [List.filter_cons_of_neg (by simp)]
  exact h1

theorem set_of_not_mem (m : NodeMap α) (k : Int) (v : Node α) (h : k ∉ m.map Prod.fst) :
    NodeMap.set m k v = m ++ [(k, v)] := by
  unfold NodeMap.set
  rw [erase_of_not_mem m k h]

theorem map_snd_entry (P : GraphSearchPlanner α) (l : List (Node α)) :
    (l.map (entry P)).map Prod.snd = l := by
  induction l with
  | nil => rfl
  | cons a r ih => simp [entry] at ih ⊢; exact ih

theorem map_fst_entry (P : GraphSearchPlanner α) (l : List (Node α)) :
    (l.map (entry P)).map Prod.fst = l.map (calc_grid_index P) := by
  induction l with
  | nil => rfl
  | cons a r ih => simp [entry]

end

section

variable {α : Type} [Add α]

theorem step_nil (P : GraphSearchPlanner α) (s : State α) (h : s.node_queue = []) :
    step P s = (s, some Exit.FrontierExhausted) := by
  unfold step; rw [h]

theorem step_open_empty (P : GraphSearchPlanner α) (s : State α)
    (h : s.open_set.length = 0) : step P s = (s, some Exit.FrontierExhausted) := by
  unfold step
  split
  · rfl
  · simp [h]

theorem step_goal (P : GraphSearchPlanner α) (s : State α) (cur : Node α)
    (rest : List (Node α)) (hq : s.node_queue = cur :: rest) (ho : s.open_set.length ≠ 0)
    (hg : cur.x = s.ngoal.x ∧ cur.y = s.ngoal.y) :
    step P s = ({ pop P s cur rest with ngoal := handOver s.ngoal cur }, some Exit.GoalFound) := by
  unfold step; rw [hq]
  simp [ho, hg, pop, handOver]

theorem step_expand (P : GraphSearchPlanner α) (s : State α) (cur : Node α)
    (rest : List (Node α)) (hq : s.node_queue = cur :: rest) (ho : s.open_set.length ≠ 0)
    (hg : ¬ (cur.x = s.ngoal.x ∧ cur.y = s.ngoal.y)) :
    step P s = (P.motion.foldl (tryInsert P cur (calc_grid_index P cur)) (pop P s cur rest),
      none) := by
  unfold step; rw [hq]
  simp only [ho, if_false]
  rw [if_neg hg]
  rfl

theorem core_init (P : GraphSearchPlanner α) (nstart ngoal : Node α)
    (h0 : nstart.depth = 0) : Core P nstart ngoal (initState P nstart ngoal) := by
  constructor <;> simp [initState, closedNodes, NodeMap.set, NodeMap.erase, entry, Origin, h0]

theorem pop_closedNodes (P : GraphSearchPlanner α) (nstart ngoal0 : Node α) (s : State α)
    (cur : Node α) (rest : List (Node α)) (hc : Core P nstart ngoal0 s)
    (hq : s.node_queue = cur :: rest) :
    (pop P s cur rest).closed_set = (closedNodes s ++ [cur]).map (entry P) ∧
    closedNodes (pop P s cur rest) = closedNodes s ++ [cur] ∧
    (pop P s cur rest).open_set = rest.map (entry P) := by
  have hnd := hc.nodup
  rw [hq] at hnd
  simp only [List.map_append, List.map_cons] at hnd
  have hnd2 := List.nodup_append.mp hnd
  have hk1 : calc_grid_index P cur ∉ s.closed_set.map Prod.fst := by
    rw [hc.closed_eq, map_fst_entry]
    intro hmem
    exact hnd2.2.2 hmem (List.mem_cons_self _ _)
  have hk2 : calc_grid_index P cur ∉ (rest.map (entry P)).map Prod.fst := by
    rw [map_fst_entry]
    exact (List.nodup_cons.mp hnd2.2.1).1
  have e1 : (pop P s cur rest).closed_set = (closedNodes s ++ [cur]).map (entry P) := by
    show NodeMap.set s.closed_set _ _ = _
    rw [set_of_not_mem _ _ _ hk1]
    conv_lhs => rw [hc.closed_eq]
    simp [entry]
  refine ⟨e1, ?_, ?_⟩
  · unfold closedNodes; rw [e1, map_snd_entry]; rfl
  · show NodeMap.erase s.open_set _ = _
    rw [hc.open_eq, hq]
    exact erase_head _ _ _ hk2

theorem origin_mono (P : GraphSearchPlanner α) (nstart : Node α) (cl cl2 : List (Node α))
    (n : Node α) (hsub : ∀ p ∈ cl, p ∈ cl2) (h : Origin P nstart cl n) :
    Origin P nstart cl2 n := by
  rcases h with h | ⟨p, m, hp, hm, hn, hv⟩
  · exact Or.inl h
  · exact Or.inr ⟨p, m, hsub p hp, hm, hn, hv⟩

end

section

variable {α : Type}

theorem closed_length (s : State α) : s.closed_set.length = (closedNodes s).length := by
  simp [closedNodes]

end

section

variable {α : Type} [Add α]

theorem pop_closed_length (P : GraphSearchPlanner α) (nstart ngoal0 : Node α) (s : State α)
    (cur : Node α) (rest : List (Node α)) (hc : Core P nstart ngoal0 s)
    (hq : s.node_queue = cur :: rest) :
    (pop P s cur rest).closed_set.length = s.closed_set.length + 1 := by
  rw [closed_length, closed_length, (pop_closedNodes P nstart ngoal0 s cur rest hc hq).2.1]
  simp

theorem core_pop (P : GraphSearchPlanner α) (nstart ngoal0 : Node α) (s : State α)
    (cur : Node α) (rest : List (Node α)) (hc : Core P nstart ngoal0 s)
    (hq : s.node_queue = cur :: rest) :
    Core P nstart ngoal0 (pop P s cur rest) := by
  obtain ⟨e1, e2, e3⟩ := pop_closedNodes P nstart ngoal0 s cur rest hc hq
  have hlen := pop_closed_length P nstart ngoal0 s cur rest hc hq
  have hq2 : (pop P s cur rest).node_queue = rest := rfl
  constructor
  · rw [e3, hq2]
  · rw [e1, e2]
  · rw [e2, hq2]
    have := hc.nodup
    rw [hq] at this
    simpa using this
  · rw [e2, hq2]
    intro n hn
    apply origin_mono P nstart (closedNodes s) _ n (fun p hp => List.mem_append_left _ hp)
    apply hc.origin
    rw [hq]
    simpa using hn
  · exact hc.goal_eq
  · rw [e2, hq2]
    have := hc.start_mem
    rw [hq] at this
    simpa using this
  · rw [e2, hlen]
    intro n hn
    rcases List.mem_append.mp hn with h | h
    · exact Nat.lt_succ_of_lt (hc.depth_closed n h)
    · simp at h; subst h
      exact Nat.lt_succ_of_le (hc.depth_queue n (by rw [hq]; simp))
  · rw [hq2, hlen]
    intro n hn
    exact Nat.le_succ_of_le (hc.depth_queue n (by rw [hq]; simp [hn]))

theorem tryInsert_cases (P : GraphSearchPlanner α) (nstart ngoal0 : Node α) (s : State α)
    (cur : Node α) (key : Int) (m : Int × Int × α) (hc : Core P nstart ngoal0 s) :
    (tryInsert P cur key s m = s ∧
      (verify_node P (neighbour cur key m) = true →
        calc_grid_index P (neighbour cur key m) ∈
          (closedNodes s ++ s.node_queue).map (calc_grid_index P))) ∨
    (tryInsert P cur key s m = insertNode P s (neighbour cur key m) ∧
      verify_node P (neighbour cur key m) = true ∧
      calc_grid_index P (neighbour cur key m) ∉
          (closedNodes s ++ s.node_queue).map (calc_grid_index P)) := by
  unfold tryInsert
  simp only []
  by_cases hv : verify_node P (neighbour cur key m) = true
  · simp only [hv, Bool.not_true, Bool.false_eq_true, if_false]
    have h1 := find_isNone_iff s.closed_set (calc_grid_index P (neighbour cur key m))
    have h2 := find_isNone_iff s.open_set (calc_grid_index P (neighbour cur key m))
    rw [hc.closed_eq, map_fst_entry] at h1
    rw [hc.open_eq, map_fst_entry] at h2
    rw [← hc.closed_eq] at h1
    rw [← hc.open_eq] at h2
    by_cases hf : ((s.closed_set.find (calc_grid_index P (neighbour cur key m))).isNone &&
        (s.open_set.find (calc_grid_index P (neighbour cur key m))).isNone) = true
    · rw [if_pos hf]
      right
      rw [Bool.and_eq_true] at hf
      refine ⟨rfl, trivial, ?_⟩
      rw [List.map_append, List.mem_append]
      intro h
      rcases h with h | h
      · exact (h1.mp hf.1) h
      · exact (h2.mp hf.2) h
    · rw [if_neg hf]
      left
      refine ⟨rfl, fun _ => ?_⟩
      rw [List.map_append, List.mem_append]
      by_contra hcon
      apply hf
      rw [Bool.and_eq_true]
      exact ⟨h1.mpr (fun h => hcon (Or.inl h)), h2.mpr (fun h => hcon (Or.inr h))⟩
  · left
    have hv2 : verify_node P (neighbour cur key m) = false := by
      cases h : verify_node P (neighbour cur key m) <;> simp_all
    simp [hv2]

theorem core_insertNode (P : GraphSearchPlanner α) (nstart ngoal0 : Node α) (s : State α)
    (cur : Node α) (m : Int × Int × α) (hc : Core P nstart ngoal0 s)
    (hcur : cur ∈ closedNodes s) (hm : m ∈ P.motion)
    (hv : verify_node P (neighbour cur (calc_grid_index P cur) m) = true)
    (hk : calc_grid_index P (neighbour cur (calc_grid_index P cur) m) ∉
          (closedNodes s ++ s.node_queue).map (calc_grid_index P)) :
    Core P nstart ngoal0 (insertNode P s (neighbour cur (calc_grid_index P cur) m)) := by
  set node := neighbour cur (calc_grid_index P cur) m with hnode
  have hcl : closedNodes (insertNode P s node) = closedNodes s := rfl
  have hq : (insertNode P s node).node_queue = s.node_queue ++ [node] := rfl
  have hcs : (insertNode P s node).closed_set = s.closed_set := rfl
  rw [List.map_append, List.mem_append, not_or] at hk
  constructor
  · show NodeMap.set s.open_set _ _ = _
    rw [set_of_not_mem, hq, hc.open_eq]
    · simp [entry]
    · rw [hc.open_eq, map_fst_entry]; exact hk.2
  · rw [hcl, hcs]; exact hc.closed_eq
  · rw [hcl, hq, ← List.append_assoc, List.map_append]
    apply List.Nodup.append hc.nodup (by simp)
    intro k hk1 hk2
    simp only [List.map_cons, List.map_nil, List.mem_singleton] at hk2
    subst hk2
    rw [List.map_append, List.mem_append] at hk1
    exact hk1.elim hk.1 hk.2
  · rw [hcl, hq, ← List.append_assoc]
    intro n hn
    rcases List.mem_append.mp hn with h | h
    · exact hc.origin n h
    · simp only [List.mem_singleton] at h
      subst h
      exact Or.inr ⟨cur, m, hcur, hm, rfl, hv⟩
  · exact hc.goal_eq
  · rw [hcl, hq, ← List.append_assoc]
    exact List.mem_append_left _ hc.start_mem
  · rw [hcl, hcs]; exact hc.depth_closed
  · rw [hq, hcs]
    intro n hn
    rcases List.mem_append.mp hn with h | h
    · exact hc.depth_queue n h
    · simp only [List.mem_singleton] at h
      subst h
      exact hc.depth_closed cur hcur

theorem core_tryInsert (P : GraphSearchPlanner α) (nstart ngoal0 : Node α) (s : State α)
    (cur : Node α) (m : Int × Int × α) (hc : Core P nstart ngoal0 s)
    (hcur : cur ∈ closedNodes s) (hm : m ∈ P.motion) :
    Core P nstart ngoal0 (tryInsert P cur (calc_grid_index P cur) s m) := by
  rcases tryInsert_cases P nstart ngoal0 s cur (calc_grid_index P cur) m hc with h | h
  · rw [h.1]; exact hc
  · rw [h.1]; exact core_insertNode P nstart ngoal0 s cur m hc hcur hm h.2.1 h.2.2

theorem fold_tryInsert (P : GraphSearchPlanner α) (cur : Node α) (key : Int)
    (Q : State α → Prop) (R : Int × Int × α → State α → Prop)
    (hstep : ∀ s m, m ∈ P.motion → Q s →
      Q (tryInsert P cur key s m) ∧ R m (tryInsert P cur key s m))
    (hmono : ∀ s m m2, m2 ∈ P.motion → Q s → R m s → R m (tryInsert P cur key s m2)) :
    ∀ (ms : List (Int × Int × α)) (s : State α), (∀ m ∈ ms, m ∈ P.motion) → Q s →
      Q (ms.foldl (tryInsert P cur key) s) ∧
      ∀ m ∈ ms, R m (ms.foldl (tryInsert P cur key) s) := by
  intro ms
  induction ms using List.reverseRecOn with
  | nil => intro s _ hq; exact ⟨hq, by simp⟩
  | append_singleton ms m ih =>
    intro s hsub hq
    rw [List.foldl_append]
    simp only [List.foldl_cons, List.foldl_nil]
    have hm : m ∈ P.motion := hsub m (by simp)
    obtain ⟨hq1, hr1⟩ := ih s (fun x hx => hsub x (by simp [hx])) hq
    obtain ⟨hq2, hr2⟩ := hstep _ m hm hq1
    refine ⟨hq2, ?_⟩
    intro x hx
    rcases List.mem_append.mp hx with h | h
    · exact hmono _ x m hm hq1 (hr1 x h)
    · simp only [List.mem_singleton] at h
      subst h; exact hr2

theorem step_running_inv (P : GraphSearchPlanner α) (s s2 : State α)
    (h : step P s = (s2, none)) :
    ∃ cur rest, s.node_queue = cur :: rest ∧ s.open_set.length ≠ 0 ∧
      ¬ (cur.x = s.ngoal.x ∧ cur.y = s.ngoal.y) ∧
      s2 = P.motion.foldl (tryInsert P cur (calc_grid_index P cur)) (pop P s cur rest) := by
  cases hq : s.node_queue with
  | nil => rw [step_nil P s hq] at h; simp at h
  | cons cur rest =>
    by_cases ho : s.open_set.length = 0
    · rw [step_open_empty P s ho] at h; simp at h
    · by_cases hg : cur.x = s.ngoal.x ∧ cur.y = s.ngoal.y
      · rw [step_goal P s cur rest hq ho hg] at h; simp at h
      · rw [step_expand P s cur rest hq ho hg] at h
        simp only [Prod.mk.injEq, and_true] at h
        exact ⟨cur, rest, rfl, ho, hg, h.symm⟩

theorem step_goal_inv (P : GraphSearchPlanner α) (s s2 : State α)
    (h : step P s = (s2, some Exit.GoalFound)) :
    ∃ cur rest, s.node_queue = cur :: rest ∧ s.open_set.length ≠ 0 ∧
      (cur.x = s.ngoal.x ∧ cur.y = s.ngoal.y) ∧
      s2 = { pop P s cur rest with ngoal := handOver s.ngoal cur } := by
  cases hq : s.node_queue with
  | nil => rw [step_nil P s hq] at h; simp at h
  | cons cur rest =>
    by_cases ho : s.open_set.length = 0
    · rw [step_open_empty P s ho] at h; simp at h
    · by_cases hg : cur.x = s.ngoal.x ∧ cur.y = s.ngoal.y
      · rw [step_goal P s cur rest hq ho hg] at h
        simp only [Prod.mk.injEq, and_true] at h
        exact ⟨cur, rest, rfl, ho, hg, h.symm⟩
      · rw [step_expand P s cur rest hq ho hg] at h; simp at h

theorem step_exhausted_inv (P : GraphSearchPlanner α) (s s2 : State α)
    (h : step P s = (s2, some Exit.FrontierExhausted)) :
    s2 = s ∧ (s.node_queue = [] ∨ s.open_set.length = 0) := by
  cases hq : s.node_queue with
  | nil => rw [step_nil P s hq] at h; simp at h; exact ⟨h.symm, Or.inl rfl⟩
  | cons cur rest =>
    by_cases ho : s.open_set.length = 0
    · rw [step_open_empty P s ho] at h; simp at h; exact ⟨h.symm, Or.inr ho⟩
    · by_cases hg : cur.x = s.ngoal.x ∧ cur.y = s.ngoal.y
      · rw [step_goal P s cur rest hq ho hg] at h; simp at h
      · rw [step_expand P s cur rest hq ho hg] at h; simp at h

theorem run_succ_running (P : GraphSearchPlanner α) (n : Nat) (s s2 : State α)
    (h : step P s = (s2, none)) : run P (n + 1) s = run P n s2 := by
  simp [run, h]

theorem run_succ_exit (P : GraphSearchPlanner α) (n : Nat) (s s2 : State α) (e : Exit)
    (h : step P s = (s2, some e)) : run P (n + 1) s = some (e, s2) := by
  simp [run, h]

theorem run_last (P : GraphSearchPlanner α) (Inv : State α → Prop)
    (hpres : ∀ t t2, Inv t → step P t = (t2, none) → Inv t2) :
    ∀ (n : Nat) (s s2 : State α) (e : Exit), Inv s → run P n s = some (e, s2) →
      ∃ t, Inv t ∧ step P t = (s2, some e) := by
  intro n
  induction n with
  | zero => intro s s2 e _ h; simp [run] at h
  | succ n ih =>
    intro s s2 e hinv h
    rcases hst : step P s with ⟨t2, _ | e2⟩
    · rw [run_succ_running P n s t2 hst] at h
      exact ih t2 s2 e (hpres s t2 hinv hst) h
    · rw [run_succ_exit P n s t2 e2 hst] at h
      simp only [Option.some.injEq, Prod.mk.injEq] at h
      obtain ⟨h1, h2⟩ := h
      subst h1; subst h2
      exact ⟨s, hinv, hst⟩

theorem run_mono (P : GraphSearchPlanner α) (k : Nat) :
    ∀ (n : Nat) (s : State α) (r : Exit × State α), run P n s = some r →
      run P (n + k) s = some r := by
  intro n
  induction n with
  | zero => intro s r h; simp [run] at h
  | succ n ih =>
    intro s r h
    have e : n + 1 + k = (n + k) + 1 := by omega
    rw [e]
    rcases hst : step P s with ⟨t2, _ | e2⟩
    · rw [run_succ_running P n s t2 hst] at h
      rw [run_succ_running P (n + k) s t2 hst]
      exact ih t2 r h
    · rw [run_succ_exit P n s t2 e2 hst] at h
      rw [run_succ_exit P (n + k) s t2 e2 hst]
      exact h

/-- What one pass of the loop body that stays in the loop does: `cur` moves
from the queue to the visited map, the admitted neighbours of `cur` are
appended to the queue, and afterwards the key of every neighbour passing
`verify_node` is stored. -/
theorem core_step (P : GraphSearchPlanner α) (nstart ngoal0 : Node α) (s s2 : State α)
    (hc : Core P nstart ngoal0 s) (h : step P s = (s2, none)) :
    Core P nstart ngoal0 s2 ∧ s2.closed_set.length = s.closed_set.length + 1 ∧
    ∃ cur rest new, s.node_queue = cur :: rest ∧ ¬ (cur.x = ngoal0.x ∧ cur.y = ngoal0.y) ∧
      closedNodes s2 = closedNodes s ++ [cur] ∧ s2.node_queue = rest ++ new ∧
      (∀ x ∈ new, ∃ m ∈ P.motion, x = neighbour cur (calc_grid_index P cur) m ∧
        verify_node P x = true) ∧
      (∀ m ∈ P.motion, verify_node P (neighbour cur (calc_grid_index P cur) m) = true →
        calc_grid_index P (neighbour cur (calc_grid_index P cur) m) ∈
          (closedNodes s2 ++ s2.node_queue).map (calc_grid_index P)) := by
  obtain ⟨cur, rest, hq, _, hg, hs2⟩ := step_running_inv P s s2 h
  rw [hc.goal_eq] at hg
  have hp := core_pop P nstart ngoal0 s cur rest hc hq
  have hlen := pop_closed_length P nstart ngoal0 s cur rest hc hq
  have hcl := (pop_closedNodes P nstart ngoal0 s cur rest hc hq).2.1
  have hcur : cur ∈ closedNodes (pop P s cur rest) := by
    rw [hcl]; simp
  have := fold_tryInsert P cur (calc_grid_index P cur)
    (fun t => Core P nstart ngoal0 t ∧ t.closed_set = (pop P s cur rest).closed_set ∧
      ∃ new, t.node_queue = rest ++ new ∧
        ∀ x ∈ new, ∃ m ∈ P.motion, x = neighbour cur (calc_grid_index P cur) m ∧
          verify_node P x = true)
    (fun m t => verify_node P (neighbour cur (calc_grid_index P cur) m) = true →
        calc_grid_index P (neighbour cur (calc_grid_index P cur) m) ∈
          (closedNodes t ++ t.node_queue).map (calc_grid_index P))
    (by
      intro t m hm ⟨hct, hcl, new, hnew, hall⟩
      have hcur2 : cur ∈ closedNodes t := by
        unfold closedNodes; rw [hcl]; exact hcur
      refine ⟨⟨core_tryInsert P nstart ngoal0 t cur m hct hcur2 hm, ?_⟩, ?_⟩
      · rcases tryInsert_cases P nstart ngoal0 t cur (calc_grid_index P cur) m hct with h | h
        · rw [h.1]; exact ⟨hcl, new, hnew, hall⟩
        · rw [h.1]
          refine ⟨hcl, new ++ [neighbour cur (calc_grid_index P cur) m], ?_, ?_⟩
          · show t.node_queue ++ _ = _
            rw [hnew, List.append_assoc]
          · intro x hx
            rcases List.mem_append.mp hx with hx | hx
            · exact hall x hx
            · simp only [List.mem_singleton] at hx
              subst hx
              exact ⟨m, hm, rfl, h.2.1⟩
      · rcases tryInsert_cases P nstart ngoal0 t cur (calc_grid_index P cur) m hct with h | h
        · rw [h.1]; exact h.2
        · rw [h.1]
          intro _
          apply List.mem_map.mpr
          refine ⟨neighbour cur (calc_grid_index P cur) m, ?_, rfl⟩
          apply List.mem_append_right
          show _ ∈ t.node_queue ++ [_]
          simp)
    (by
      intro t m m2 _ ⟨hct, _, _⟩ hr hv
      have hk := hr hv
      rcases tryInsert_cases P nstart ngoal0 t cur (calc_grid_index P cur) m2 hct with h | h
      · rw [h.1]; exact hk
      · rw [h.1]
        obtain ⟨x, hx, hxk⟩ := List.mem_map.mp hk
        apply List.mem_map.mpr
        refine ⟨x, ?_, hxk⟩
        rcases List.mem_append.mp hx with hx | hx
        · exact List.mem_append_left _ hx
        · apply List.mem_append_right
          show _ ∈ t.node_queue ++ [_]
          exact List.mem_append_left _ hx)
    P.motion (pop P s cur rest) (fun m hm => hm) ⟨hp, rfl, [], by simp [pop], by simp⟩
  rw [← hs2] at this
  obtain ⟨⟨h1, h2, new, h3, h4⟩, h5⟩ := this
  refine ⟨h1, by rw [h2, hlen], cur, rest, new, hq, hg, ?_, h3, h4, h5⟩
  unfold closedNodes at hcl ⊢
  rw [h2, hcl]

end

section

variable {α : Type}

theorem is_free_iff (P : GraphSearchPlanner α) (cx cy : Int) :
    is_free P cx cy = true ↔ InGrid P cx cy ∧ P.obmap cx cy = false := by
  unfold is_free InGrid
  simp only [Bool.and_eq_true, decide_eq_true_eq, Bool.not_eq_true']
  tauto

theorem key_range (P : GraphSearchPlanner α) (cx cy : Int) (h : InGrid P cx cy) :
    0 ≤ cx + cy * (P.xwidth : Int) ∧ cx + cy * (P.xwidth : Int) < ((P.xwidth * P.ywidth : Nat) : Int) := by
  obtain ⟨h1, h2, h3, h4⟩ := h
  push_cast
  constructor
  · positivity
  · nlinarith

theorem key_inj (P : GraphSearchPlanner α) (ax ay bx b_y : Int) (ha : InGrid P ax ay)
    (hb : InGrid P bx b_y)
    (h : ax + ay * (P.xwidth : Int) = bx + b_y * (P.xwidth : Int)) : ax = bx ∧ ay = b_y := by
  obtain ⟨a1, a2, a3, a4⟩ := ha
  obtain ⟨b1, b2, b3, b4⟩ := hb
  have hy : ay = b_y := by
    by_contra hne
    rcases lt_or_gt_of_ne hne with hlt | hgt
    · have : ay + 1 ≤ b_y := hlt
      nlinarith
    · have : b_y + 1 ≤ ay := hgt
      nlinarith
  subst hy
  exact ⟨by linarith, rfl⟩

theorem length_le_of_keys (L : List Int) (k0 : Int) (N : Nat) (hnd : L.Nodup)
    (h : ∀ k ∈ L, k = k0 ∨ (0 ≤ k ∧ k < (N : Int))) : L.length ≤ N + 1 := by
  rw [← List.toFinset_card_of_nodup hnd]
  have hsub : L.toFinset ⊆ insert k0 (Finset.Ico (0 : Int) (N : Int)) := by
    intro k hk
    rw [List.mem_toFinset] at hk
    rw [Finset.mem_insert, Finset.mem_Ico]
    exact h k hk
  calc L.toFinset.card ≤ (insert k0 (Finset.Ico (0 : Int) (N : Int))).card :=
        Finset.card_le_card hsub
    _ ≤ (Finset.Ico (0 : Int) (N : Int)).card + 1 := Finset.card_insert_le _ _
    _ = N + 1 := by simp

theorem length_le_of_keys_in (L : List Int) (N : Nat) (hnd : L.Nodup)
    (h : ∀ k ∈ L, 0 ≤ k ∧ k < (N : Int)) : L.length ≤ N := by
  rw [← List.toFinset_card_of_nodup hnd]
  have hsub : L.toFinset ⊆ Finset.Ico (0 : Int) (N : Int) := by
    intro k hk
    rw [List.mem_toFinset] at hk
    rw [Finset.mem_Ico]
    exact h k hk
  calc L.toFinset.card ≤ (Finset.Ico (0 : Int) (N : Int)).card := Finset.card_le_card hsub
    _ = N := by simp

end

section

variable {α : Type} [Add α]

theorem origin_inGrid (P : GraphSearchPlanner α) (nstart : Node α) (cl : List (Node α))
    (n : Node α) (h : Origin P nstart cl n) : n = nstart ∨ InGrid P n.x n.y := by
  rcases h with h | ⟨p, m, _, _, _, hv⟩
  · exact Or.inl h
  · exact Or.inr ((is_free_iff P n.x n.y).mp hv).1

theorem core_bound (P : GraphSearchPlanner α) (nstart ngoal0 : Node α) (s : State α)
    (hc : Core P nstart ngoal0 s) :
    s.closed_set.length + s.node_queue.length ≤ P.xwidth * P.ywidth + 1 := by
  have h := length_le_of_keys _ (calc_grid_index P nstart) (P.xwidth * P.ywidth) hc.nodup
    (by
      intro k hk
      obtain ⟨n, hn, rfl⟩ := List.mem_map.mp hk
      rcases origin_inGrid P nstart _ n (hc.origin n hn) with h | h
      · left; rw [h]
      · right; exact key_range P n.x n.y h)
  rw [closed_length]
  simpa using h

theorem core_bound_in (P : GraphSearchPlanner α) (nstart ngoal0 : Node α) (s : State α)
    (hc : Core P nstart ngoal0 s) (hs : InGrid P nstart.x nstart.y) :
    s.closed_set.length + s.node_queue.length ≤ P.xwidth * P.ywidth := by
  have h := length_le_of_keys_in _ (P.xwidth * P.ywidth) hc.nodup
    (by
      intro k hk
      obtain ⟨n, hn, rfl⟩ := List.mem_map.mp hk
      rcases origin_inGrid P nstart _ n (hc.origin n hn) with h | h
      · rw [h]; exact key_range P _ _ hs
      · exact key_range P n.x n.y h)
  rw [closed_length]
  simpa using h

theorem run_terminates (P : GraphSearchPlanner α) (nstart ngoal0 : Node α) (T : Nat)
    (hT : ∀ t, Core P nstart ngoal0 t → t.closed_set.length + t.node_queue.length ≤ T) :
    ∀ (fuel : Nat) (s : State α), Core P nstart ngoal0 s →
      T + 1 ≤ s.closed_set.length + fuel → ∃ r, run P fuel s = some r := by
  intro fuel
  induction fuel with
  | zero =>
    intro s hc h
    have := hT s hc
    omega
  | succ n ih =>
    intro s hc h
    rcases hst : step P s with ⟨t2, _ | e2⟩
    · rw [run_succ_running P n s t2 hst]
      obtain ⟨hc2, hlen, _⟩ := core_step P nstart ngoal0 s t2 hc hst
      exact ih t2 hc2 (by omega)
    · rw [run_succ_exit P n s t2 e2 hst]
      exact ⟨_, rfl⟩

end

section

variable {α : Type}

theorem handOver_parent_index (g cur : Node α) :
    (handOver g cur).parent_index = cur.parent_index := by
  cases g <;> rfl

theorem handOver_cost (g cur : Node α) : (handOver g cur).cost = cur.cost := by
  cases g <;> rfl

theorem handOver_x (g cur : Node α) : (handOver g cur).x = g.x := by
  cases g <;> rfl

theorem handOver_y (g cur : Node α) : (handOver g cur).y = g.y := by
  cases g <;> rfl

theorem handOver_parent (g cur : Node α) : (handOver g cur).parent = g.parent := by
  cases g <;> rfl

theorem pred_chain_stop (c : NodeMap α) (fuel : Nat) : pred_chain c fuel (-1) = some [] := by
  unfold pred_chain; simp

theorem pred_chain_succ (c : NodeMap α) (f : Nat) (idx : Int) (n : Node α) (h1 : idx ≠ -1)
    (h2 : NodeMap.find c idx = some n) :
    pred_chain c (f + 1) idx = (pred_chain c f n.parent_index).map (fun r => n :: r) := by
  rw [pred_chain]
  simp [h1, h2]

theorem depth_ancestors (n : Node α) :
    List.Pairwise (fun a b : Node α => b.depth < a.depth) (n :: n.ancestors) := by
  induction n with
  | root x y c i => simp [Node.ancestors]
  | child x y c i p ih =>
    simp only [Node.ancestors]
    rw [List.pairwise_cons]
    refine ⟨?_, ih⟩
    intro b hb
    rw [List.pairwise_cons] at ih
    rcases List.mem_cons.mp hb with h | h
    · subst h; simp [Node.depth]
    · have := ih.1 b h
      simp only [Node.depth]; omega

theorem length_ancestors (n : Node α) : n.ancestors.length = n.depth := by
  induction n with
  | root x y c i => rfl
  | child x y c i p ih => simp [Node.ancestors, Node.depth, ih]

end

section

variable {α : Type} [Add α]

theorem core_find (P : GraphSearchPlanner α) (nstart ngoal0 : Node α) (s : State α)
    (hc : Core P nstart ngoal0 s) (p : Node α) (hp : p ∈ closedNodes s) :
    NodeMap.find s.closed_set (calc_grid_index P p) = some p := by
  apply find_of_mem
  · rw [hc.closed_eq, map_fst_entry]
    have := hc.nodup
    rw [List.map_append] at this
    exact (List.nodup_append.mp this).1
  · rw [hc.closed_eq]
    exact List.mem_map.mpr ⟨p, hp, rfl⟩

theorem core_key_nonneg (P : GraphSearchPlanner α) (nstart ngoal0 : Node α) (s : State α)
    (hc : Core P nstart ngoal0 s) (hin : InGrid P nstart.x nstart.y) (p : Node α)
    (hp : p ∈ closedNodes s ++ s.node_queue) : InGrid P p.x p.y := by
  rcases origin_inGrid P nstart _ p (hc.origin p hp) with h | h
  · rw [h]; exact hin
  · exact h

/-- The predecessor walk from a visited node: it ends, stays inside the
visited map, links nodes generated from one another, and follows the parent
pointers when the start cell is inside the grid. -/
theorem pred_chain_spec (P : GraphSearchPlanner α) (x0 y0 : Int) (c0 : α) (ngoal0 : Node α)
    (s : State α) (hc : Core P (Node.root x0 y0 c0 (-1)) ngoal0 s) :
    ∀ (fuel : Nat) (n : Node α), n ∈ closedNodes s → n.depth ≤ fuel →
      ∃ ns, pred_chain s.closed_set fuel n.parent_index = some ns ∧
        (∀ x ∈ ns, x ∈ closedNodes s) ∧ List.Chain' (GeneratedFrom P) (n :: ns) ∧
        (InGrid P x0 y0 → ns = n.ancestors) := by
  intro fuel
  induction fuel with
  | zero =>
    intro n hn hd
    rcases hc.origin n (List.mem_append_left _ hn) with h | ⟨p, m, hp, hm, hnp, hv⟩
    · subst h
      exact ⟨[], pred_chain_stop _ _, by simp, by simp, fun _ => rfl⟩
    · subst hnp
      simp [neighbour, Node.depth] at hd
  | succ f ih =>
    intro n hn hd
    rcases hc.origin n (List.mem_append_left _ hn) with h | ⟨p, m, hp, hm, hnp, hv⟩
    · subst h
      exact ⟨[], pred_chain_stop _ _, by simp, by simp, fun _ => rfl⟩
    · subst hnp
      have hpi : (neighbour p (calc_grid_index P p) m).parent_index = calc_grid_index P p := rfl
      rw [hpi]
      by_cases hk : calc_grid_index P p = -1
      · rw [hk]
        refine ⟨[], pred_chain_stop _ _, by simp, by simp, ?_⟩
        intro hin
        have := core_key_nonneg P _ ngoal0 s hc hin p (List.mem_append_left _ hp)
        have := (key_range P p.x p.y this).1
        unfold calc_grid_index at hk
        omega
      · have hd2 : p.depth ≤ f := by
          simp only [neighbour, Node.depth] at hd; omega
        obtain ⟨ns, h1, h2, h3, h4⟩ := ih p hp hd2
        refine ⟨p :: ns, ?_, ?_, ?_, ?_⟩
        · rw [pred_chain_succ _ f _ p hk (core_find P _ ngoal0 s hc p hp), h1]; rfl
        · intro x hx
          rcases List.mem_cons.mp hx with h | h
          · rw [h]; exact hp
          · exact h2 x h
        · exact List.Chain'.cons ⟨m, hm, rfl⟩ h3
        · intro hin
          rw [h4 hin]; rfl

/-- Following parent pointers from a visited node ends at the start node. -/
theorem last_ancestor (P : GraphSearchPlanner α) (x0 y0 : Int) (c0 : α) (ngoal0 : Node α)
    (s : State α) (hc : Core P (Node.root x0 y0 c0 (-1)) ngoal0 s) :
    ∀ n : Node α, n ∈ closedNodes s →
      (n :: n.ancestors).getLast? = some (Node.root x0 y0 c0 (-1)) ∧
      ∀ x ∈ n.ancestors, x ∈ closedNodes s := by
  intro n
  induction n with
  | root x y c i =>
    intro hn
    rcases hc.origin _ (List.mem_append_left _ hn) with h | ⟨p, m, hp, hm, hnp, hv⟩
    · rw [h]; simp [Node.ancestors]
    · simp [neighbour] at hnp
  | child x y c i p ih =>
    intro hn
    rcases hc.origin _ (List.mem_append_left _ hn) with h | ⟨p2, m, hp, hm, hnp, hv⟩
    · simp at h
    · simp only [neighbour, Node.child.injEq] at hnp
      obtain ⟨_, _, _, _, hpp⟩ := hnp
      subst hpp
      obtain ⟨h1, h2⟩ := ih hp
      simp only [Node.ancestors]
      refine ⟨?_, ?_⟩
      · rw [List.getLast?_cons_cons]; exact h1
      · intro z hz
        rcases List.mem_cons.mp hz with h | h
        · rw [h]; exact hp
        · exact h2 z h

/-- Distinct visited nodes lie on distinct cells when the start cell is inside
the grid. -/
theorem core_cell_inj (P : GraphSearchPlanner α) (nstart ngoal0 : Node α) (s : State α)
    (hc : Core P nstart ngoal0 s) (a b : Node α)
    (ha : a ∈ closedNodes s ++ s.node_queue) (hb : b ∈ closedNodes s ++ s.node_queue)
    (h : a.cell = b.cell) : a = b := by
  apply List.inj_on_of_nodup_map hc.nodup ha hb
  unfold calc_grid_index
  simp only [Node.cell, Prod.mk.injEq] at h
  rw [h.1, h.2]

theorem ancestors_cells_nodup (P : GraphSearchPlanner α) (x0 y0 : Int) (c0 : α)
    (ngoal0 : Node α) (s : State α) (hc : Core P (Node.root x0 y0 c0 (-1)) ngoal0 s)
    (n : Node α) (hn : n ∈ closedNodes s) :
    ((n :: n.ancestors).map Node.cell).Nodup := by
  have hmem : ∀ x ∈ n :: n.ancestors, x ∈ closedNodes s := by
    intro x hx
    rcases List.mem_cons.mp hx with h | h
    · rw [h]; exact hn
    · exact (last_ancestor P x0 y0 c0 ngoal0 s hc n hn).2 x h
  unfold List.Nodup
  rw [List.pairwise_map]
  apply List.Pairwise.imp_of_mem _ (depth_ancestors n)
  intro a b ha hb hlt heq
  have := core_cell_inj P _ ngoal0 s hc a b (List.mem_append_left _ (hmem a ha))
    (List.mem_append_left _ (hmem b hb)) heq
  rw [this] at hlt
  exact lt_irrefl _ hlt

end

section

variable {α : Type}

theorem cpp_round_intCast (n : Int) : cpp_round (n : ℚ) = n := by
  unfold cpp_round
  split
  · rw [Int.floor_eq_iff]; constructor <;> norm_num
  · have h2 : ⌊-(n : ℚ) + 1 / 2⌋ = -n := by
      rw [Int.floor_eq_iff]; constructor <;> (push_cast; norm_num)
    rw [h2]; omega

theorem calc_xyindex_unit {α : Type} (P : GraphSearchPlanner α) (h : P.reso = 1) (n : Int) :
    calc_xyindex P (n : ℚ) 0 = n := by
  unfold calc_xyindex
  rw [h]
  simpa using cpp_round_intCast n

theorem mk_nstart_unit (w h : Nat) (ob : Int → Int → Bool) (a b : Int) :
    mk_nstart (unitPlanner w h ob) (a : ℚ) (b : ℚ) = Node.root a b 0 (-1) := by
  unfold mk_nstart
  have e1 := calc_xyindex_unit (unitPlanner w h ob) rfl a
  have e2 := calc_xyindex_unit (unitPlanner w h ob) rfl b
  simp only [unitPlanner] at e1 e2 ⊢
  rw [e1, e2]

theorem mk_ngoal_unit (w h : Nat) (ob : Int → Int → Bool) (a b : Int) :
    mk_ngoal (unitPlanner w h ob) (a : ℚ) (b : ℚ) = Node.root a b 0 (-1) :=
  mk_nstart_unit w h ob a b

theorem search_unit (w h : Nat) (ob : Int → Int → Bool) (a b c d : Int) :
    search (unitPlanner w h ob) (a : ℚ) (b : ℚ) (c : ℚ) (d : ℚ) =
      run (unitPlanner w h ob) (w * h + 2)
        (initState (unitPlanner w h ob) (Node.root a b 0 (-1)) (Node.root c d 0 (-1))) := by
  unfold search
  rw [mk_nstart_unit, mk_ngoal_unit]
  rfl

end

section

variable {α : Type} [Add α]

theorem run_exit (P : GraphSearchPlanner α) (nstart ngoal0 : Node α) (Extra : State α → Prop)
    (hpres : ∀ t t2, Core P nstart ngoal0 t → Extra t → step P t = (t2, none) → Extra t2)
    (n : Nat) (s0 s : State α) (e : Exit) (hc : Core P nstart ngoal0 s0) (hx : Extra s0)
    (h : run P n s0 = some (e, s)) :
    ∃ t, Core P nstart ngoal0 t ∧ Extra t ∧ step P t = (s, some e) := by
  obtain ⟨t, ⟨h1, h2⟩, h3⟩ := run_last P (fun t => Core P nstart ngoal0 t ∧ Extra t)
    (fun t t2 ⟨a, b⟩ hst => ⟨(core_step P nstart ngoal0 t t2 a hst).1, hpres t t2 a b hst⟩)
    n s0 s e ⟨hc, hx⟩ h
  exact ⟨t, h1, h2, h3⟩

theorem loop_exit_within (P : GraphSearchPlanner α) (nstart ngoal0 : Node α)
    (h0 : nstart.depth = 0) :
    ∃ (n : Nat) (r : Exit × State α), n ≤ P.xwidth * P.ywidth + 2 ∧
      (InGrid P nstart.x nstart.y → n ≤ P.xwidth * P.ywidth + 1) ∧
      run P n (initState P nstart ngoal0) = some r := by
  have hc := core_init P nstart ngoal0 h0
  by_cases hin : InGrid P nstart.x nstart.y
  · obtain ⟨r, hr⟩ := run_terminates P nstart ngoal0 (P.xwidth * P.ywidth)
      (fun t ht => core_bound_in P nstart ngoal0 t ht hin) (P.xwidth * P.ywidth + 1) _ hc
      (by omega)
    exact ⟨_, r, by omega, fun _ => le_refl _, hr⟩
  · obtain ⟨r, hr⟩ := run_terminates P nstart ngoal0 (P.xwidth * P.ywidth + 1)
      (fun t ht => core_bound P nstart ngoal0 t ht) (P.xwidth * P.ywidth + 2) _ hc
      (by omega)
    exact ⟨_, r, le_refl _, fun h => absurd h hin, hr⟩

theorem run_le (P : GraphSearchPlanner α) (n k : Nat) (hnk : n ≤ k) (s : State α)
    (r : Exit × State α) (h : run P n s = some r) : run P k s = some r := by
  have := run_mono P (k - n) n s r h
  rwa [Nat.add_sub_cancel' hnk] at this

theorem exit_exhausted (P : GraphSearchPlanner α) (nstart ngoal0 : Node α) (n : Nat)
    (s0 s : State α) (hc : Core P nstart ngoal0 s0)
    (h : run P n s0 = some (Exit.FrontierExhausted, s)) :
    Core P nstart ngoal0 s ∧ s.node_queue = [] ∧ s.open_set = [] := by
  obtain ⟨t, ht, _, hst⟩ := run_exit P nstart ngoal0 (fun _ => True)
    (fun _ _ _ _ _ => trivial) n s0 s _ hc trivial h
  obtain ⟨h1, h2⟩ := step_exhausted_inv P t s hst
  subst h1
  have hq : s.node_queue = [] := by
    rcases h2 with h2 | h2
    · exact h2
    · rw [ht.open_eq] at h2
      simpa using h2
  exact ⟨ht, hq, by rw [ht.open_eq, hq]; rfl⟩

/-- The state in which the loop is left through the goal test. -/
theorem exit_goal (P : GraphSearchPlanner α) (nstart ngoal0 : Node α)
    (Extra : State α → Prop)
    (hpres : ∀ t t2, Core P nstart ngoal0 t → Extra t → step P t = (t2, none) → Extra t2)
    (n : Nat) (s0 s : State α) (hc : Core P nstart ngoal0 s0) (hx : Extra s0)
    (h : run P n s0 = some (Exit.GoalFound, s)) :
    ∃ t cur rest, Core P nstart ngoal0 t ∧ Extra t ∧ t.node_queue = cur :: rest ∧
      cur.x = ngoal0.x ∧ cur.y = ngoal0.y ∧
      Core P nstart ngoal0 (pop P t cur rest) ∧
      closedNodes (pop P t cur rest) = closedNodes t ++ [cur] ∧
      s.closed_set = (pop P t cur rest).closed_set ∧ s.ngoal = handOver ngoal0 cur ∧
      s.node_queue = rest ∧ s.open_set = (pop P t cur rest).open_set := by
  obtain ⟨t, ht, hxt, hst⟩ := run_exit P nstart ngoal0 Extra hpres n s0 s _ hc hx h
  obtain ⟨cur, rest, hq, _, hg, hs⟩ := step_goal_inv P t s hst
  rw [ht.goal_eq] at hg hs
  refine ⟨t, cur, rest, ht, hxt, hq, hg.1, hg.2, core_pop P nstart ngoal0 t cur rest ht hq,
    (pop_closedNodes P nstart ngoal0 t cur rest ht hq).2.1, ?_, ?_, ?_, ?_⟩
  all_goals (subst hs; rfl)

end

section

variable {α : Type}

/-- The goal node counts as reached when the visited map holds a node on its
cell, and then `calc_final_path` walks the predecessor chain. -/
theorem final_nodes_reached (g cur : Node α) (c : NodeMap α) (hcur : cur ∈ c.map Prod.snd)
    (hx : cur.x = g.x) (hy : cur.y = g.y) :
    final_nodes g c = (pred_chain c c.length g.parent_index).map (fun r => g :: r) := by
  have hr : goal_reached g c = true := by
    unfold goal_reached
    rw [List.any_eq_true]
    obtain ⟨e, he, hec⟩ := List.mem_map.mp hcur
    exact ⟨e, he, by rw [hec]; simp [hx, hy]⟩
  unfold final_nodes
  rw [if_pos hr]

/-- The reconstruction fails with the empty result when no visited node lies
on the cell of the goal node. -/
theorem final_nodes_unreached (g : Node α) (c : NodeMap α)
    (h : ∀ n ∈ c.map Prod.snd, ¬ (n.x = g.x ∧ n.y = g.y)) :
    final_nodes g c = some [] := by
  have hr : ¬ goal_reached g c = true := by
    unfold goal_reached
    rw [List.any_eq_true]
    rintro ⟨e, he, hec⟩
    apply h e.2 (List.mem_map.mpr ⟨e, he, rfl⟩)
    simpa using hec
  unfold final_nodes
  rw [if_neg hr]

end

section

variable {α : Type} [Add α]

/-- The nodes `calc_final_path` walks after the goal test succeeded. -/
theorem goal_exit_nodes (P : GraphSearchPlanner α) (x0 y0 : Int) (c0 : α) (ngoal0 : Node α)
    (n : Nat) (s : State α)
    (h : run P n (initState P (Node.root x0 y0 c0 (-1)) ngoal0) = some (Exit.GoalFound, s)) :
    ∃ sp cur ns, Core P (Node.root x0 y0 c0 (-1)) ngoal0 sp ∧ cur ∈ closedNodes sp ∧
      s.closed_set = sp.closed_set ∧ s.ngoal = handOver ngoal0 cur ∧
      cur.x = ngoal0.x ∧ cur.y = ngoal0.y ∧
      final_nodes s.ngoal s.closed_set = some (s.ngoal :: ns) ∧
      (∀ x ∈ ns, x ∈ closedNodes sp) ∧ List.Chain' (GeneratedFrom P) (cur :: ns) ∧
      (InGrid P x0 y0 → ns = cur.ancestors) := by
  obtain ⟨t, cur, rest, _, _, _, hgx, hgy, hcp, hcl, hs1, hs2, _, _⟩ :=
    exit_goal P _ ngoal0 (fun _ => True) (fun _ _ _ _ _ => trivial) n _ s
      (core_init P (Node.root x0 y0 c0 (-1)) ngoal0 rfl) trivial h
  have hcur : cur ∈ closedNodes (pop P t cur rest) := by rw [hcl]; simp
  obtain ⟨ns, h1, h2, h3, h4⟩ := pred_chain_spec P x0 y0 c0 ngoal0 _ hcp
    (pop P t cur rest).closed_set.length cur hcur (le_of_lt (hcp.depth_closed cur hcur))
  refine ⟨pop P t cur rest, cur, ns, hcp, hcur, hs1, hs2, hgx, hgy, ?_, h2, h3, h4⟩
  rw [final_nodes_reached s.ngoal cur s.closed_set (by rw [hs1]; exact hcur)
    (by rw [hs2, handOver_x, hgx]) (by rw [hs2, handOver_y, hgy])]
  rw [hs1, hs2, handOver_parent_index, h1]
  rfl

theorem generated_step (P : GraphSearchPlanner α) (a b : Node α) (h : GeneratedFrom P a b) :
    StepFrom P a b := by
  obtain ⟨m, hm, rfl⟩ := h
  exact ⟨m, hm, rfl, rfl⟩

theorem chain_head_swap (P : GraphSearchPlanner α) (g cur : Node α) (ns : List (Node α))
    (hx : g.x = cur.x) (hy : g.y = cur.y) (h : List.Chain' (GeneratedFrom P) (cur :: ns)) :
    List.Chain' (StepFrom P) (g :: ns) := by
  cases ns with
  | nil => simp
  | cons b r =>
    rw [List.chain'_cons] at h ⊢
    refine ⟨?_, List.Chain'.imp (generated_step P) h.2⟩
    obtain ⟨m, hm, h1, h2⟩ := generated_step P cur b h.1
    exact ⟨m, hm, by rw [hx, h1], by rw [hy, h2]⟩

end

section

variable {α : Type} [Add α] [Zero α]

theorem planning_of_search (P : GraphSearchPlanner α) (sx sy gx gy : ℚ) (e : Exit)
    (s : State α) (h : search P sx sy gx gy = some (e, s)) :
    planning P sx sy gx gy = calc_final_path P s.ngoal s.closed_set := by
  unfold planning; rw [h]

end

section

variable {α : Type}

theorem calc_final_path_of_nodes (P : GraphSearchPlanner α) (g : Node α) (c : NodeMap α)
    (ns : List (Node α)) (h : final_nodes g c = some ns) :
    calc_final_path P g c = some (ns.map (world P)) := by
  unfold calc_final_path; rw [h]; rfl

end

section

variable {α : Type} [Add α] [Zero α]

theorem search_of_run (P : GraphSearchPlanner α) (sx sy gx gy : ℚ) (n : Nat)
    (hn : n ≤ P.xwidth * P.ywidth + 2) (r : Exit × State α)
    (h : run P n (initState P (mk_nstart P sx sy) (mk_ngoal P gx gy)) = some r) :
    search P sx sy gx gy = some r :=
  run_le P n _ hn _ r h

end

section

variable {α : Type} [Add α]

theorem same_cell_run (P : GraphSearchPlanner α) (nstart ngoal0 : Node α)
    (hx : nstart.x = ngoal0.x) (hy : nstart.y = ngoal0.y) :
    run P 1 (initState P nstart ngoal0) = some (Exit.GoalFound,
      { open_set := [], closed_set := [(calc_grid_index P nstart, nstart)],
        node_queue := [], ngoal := handOver ngoal0 nstart }) := by
  simp [run, step, initState, NodeMap.set, NodeMap.erase, hx, hy, handOver]

end

section

variable {α : Type} [Add α] [Zero α]

theorem same_cell_planning (P : GraphSearchPlanner α) (sx sy gx gy : ℚ)
    (hx : calc_xyindex P sx P.minx = calc_xyindex P gx P.minx)
    (hy : calc_xyindex P sy P.miny = calc_xyindex P gy P.miny) :
    search P sx sy gx gy = some (Exit.GoalFound,
      { open_set := [],
        closed_set := [(calc_grid_index P (mk_nstart P sx sy), mk_nstart P sx sy)],
        node_queue := [], ngoal := mk_ngoal P gx gy }) ∧
    planning P sx sy gx gy = some [world P (mk_ngoal P gx gy)] := by
  have h1 := same_cell_run P (mk_nstart P sx sy) (mk_ngoal P gx gy) hx hy
  have h2 : handOver (mk_ngoal P gx gy) (mk_nstart P sx sy) = mk_ngoal P gx gy := rfl
  rw [h2] at h1
  have h3 := search_of_run P sx sy gx gy 1 (by omega) _ h1
  refine ⟨h3, ?_⟩
  rw [planning_of_search P sx sy gx gy _ _ h3]
  exact calc_final_path_of_nodes P (mk_ngoal P gx gy) _ [mk_ngoal P gx gy]
    (by simp [final_nodes, goal_reached, mk_ngoal, mk_nstart, Node.x, Node.y, hx, hy,
      Node.parent_index, pred_chain])

/-- C6: when start and goal discretize to the same cell, the first pass of the
loop leaves through the goal test without generating a neighbour: the visited
map holds the start node alone, frontier map and queue are empty, the goal
node has cost 0 and no predecessor (index `-1`, null pointer), and the path
holds the goal cell alone. -/
theorem same_cell_goal_found (P : GraphSearchPlanner α) (sx sy gx gy : ℚ)
    (hx : calc_xyindex P sx P.minx = calc_xyindex P gx P.minx)
    (hy : calc_xyindex P sy P.miny = calc_xyindex P gy P.miny) :
    ∃ s : State α,
      run P 1 (initState P (mk_nstart P sx sy) (mk_ngoal P gx gy)) = some (Exit.GoalFound, s) ∧
      search P sx sy gx gy = some (Exit.GoalFound, s) ∧
      s.closed_set = [(calc_grid_index P (mk_nstart P sx sy), mk_nstart P sx sy)] ∧
      s.open_set = [] ∧ s.node_queue = [] ∧
      s.ngoal.cost = 0 ∧ s.ngoal.parent_index = -1 ∧ s.ngoal.parent = none ∧
      planning P sx sy gx gy =
        some [(calc_grid_position P (calc_xyindex P gx P.minx) P.minx,
               calc_grid_position P (calc_xyindex P gy P.miny) P.miny)] := by
  have h1 := same_cell_run P (mk_nstart P sx sy) (mk_ngoal P gx gy) hx hy
  obtain ⟨h2, h3⟩ := same_cell_planning P sx sy gx gy hx hy
  exact ⟨_, h1, h2, rfl, rfl, rfl, rfl, rfl, rfl, h3⟩

/-- C3 (amended): the loop is left after at most `xwidth * ywidth + 2` passes
through its body (`xwidth * ywidth + 1` when the start cell is inside the
grid), through the goal test, with a removed node on the goal cell, or through
the exhaustion test, with frontier map and queue both empty. -/
theorem planning_loop_terminates (P : GraphSearchPlanner α) (sx sy gx gy : ℚ) :
    ∃ (n : Nat) (e : Exit) (s : State α),
      n ≤ P.xwidth * P.ywidth + 2 ∧
      (InGrid P (calc_xyindex P sx P.minx) (calc_xyindex P sy P.miny) →
        n ≤ P.xwidth * P.ywidth + 1) ∧
      run P n (initState P (mk_nstart P sx sy) (mk_ngoal P gx gy)) = some (e, s) ∧
      search P sx sy gx gy = some (e, s) ∧
      (e = Exit.GoalFound → ∃ cur ∈ closedNodes s,
        cur.x = calc_xyindex P gx P.minx ∧ cur.y = calc_xyindex P gy P.miny) ∧
      (e = Exit.FrontierExhausted → s.node_queue = [] ∧ s.open_set = []) := by
  obtain ⟨n, ⟨e, s⟩, hn, hin, hr⟩ :=
    loop_exit_within P (mk_nstart P sx sy) (mk_ngoal P gx gy) rfl
  refine ⟨n, e, s, hn, hin, hr, search_of_run P sx sy gx gy n hn _ hr, ?_, ?_⟩
  · intro he
    subst he
    obtain ⟨t, cur, rest, _, _, _, hgx, hgy, _, hcl, hs1, _⟩ :=
      exit_goal P _ (mk_ngoal P gx gy) (fun _ => True) (fun _ _ _ _ _ => trivial) n _ s
        (core_init P (mk_nstart P sx sy) (mk_ngoal P gx gy) rfl) trivial hr
    refine ⟨cur, ?_, hgx, hgy⟩
    unfold closedNodes at hcl ⊢
    rw [hs1, hcl]; simp
  · intro he
    subst he
    exact (exit_exhausted P _ _ n _ s
      (core_init P (mk_nstart P sx sy) (mk_ngoal P gx gy) rfl) hr).2

end

section

variable {α : Type} [Add α]

theorem fold_noop (P : GraphSearchPlanner α) (cur : Node α) (key : Int) (s : State α) :
    ∀ ms : List (Int × Int × α),
      (∀ m ∈ ms, is_free P (cur.x + m.1) (cur.y + m.2.1) = false) →
      ms.foldl (tryInsert P cur key) s = s := by
  intro ms
  induction ms with
  | nil => intro _; rfl
  | cons m r ih =>
    intro h
    have h1 : tryInsert P cur key s m = s := by
      have hv : verify_node P (neighbour cur key m) = false := h m (List.mem_cons_self _ _)
      unfold tryInsert
      simp [hv]
    rw [List.foldl_cons, h1]
    exact ih (fun x hx => h x (List.mem_cons_of_mem _ hx))

/-- When the loop is left through the exhaustion test, no visited node lies on
the goal cell: a removed node on the goal cell leaves through the goal test. -/
theorem exhausted_unvisited (P : GraphSearchPlanner α) (nstart ngoal0 : Node α)
    (h0 : nstart.depth = 0) (n : Nat) (s : State α)
    (h : run P n (initState P nstart ngoal0) = some (Exit.FrontierExhausted, s)) :
    GoalUnvisited ngoal0 s := by
  obtain ⟨t, _, hu, hst⟩ := run_exit P nstart ngoal0 (GoalUnvisited ngoal0)
    (fun t t2 hc hx hst => by
      obtain ⟨_, _, cur, rest, new, _, hg, hcl, _⟩ := core_step P nstart ngoal0 t t2 hc hst
      intro x hxm
      rw [hcl] at hxm
      rcases List.mem_append.mp hxm with hxm | hxm
      · exact hx x hxm
      · rw [List.mem_singleton] at hxm
        rw [hxm]; exact hg)
    n _ s _ (core_init P nstart ngoal0 h0)
    (by intro x hxm; simp [closedNodes, initState] at hxm) h
  obtain ⟨h1, _⟩ := step_exhausted_inv P t s hst
  subst h1
  exact hu

end

section

variable {α : Type} [Add α] [Zero α]

theorem exhausted_planning (P : GraphSearchPlanner α) (sx sy gx gy : ℚ) (s : State α)
    (h : search P sx sy gx gy = some (Exit.FrontierExhausted, s)) :
    planning P sx sy gx gy = some [] := by
  have hc := (exit_exhausted P _ _ _ _ s
      (core_init P (mk_nstart P sx sy) (mk_ngoal P gx gy) rfl) h).1
  have hu := exhausted_unvisited P (mk_nstart P sx sy) (mk_ngoal P gx gy) rfl _ s h
  rw [planning_of_search P sx sy gx gy _ _ h, hc.goal_eq]
  exact calc_final_path_of_nodes P (mk_ngoal P gx gy) _ [] (final_nodes_unreached _ _ hu)

end

section

variable {α : Type} [Zero α]

theorem mk_nstart_x (P : GraphSearchPlanner α) (sx sy : ℚ) :
    (mk_nstart P sx sy).x = calc_xyindex P sx P.minx := rfl

theorem mk_nstart_y (P : GraphSearchPlanner α) (sx sy : ℚ) :
    (mk_nstart P sx sy).y = calc_xyindex P sy P.miny := rfl

theorem mk_ngoal_x (P : GraphSearchPlanner α) (gx gy : ℚ) :
    (mk_ngoal P gx gy).x = calc_xyindex P gx P.minx := rfl

theorem mk_ngoal_y (P : GraphSearchPlanner α) (gx gy : ℚ) :
    (mk_ngoal P gx gy).y = calc_xyindex P gy P.miny := rfl

end

section

variable {α : Type} [Add α]

theorem enclosed_run (P : GraphSearchPlanner α) (nstart ngoal0 : Node α)
    (hne : ¬ (nstart.x = ngoal0.x ∧ nstart.y = ngoal0.y))
    (hencl : ∀ m ∈ P.motion, is_free P (nstart.x + m.1) (nstart.y + m.2.1) = false) :
    run P 2 (initState P nstart ngoal0) = some (Exit.FrontierExhausted,
      { open_set := [], closed_set := [(calc_grid_index P nstart, nstart)],
        node_queue := [], ngoal := ngoal0 }) := by
  have hq : (initState P nstart ngoal0).node_queue = nstart :: [] := rfl
  have ho : (initState P nstart ngoal0).open_set.length ≠ 0 := by
    simp [initState, NodeMap.set, NodeMap.erase]
  have h1 := step_expand P _ nstart [] hq ho hne
  rw [fold_noop P _ _ _ P.motion hencl] at h1
  have h2 := step_nil P (pop P (initState P nstart ngoal0) nstart []) rfl
  rw [run_succ_running P 1 _ _ h1, run_succ_exit P 0 _ _ _ h2]
  simp [pop, initState, NodeMap.set, NodeMap.erase]

end

section

variable {α : Type} [Add α] [Zero α]

/-- C4 (amended): when every MotionModel neighbour of the start cell is
occupied or out of bounds and the goal cell is not the start cell, the loop
is left through the exhaustion test, with the start node alone visited. -/
theorem enclosed_start_exhausted (P : GraphSearchPlanner α) (sx sy gx gy : ℚ)
    (hne : ¬ (calc_xyindex P sx P.minx = calc_xyindex P gx P.minx ∧
      calc_xyindex P sy P.miny = calc_xyindex P gy P.miny))
    (hencl : ∀ m ∈ P.motion,
      is_free P (calc_xyindex P sx P.minx + m.1) (calc_xyindex P sy P.miny + m.2.1) = false) :
    ∃ s : State α, search P sx sy gx gy = some (Exit.FrontierExhausted, s) ∧
      s.closed_set = [(calc_grid_index P (mk_nstart P sx sy), mk_nstart P sx sy)] := by
  have h3 := enclosed_run P (mk_nstart P sx sy) (mk_ngoal P gx gy)
    (by rw [mk_nstart_x, mk_nstart_y, mk_ngoal_x, mk_ngoal_y]; exact hne)
    (by rw [mk_nstart_x, mk_nstart_y]; exact hencl)
  exact ⟨_, search_of_run P sx sy gx gy 2 (by omega) _ h3, rfl⟩

/-- C5: when the loop is left through the exhaustion test, `planning` returns
the empty sequence, the failure result of the path reconstruction; every call
that leaves the loop through the goal test, on any grid and for any start and
goal, returns a sequence that begins with its goal cell, so the result of the
failed call is equal to the result of no successful call. -/
theorem failure_distinguishable (P : GraphSearchPlanner α) (sx sy gx gy : ℚ)
    (s : State α) (h : search P sx sy gx gy = some (Exit.FrontierExhausted, s)) :
    planning P sx sy gx gy = some [] ∧
    ∀ (P2 : GraphSearchPlanner α) (sx2 sy2 gx2 gy2 : ℚ) (s2 : State α),
      search P2 sx2 sy2 gx2 gy2 = some (Exit.GoalFound, s2) →
      (∃ rest : List (ℚ × ℚ), planning P2 sx2 sy2 gx2 gy2 =
        some ((calc_grid_position P2 (calc_xyindex P2 gx2 P2.minx) P2.minx,
               calc_grid_position P2 (calc_xyindex P2 gy2 P2.miny) P2.miny) :: rest)) ∧
      planning P2 sx2 sy2 gx2 gy2 ≠ planning P sx sy gx gy := by
  have h1 := exhausted_planning P sx sy gx gy s h
  refine ⟨h1, ?_⟩
  intro P2 sx2 sy2 gx2 gy2 s2 h2
  obtain ⟨_, cur, ns, _, _, _, hg, hgx, hgy, hfin, _⟩ :=
    goal_exit_nodes P2 _ _ 0 (mk_ngoal P2 gx2 gy2) _ s2 h2
  have hp : planning P2 sx2 sy2 gx2 gy2 =
      some ((calc_grid_position P2 (calc_xyindex P2 gx2 P2.minx) P2.minx,
             calc_grid_position P2 (calc_xyindex P2 gy2 P2.miny) P2.miny) ::
        ns.map (world P2)) := by
    rw [planning_of_search P2 sx2 sy2 gx2 gy2 _ _ h2,
      calc_final_path_of_nodes P2 _ _ _ hfin, List.map_cons]
    simp only [world, hg, handOver_x, handOver_y, mk_ngoal_x, mk_ngoal_y]
  refine ⟨⟨_, hp⟩, ?_⟩
  rw [hp, h1]
  simp

/-- C1 (amended): when the loop is left through the goal test, the predecessor
walk from the goal node succeeds, the returned path is the list of its cells
in world coordinates, every consecutive pair of cells on it differs by one
MotionModel step, and every cell on it other than the start cell is inside the
grid and not occupied. -/
theorem goal_path_steps_free (P : GraphSearchPlanner α) (sx sy gx gy : ℚ) (s : State α)
    (h : search P sx sy gx gy = some (Exit.GoalFound, s)) :
    ∃ ns : List (Node α), final_nodes s.ngoal s.closed_set = some ns ∧
      planning P sx sy gx gy = some (ns.map (fun n =>
        (calc_grid_position P n.x P.minx, calc_grid_position P n.y P.miny))) ∧
      List.Chain' (fun a b : Node α => ∃ m ∈ P.motion, a.x = b.x + m.1 ∧ a.y = b.y + m.2.1) ns ∧
      ∀ n ∈ ns, ¬ (n.x = calc_xyindex P sx P.minx ∧ n.y = calc_xyindex P sy P.miny) →
        InGrid P n.x n.y ∧ P.obmap n.x n.y = false := by
  obtain ⟨sp, cur, ns, hc, hcur, _, hg, hgx, hgy, hfin, hmem, hch, _⟩ :=
    goal_exit_nodes P _ _ 0 (mk_ngoal P gx gy) _ s h
  have hx : s.ngoal.x = cur.x := by rw [hg, handOver_x, hgx]
  have hy : s.ngoal.y = cur.y := by rw [hg, handOver_y, hgy]
  refine ⟨s.ngoal :: ns, hfin, ?_, chain_head_swap P s.ngoal cur ns hx hy hch, ?_⟩
  · rw [planning_of_search P sx sy gx gy _ _ h]
    exact calc_final_path_of_nodes P _ _ _ hfin
  · have key : ∀ n ∈ closedNodes sp,
        ¬ (n.x = calc_xyindex P sx P.minx ∧ n.y = calc_xyindex P sy P.miny) →
        InGrid P n.x n.y ∧ P.obmap n.x n.y = false := by
      intro n hn hne
      rcases hc.origin n (List.mem_append_left _ hn) with h1 | ⟨p, m, _, _, _, hv⟩
      · exact absurd (by rw [h1]; exact ⟨rfl, rfl⟩) hne
      · exact (is_free_iff P n.x n.y).mp hv
    intro n hn hne
    rcases List.mem_cons.mp hn with h1 | h1
    · subst h1
      rw [hx, hy] at hne ⊢
      exact key cur hcur hne
    · exact key n (hmem n h1) hne

/-- C10: when the loop is left through the goal test and the start cell is
inside the grid, the predecessor walk from the goal node ends within the fuel
`calc_final_path` has, visits no cell (hence no node) twice, starts at the
goal node on the goal cell and ends at the node without predecessor, which is
the start node; the returned sequence starts with the goal cell and ends with
the start cell. -/
theorem predecessor_walk_reaches_start (P : GraphSearchPlanner α) (sx sy gx gy : ℚ)
    (s : State α)
    (hin : InGrid P (calc_xyindex P sx P.minx) (calc_xyindex P sy P.miny))
    (h : search P sx sy gx gy = some (Exit.GoalFound, s)) :
    ∃ (ns : List (Node α)) (path : List (ℚ × ℚ)),
      final_nodes s.ngoal s.closed_set = some ns ∧
      (ns.map Node.cell).Nodup ∧ ns.Nodup ∧
      ns.head? = some s.ngoal ∧
      s.ngoal.cell = (calc_xyindex P gx P.minx, calc_xyindex P gy P.miny) ∧
      ns.getLast? = some (mk_nstart P sx sy) ∧
      (mk_nstart P sx sy : Node α).parent_index = -1 ∧
      (∀ n ∈ ns.dropLast, n.parent_index ≠ -1) ∧
      planning P sx sy gx gy = some path ∧
      path.length = ns.length ∧
      path.head? = some (calc_grid_position P (calc_xyindex P gx P.minx) P.minx,
        calc_grid_position P (calc_xyindex P gy P.miny) P.miny) ∧
      path.getLast? = some (calc_grid_position P (calc_xyindex P sx P.minx) P.minx,
        calc_grid_position P (calc_xyindex P sy P.miny) P.miny) := by
  obtain ⟨sp, cur, ns, hc, hcur, _, hg, hgx, hgy, hfin, _, _, hanc⟩ :=
    goal_exit_nodes P _ _ 0 (mk_ngoal P gx gy) _ s h
  have hns := hanc hin
  subst hns
  have hx : s.ngoal.x = cur.x := by rw [hg, handOver_x, hgx]
  have hy : s.ngoal.y = cur.y := by rw [hg, handOver_y, hgy]
  have hcell : s.ngoal.cell = cur.cell := by simp [Node.cell, hx, hy]
  have hnd : ((s.ngoal :: cur.ancestors).map Node.cell).Nodup := by
    have := ancestors_cells_nodup P _ _ 0 (mk_ngoal P gx gy) sp hc cur hcur
    simpa [hcell] using this
  obtain ⟨hlast, hmem⟩ := last_ancestor P _ _ 0 (mk_ngoal P gx gy) sp hc cur hcur
  have hlast2 : (s.ngoal :: cur.ancestors).getLast? = some (mk_nstart P sx sy) := by
    cases hca : cur.ancestors with
    | nil =>
      rw [hca] at hlast
      simp only [List.getLast?_singleton, Option.some.injEq] at hlast ⊢
      rw [hg, hlast]
      have e1 : calc_xyindex P sx P.minx = calc_xyindex P gx P.minx := by
        rw [← mk_ngoal_x P gx gy, ← hgx, hlast]; rfl
      have e2 : calc_xyindex P sy P.miny = calc_xyindex P gy P.miny := by
        rw [← mk_ngoal_y P gx gy, ← hgy, hlast]; rfl
      simp [handOver, mk_ngoal, mk_nstart, Node.set_parent_index, Node.set_cost,
        Node.parent_index, Node.cost, e1, e2]
    | cons p r =>
      rw [hca] at hlast
      rw [List.getLast?_cons_cons] at hlast ⊢
      exact hlast
  have hpi : ∀ n ∈ closedNodes sp, n ≠ mk_nstart P sx sy → n.parent_index ≠ -1 := by
    intro n hn hne
    rcases hc.origin n (List.mem_append_left _ hn) with h1 | ⟨p, m, hp, _, hnp, _⟩
    · exact absurd h1 hne
    · rw [hnp]
      have := (key_range P p.x p.y
        (core_key_nonneg P _ _ sp hc hin p (List.mem_append_left _ hp))).1
      show calc_grid_index P p ≠ -1
      unfold calc_grid_index
      omega
  refine ⟨s.ngoal :: cur.ancestors, (s.ngoal :: cur.ancestors).map (world P), hfin, hnd,
    List.Nodup.of_map _ hnd, rfl, ?_, hlast2, rfl, ?_, ?_, by simp, ?_, ?_⟩
  · rw [hcell]; simp [Node.cell, hgx, hgy, mk_ngoal_x, mk_ngoal_y]
  · intro n hn
    have hsplit := List.dropLast_append_getLast? _ (Option.mem_def.mpr hlast2)
    have hnd2 := List.Nodup.of_map _ hnd
    rw [← hsplit] at hnd2
    have hne : n ≠ mk_nstart P sx sy := by
      intro e
      subst e
      exact (List.nodup_append.mp hnd2).2.2 hn (List.mem_singleton_self _)
    cases hca : cur.ancestors with
    | nil => rw [hca] at hn; simp at hn
    | cons p r =>
      rw [hca] at hn
      simp only [List.dropLast_cons₂, List.mem_cons] at hn
      have hcne : cur ≠ mk_nstart P sx sy := by
        intro e
        rw [e] at hca
        simp [mk_nstart, Node.ancestors] at hca
      rcases hn with h1 | h1
      · rw [h1, hg, handOver_parent_index]
        exact hpi cur hcur hcne
      · apply hpi n _ hne
        apply hmem
        rw [hca]
        exact List.mem_of_mem_dropLast h1
  · rw [planning_of_search P sx sy gx gy _ _ h]
    exact calc_final_path_of_nodes P _ _ _ hfin
  · simp [world, hx, hy, hgx, hgy, mk_ngoal_x, mk_ngoal_y]
  · rw [List.getLast?_map, hlast2]; rfl

end

section

variable {α : Type}

theorem follow_concat (P : GraphSearchPlanner α) (ms : List (Int × Int × α))
    (m : Int × Int × α) : ∀ c d : Int × Int, follow P c (ms ++ [m]) = some d ↔
      ∃ b, follow P c ms = some b ∧ is_free P (b.1 + m.1) (b.2 + m.2.1) = true ∧
        d = (b.1 + m.1, b.2 + m.2.1) := by
  induction ms with
  | nil =>
    intro c d
    simp only [List.nil_append, follow]
    constructor
    · intro h
      split at h
      · rename_i hf
        exact ⟨c, rfl, hf, by simpa using h.symm⟩
      · simp at h
    · rintro ⟨b, hb, hf, hd⟩
      simp only [Option.some.injEq] at hb
      subst hb
      rw [if_pos hf, hd]
  | cons a r ih =>
    intro c d
    simp only [List.cons_append, follow]
    by_cases hf : is_free P (c.1 + a.1) (c.2 + a.2.1) = true
    · rw [if_pos hf, if_pos hf]
      exact ih _ d
    · rw [if_neg hf, if_neg hf]
      simp

theorem bfs_init (P : GraphSearchPlanner α) (nstart ngoal0 : Node α) :
    Bfs P ngoal0 (initState P nstart ngoal0) := by
  constructor <;> simp [initState, closedNodes]

end

section

variable {α : Type} [Add α]

theorem bfs_step (P : GraphSearchPlanner α) (nstart ngoal0 : Node α)
    (hin : InGrid P nstart.x nstart.y) (s s2 : State α)
    (hc : Core P nstart ngoal0 s) (hb : Bfs P ngoal0 s) (h : step P s = (s2, none)) :
    Bfs P ngoal0 s2 := by
  obtain ⟨hc2, _, cur, rest, new, hq, hg, hcl, hq2, hnew, hkeys⟩ :=
    core_step P nstart ngoal0 s s2 hc h
  have hcurq : cur ∈ s.node_queue := by rw [hq]; simp
  have hrestq : ∀ n ∈ rest, n ∈ s.node_queue := fun n hn => by rw [hq]; simp [hn]
  have hsorted := hb.sorted
  rw [hq, List.pairwise_cons] at hsorted
  have hnewd : ∀ x ∈ new, x.depth = cur.depth + 1 := by
    intro x hx
    obtain ⟨m, _, hxm, _⟩ := hnew x hx
    rw [hxm]; rfl
  have hd2 : ∀ x ∈ closedNodes s2 ++ s2.node_queue, x.depth ≤ cur.depth + 1 := by
    intro x hx
    rw [hcl, hq2] at hx
    simp only [List.mem_append, List.mem_singleton] at hx
    rcases hx with (hx | hx) | (hx | hx)
    · have := hb.level x hx cur hcurq; omega
    · rw [hx]; omega
    · exact hb.width cur hcurq x (hrestq x hx)
    · rw [hnewd x hx]
  constructor
  · intro p hp
    rw [hcl] at hp
    rcases List.mem_append.mp hp with hp | hp
    · intro m hm hf
      obtain ⟨x, hx, h1, h2, h3⟩ := hb.expanded p hp m hm hf
      refine ⟨x, ?_, h1, h2, h3⟩
      rw [hcl, hq2]
      rw [hq] at hx
      simp only [List.mem_append, List.mem_cons, List.mem_singleton] at hx ⊢
      tauto
    · simp only [List.mem_singleton] at hp
      subst hp
      intro m hm hf
      obtain ⟨x, hx, hxk⟩ := List.mem_map.mp (hkeys m hm hf)
      have hxin := core_key_nonneg P nstart ngoal0 s2 hc2 hin x hx
      have hnin : InGrid P (p.x + m.1) (p.y + m.2.1) := ((is_free_iff P _ _).mp hf).1
      have := key_inj P x.x x.y _ _ hxin hnin hxk
      exact ⟨x, hx, this.1, this.2, hd2 x hx⟩
  · intro p hp
    rw [hcl] at hp
    rcases List.mem_append.mp hp with hp | hp
    · exact hb.no_goal p hp
    · simp only [List.mem_singleton] at hp
      subst hp; exact hg
  · rw [hq2, List.pairwise_append]
    refine ⟨hsorted.2, ?_, ?_⟩
    · rw [List.pairwise_iff_forall_sublist]
      intro a b hab
      have ha := hnewd a (hab.subset (by simp))
      have hb2 := hnewd b (hab.subset (by simp))
      omega
    · intro a ha b hb2
      rw [hnewd b hb2]
      exact hb.width cur hcurq a (hrestq a ha)
  · intro p hp n hn
    rw [hcl] at hp
    rw [hq2] at hn
    simp only [List.mem_append, List.mem_singleton] at hp hn
    rcases hp with hp | hp <;> rcases hn with hn | hn
    · exact hb.level p hp n (hrestq n hn)
    · have := hb.level p hp cur hcurq
      rw [hnewd n hn]; omega
    · rw [hp]; exact hsorted.1 n hn
    · rw [hp, hnewd n hn]; omega
  · intro a ha b hb2
    rw [hq2] at ha hb2
    simp only [List.mem_append] at ha hb2
    rcases ha with ha | ha <;> rcases hb2 with hb2 | hb2
    · exact hb.width a (hrestq a ha) b (hrestq b hb2)
    · have := hsorted.1 a ha
      rw [hnewd b hb2]; omega
    · have := hb.width cur hcurq b (hrestq b hb2)
      rw [hnewd a ha]; omega
    · rw [hnewd a ha, hnewd b hb2]; omega
  · rw [hcl, List.pairwise_append]
    refine ⟨hb.closed_sorted, by simp, ?_⟩
    intro a ha b hb2
    simp only [List.mem_singleton] at hb2
    rw [hb2]
    exact hb.level a ha cur hcurq

/-- A route of `ms.length` moves from the start cell ends on a cell stored at
depth at most `ms.length`, or the queue still holds a shallower node. -/
theorem route_discovered (P : GraphSearchPlanner α) (nstart ngoal0 : Node α)
    (h0 : nstart.depth = 0) (s : State α) (hc : Core P nstart ngoal0 s)
    (hb : Bfs P ngoal0 s) :
    ∀ (ms : List (Int × Int × α)) (c : Int × Int), (∀ m ∈ ms, m ∈ P.motion) →
      follow P (nstart.x, nstart.y) ms = some c →
      (∃ x ∈ closedNodes s ++ s.node_queue, x.x = c.1 ∧ x.y = c.2 ∧ x.depth ≤ ms.length) ∨
      (∃ y ∈ s.node_queue, y.depth < ms.length) := by
  intro ms
  induction ms using List.reverseRecOn with
  | nil =>
    intro c _ hf
    simp only [follow, Option.some.injEq] at hf
    subst hf
    exact Or.inl ⟨nstart, hc.start_mem, rfl, rfl, by omega⟩
  | append_singleton ms m ih =>
    intro c hms hf
    obtain ⟨b, hfb, hfree, hcd⟩ := (follow_concat P ms m _ c).mp hf
    have hm : m ∈ P.motion := hms m (by simp)
    rcases ih b (fun x hx => hms x (by simp [hx])) hfb with ⟨x, hx, hx1, hx2, hx3⟩ | ⟨y, hy, hyd⟩
    · rcases List.mem_append.mp hx with hxc | hxq
      · left
        rw [← hx1, ← hx2] at hfree
        obtain ⟨z, hz, hz1, hz2, hz3⟩ := hb.expanded x hxc m hm hfree
        refine ⟨z, hz, ?_, ?_, ?_⟩
        · rw [hcd, hz1, hx1]
        · rw [hcd, hz2, hx2]
        · simp only [List.length_append, List.length_singleton]; omega
      · right
        exact ⟨x, hxq, by simp only [List.length_append, List.length_singleton]; omega⟩
    · right
      exact ⟨y, hy, by simp only [List.length_append, List.length_singleton]; omega⟩

/-- A visited node of depth `d` lies at the end of a route of `d` moves from
the start cell. -/
theorem route_of_node (P : GraphSearchPlanner α) (x0 y0 : Int) (c0 : α) (ngoal0 : Node α)
    (s : State α) (hc : Core P (Node.root x0 y0 c0 (-1)) ngoal0 s) :
    ∀ n : Node α, n ∈ closedNodes s →
      ∃ ms : List (Int × Int × α), (∀ m ∈ ms, m ∈ P.motion) ∧ ms.length = n.depth ∧
        follow P (x0, y0) ms = some (n.x, n.y) := by
  intro n
  induction n with
  | root x y c i =>
    intro hn
    rcases hc.origin _ (List.mem_append_left _ hn) with h | ⟨p, m, hp, hm, hnp, hv⟩
    · simp only [Node.root.injEq] at h
      refine ⟨[], by simp, rfl, ?_⟩
      simp [follow, Node.x, Node.y, h.1, h.2.1]
    · simp [neighbour] at hnp
  | child x y c i p ih =>
    intro hn
    rcases hc.origin _ (List.mem_append_left _ hn) with h | ⟨p2, m, hp, hm, hnp, hv⟩
    · simp at h
    · have hnp2 := hnp
      simp only [neighbour, Node.child.injEq] at hnp2
      obtain ⟨hx, hy, _, _, hpp⟩ := hnp2
      subst hpp
      obtain ⟨ms, h1, h2, h3⟩ := ih hp
      refine ⟨ms ++ [m], ?_, ?_, ?_⟩
      · intro a ha
        rcases List.mem_append.mp ha with ha | ha
        · exact h1 a ha
        · simp only [List.mem_singleton] at ha
          rw [ha]; exact hm
      · simp [h2, Node.depth]
      · rw [follow_concat]
        refine ⟨(p.x, p.y), h3, ?_, ?_⟩
        · have : verify_node P (Node.child x y c i p) = is_free P x y := rfl
          rw [this, hx, hy] at hv
          exact hv
        · simp [Node.x, Node.y, hx, hy]

/-- The state in which the loop is left through the goal test, with the
breadth-first invariant of the state before the last pass. -/
theorem goal_exit_bfs (P : GraphSearchPlanner α) (x0 y0 : Int) (c0 : α) (ngoal0 : Node α)
    (hin : InGrid P x0 y0) (n : Nat) (s : State α)
    (h : run P n (initState P (Node.root x0 y0 c0 (-1)) ngoal0) = some (Exit.GoalFound, s)) :
    ∃ t cur rest, Core P (Node.root x0 y0 c0 (-1)) ngoal0 t ∧ Bfs P ngoal0 t ∧
      t.node_queue = cur :: rest ∧ cur.x = ngoal0.x ∧ cur.y = ngoal0.y ∧
      Core P (Node.root x0 y0 c0 (-1)) ngoal0 (pop P t cur rest) ∧
      closedNodes s = closedNodes t ++ [cur] ∧
      final_nodes s.ngoal s.closed_set = some (s.ngoal :: cur.ancestors) := by
  obtain ⟨t, cur, rest, hct, hbt, hq, hgx, hgy, hcp, hcl, hs1, hs2, _, _⟩ :=
    exit_goal P _ ngoal0 (Bfs P ngoal0)
      (fun t t2 hc hb hst => bfs_step P (Node.root x0 y0 c0 (-1)) ngoal0 hin t t2 hc hb hst)
      n _ s
      (core_init P (Node.root x0 y0 c0 (-1)) ngoal0 rfl) (bfs_init P _ ngoal0) h
  have hcur : cur ∈ closedNodes (pop P t cur rest) := by rw [hcl]; simp
  obtain ⟨ns, h1, _, _, h4⟩ := pred_chain_spec P x0 y0 c0 ngoal0 _ hcp
    (pop P t cur rest).closed_set.length cur hcur (le_of_lt (hcp.depth_closed cur hcur))
  refine ⟨t, cur, rest, hct, hbt, hq, hgx, hgy, hcp, ?_, ?_⟩
  · unfold closedNodes at hcl ⊢
    rw [hs1, hcl]
  · rw [final_nodes_reached s.ngoal cur s.closed_set (by rw [hs1]; exact hcur)
      (by rw [hs2, handOver_x, hgx]) (by rw [hs2, handOver_y, hgy])]
    rw [hs1, hs2, handOver_parent_index, h1, h4 hin]
    rfl

end

section

variable {α : Type} [Add α] [Zero α]

/-- C2: with the start cell inside the grid, when some sequence of MotionModel
steps leads from the start cell to the goal cell through cells that are in
bounds and free, the loop is left through the goal test, not through the
exhaustion test. -/
theorem search_complete (P : GraphSearchPlanner α) (sx sy gx gy : ℚ)
    (hin : InGrid P (calc_xyindex P sx P.minx) (calc_xyindex P sy P.miny))
    (ms : List (Int × Int × α)) (hms : ∀ m ∈ ms, m ∈ P.motion)
    (hroute : follow P (calc_xyindex P sx P.minx, calc_xyindex P sy P.miny) ms =
      some (calc_xyindex P gx P.minx, calc_xyindex P gy P.miny)) :
    (∃ s : State α, search P sx sy gx gy = some (Exit.GoalFound, s)) ∧
    ∀ s : State α, search P sx sy gx gy ≠ some (Exit.FrontierExhausted, s) := by
  have main : ∃ s : State α, search P sx sy gx gy = some (Exit.GoalFound, s) := by
    obtain ⟨n, ⟨e, s⟩, hn, _, hr⟩ :=
      loop_exit_within P (mk_nstart P sx sy) (mk_ngoal P gx gy) rfl
    cases e with
    | GoalFound => exact ⟨s, search_of_run P sx sy gx gy n hn _ hr⟩
    | FrontierExhausted =>
      exfalso
      obtain ⟨t, hct, hbt, hst⟩ := run_exit P _ (mk_ngoal P gx gy) (Bfs P (mk_ngoal P gx gy))
        (fun t t2 hc hb hst => bfs_step P (mk_nstart P sx sy) _ hin t t2 hc hb hst) n _ s _
        (core_init P (mk_nstart P sx sy) (mk_ngoal P gx gy) rfl) (bfs_init P _ _) hr
      obtain ⟨h1, h2⟩ := step_exhausted_inv P t s hst
      have hq : t.node_queue = [] := by
        rcases h2 with h2 | h2
        · exact h2
        · rw [hct.open_eq] at h2
          simpa using h2
      rcases route_discovered P (mk_nstart P sx sy) _ rfl t hct hbt ms _ hms hroute with
        ⟨x, hx, hx1, hx2, _⟩ | ⟨y, hy, _⟩
      · rw [hq, List.append_nil] at hx
        exact hbt.no_goal x hx ⟨hx1, hx2⟩
      · rw [hq] at hy
        simp at hy
  refine ⟨main, ?_⟩
  intro s hs
  obtain ⟨s2, h2⟩ := main
  rw [h2] at hs
  simp at hs

/-- C8: when the loop is left through the goal test and the start cell is
inside the grid, the number of moves on the predecessor chain from the goal
node is minimal: no sequence of MotionModel steps through in-bounds free cells
leads from the start cell to the goal cell in fewer moves, and one with
exactly that many moves exists. Nodes were removed from the first-in-first-out
queue in non-decreasing depth. -/
theorem goal_path_min_steps (P : GraphSearchPlanner α) (sx sy gx gy : ℚ) (s : State α)
    (hin : InGrid P (calc_xyindex P sx P.minx) (calc_xyindex P sy P.miny))
    (h : search P sx sy gx gy = some (Exit.GoalFound, s)) :
    ∃ ns : List (Node α), final_nodes s.ngoal s.closed_set = some ns ∧
      (∀ ms : List (Int × Int × α), (∀ m ∈ ms, m ∈ P.motion) →
        follow P (calc_xyindex P sx P.minx, calc_xyindex P sy P.miny) ms =
          some (calc_xyindex P gx P.minx, calc_xyindex P gy P.miny) →
        ns.length ≤ ms.length + 1) ∧
      (∃ ms : List (Int × Int × α), (∀ m ∈ ms, m ∈ P.motion) ∧
        follow P (calc_xyindex P sx P.minx, calc_xyindex P sy P.miny) ms =
          some (calc_xyindex P gx P.minx, calc_xyindex P gy P.miny) ∧
        ms.length + 1 = ns.length) ∧
      (closedNodes s).Pairwise (fun a b => a.depth ≤ b.depth) := by
  obtain ⟨t, cur, rest, hct, hbt, hq, hgx, hgy, hcp, hcl, hfin⟩ :=
    goal_exit_bfs P _ _ 0 (mk_ngoal P gx gy) hin _ s h
  have hcurq : cur ∈ t.node_queue := by rw [hq]; simp
  have hsorted := hbt.sorted
  rw [hq, List.pairwise_cons] at hsorted
  refine ⟨_, hfin, ?_, ?_, ?_⟩
  · intro ms hms hroute
    simp only [List.length_cons, length_ancestors]
    have hd : cur.depth ≤ ms.length := by
      rcases route_discovered P (mk_nstart P sx sy) _ rfl t hct hbt ms _ hms hroute with
        ⟨x, hx, hx1, hx2, hx3⟩ | ⟨y, hy, hyd⟩
      · rcases List.mem_append.mp hx with hxc | hxq
        · exact absurd ⟨hx1, hx2⟩ (hbt.no_goal x hxc)
        · have : x = cur := by
            apply core_cell_inj P _ _ t hct x cur (List.mem_append_right _ hxq)
              (List.mem_append_right _ hcurq)
            simp only [Node.cell, Prod.mk.injEq]
            exact ⟨by rw [hx1, hgx]; rfl, by rw [hx2, hgy]; rfl⟩
          rw [← this]; exact hx3
      · rw [hq] at hy
        rcases List.mem_cons.mp hy with hy | hy
        · rw [← hy]; omega
        · have := hsorted.1 y hy
          omega
    omega
  · have hcur : cur ∈ closedNodes (pop P t cur rest) := by
      rw [(pop_closedNodes P _ _ t cur rest hct hq).2.1]; simp
    obtain ⟨ms, h1, h2, h3⟩ := route_of_node P _ _ 0 (mk_ngoal P gx gy) _ hcp cur hcur
    refine ⟨ms, h1, ?_, ?_⟩
    · rw [h3, hgx, hgy]; rfl
    · simp only [List.length_cons, length_ancestors]; omega
  · rw [hcl, List.pairwise_append]
    refine ⟨hbt.closed_sorted, by simp, ?_⟩
    intro a ha b hb2
    simp only [List.mem_singleton] at hb2
    rw [hb2]
    exact hbt.level a ha cur hcurq

end

section

variable {α : Type}

theorem cpp_round_bounds (t : ℚ) :
    (-(1 / 2) < t → ((cpp_round t : Int) : ℚ) - 1 / 2 ≤ t ∧ t < (cpp_round t : ℚ) + 1 / 2) ∧
    (t ≤ -(1 / 2) → ((cpp_round t : Int) : ℚ) - 1 / 2 < t ∧ t ≤ (cpp_round t : ℚ) + 1 / 2) := by
  unfold cpp_round
  by_cases h0 : 0 ≤ t
  · rw [if_pos h0]
    have h1 := Int.floor_le (t + 1 / 2)
    have h2 := Int.lt_floor_add_one (t + 1 / 2)
    constructor
    · intro _; constructor <;> linarith
    · intro h; linarith
  · rw [if_neg h0]
    have h1 := Int.floor_le (-t + 1 / 2)
    have h2 := Int.lt_floor_add_one (-t + 1 / 2)
    push_cast
    constructor
    · intro h
      have h3 : ⌊-t + 1 / 2⌋ = 0 := by
        rw [Int.floor_eq_iff]
        push_neg at h0
        constructor <;> (push_cast; linarith)
      rw [h3]
      push_neg at h0
      constructor <;> (push_cast; linarith)
    · intro _; constructor <;> linarith

/-- C9 (amended): for a positive resolution, a world coordinate `c` with
`c > axis_min - resolution / 2` lies in the half-open region
`[w - resolution / 2, w + resolution / 2)` around the centre `w` of its cell;
a coordinate `c ≤ axis_min - resolution / 2` lies in the region
`(w - resolution / 2, w + resolution / 2]`, half-open on the other side. -/
theorem world_cell_consistent (P : GraphSearchPlanner α) (hr : 0 < P.reso) (c axis_min : ℚ) :
    (axis_min - P.reso / 2 < c →
      calc_grid_position P (calc_xyindex P c axis_min) axis_min - P.reso / 2 ≤ c ∧
      c < calc_grid_position P (calc_xyindex P c axis_min) axis_min + P.reso / 2) ∧
    (c ≤ axis_min - P.reso / 2 →
      calc_grid_position P (calc_xyindex P c axis_min) axis_min - P.reso / 2 < c ∧
      c ≤ calc_grid_position P (calc_xyindex P c axis_min) axis_min + P.reso / 2) := by
  unfold calc_grid_position calc_xyindex
  set t := (c - axis_min) / P.reso with ht
  have hc : c = t * P.reso + axis_min := by
    rw [ht]; field_simp
  obtain ⟨b1, b2⟩ := cpp_round_bounds t
  constructor
  · intro h
    have h1 : -(1 / 2) < t := by
      by_contra hcon
      push_neg at hcon
      have := mul_le_mul_of_nonneg_right hcon hr.le
      linarith
    obtain ⟨h2, h3⟩ := b1 h1
    have e2 := mul_le_mul_of_nonneg_right h2 hr.le
    have e3 := mul_lt_mul_of_pos_right h3 hr
    constructor <;> linarith
  · intro h
    have h1 : t ≤ -(1 / 2) := by
      by_contra hcon
      push_neg at hcon
      have := mul_lt_mul_of_pos_right hcon hr
      linarith
    obtain ⟨h2, h3⟩ := b2 h1
    have e2 := mul_lt_mul_of_pos_right h2 hr
    have e3 := mul_le_mul_of_nonneg_right h3 hr.le
    constructor <;> linarith

theorem cpp_round_neg_half : cpp_round (-(1 / 2) : ℚ) = -1 := by
  unfold cpp_round
  have h : ¬ (0 : ℚ) ≤ -(1 / 2) := by norm_num
  rw [if_neg h]
  have h3 : ⌊-(-(1 / 2) : ℚ) + 1 / 2⌋ = 1 := by
    rw [Int.floor_eq_iff]
    constructor <;> norm_num
  rw [h3]

/-- C9, counterexample: with resolution 1 and axis minimum 0 the coordinate
`-1/2` is put in cell `-1`, centred on `-1`, whose half-open region
`[-3/2, -1/2)` does not hold it. -/
theorem world_cell_half_open_fails :
    calc_xyindex (unitPlanner 1 1 (fun _ _ => false)) (-(1 / 2)) 0 = -1 ∧
    ¬ (calc_grid_position (unitPlanner 1 1 (fun _ _ => false))
          (calc_xyindex (unitPlanner 1 1 (fun _ _ => false)) (-(1 / 2)) 0) 0
          - (unitPlanner 1 1 (fun _ _ => false)).reso / 2 ≤ -(1 / 2) ∧
        (-(1 / 2) : ℚ) < calc_grid_position (unitPlanner 1 1 (fun _ _ => false))
          (calc_xyindex (unitPlanner 1 1 (fun _ _ => false)) (-(1 / 2)) 0) 0
          + (unitPlanner 1 1 (fun _ _ => false)).reso / 2) := by
  have h : calc_xyindex (unitPlanner 1 1 (fun _ _ => false)) (-(1 / 2)) 0 = -1 := by
    unfold calc_xyindex
    simp only [unitPlanner]
    have := cpp_round_neg_half
    simpa using this
  refine ⟨h, ?_⟩
  rw [h]
  simp only [calc_grid_position, unitPlanner]
  norm_num

/-- C9, witness: resolution 1, axis minimum 0, coordinate 7/4. -/
theorem world_cell_consistent_witness :
    (0 : ℚ) < (unitPlanner 1 1 (fun _ _ => false)).reso ∧
    ((0 - (unitPlanner 1 1 (fun _ _ => false)).reso / 2 < 7 / 4 →
      calc_grid_position (unitPlanner 1 1 (fun _ _ => false))
        (calc_xyindex (unitPlanner 1 1 (fun _ _ => false)) (7 / 4) 0) 0
        - (unitPlanner 1 1 (fun _ _ => false)).reso / 2 ≤ 7 / 4 ∧
      (7 / 4 : ℚ) < calc_grid_position (unitPlanner 1 1 (fun _ _ => false))
        (calc_xyindex (unitPlanner 1 1 (fun _ _ => false)) (7 / 4) 0) 0
        + (unitPlanner 1 1 (fun _ _ => false)).reso / 2) ∧
    ((7 / 4 : ℚ) ≤ 0 - (unitPlanner 1 1 (fun _ _ => false)).reso / 2 →
      calc_grid_position (unitPlanner 1 1 (fun _ _ => false))
        (calc_xyindex (unitPlanner 1 1 (fun _ _ => false)) (7 / 4) 0) 0
        - (unitPlanner 1 1 (fun _ _ => false)).reso / 2 < 7 / 4 ∧
      (7 / 4 : ℚ) ≤ calc_grid_position (unitPlanner 1 1 (fun _ _ => false))
        (calc_xyindex (unitPlanner 1 1 (fun _ _ => false)) (7 / 4) 0) 0
        + (unitPlanner 1 1 (fun _ _ => false)).reso / 2)) :=
  ⟨by simp [unitPlanner],
    world_cell_consistent (unitPlanner 1 1 (fun _ _ => false)) (by simp [unitPlanner]) (7 / 4) 0⟩

end

section

variable {α : Type} [Add α]

/-- What the passes of the inner `for` loop over a list of moves do: the
visited map and the goal node stay as they are and admitted neighbours of
`cur` are appended to the queue. -/
theorem fold_summary (P : GraphSearchPlanner α) (nstart ngoal0 : Node α) (cur : Node α)
    (ms : List (Int × Int × α)) (hms : ∀ m ∈ ms, m ∈ P.motion) (t : State α)
    (hc : Core P nstart ngoal0 t) (hcur : cur ∈ closedNodes t) :
    Core P nstart ngoal0 (ms.foldl (tryInsert P cur (calc_grid_index P cur)) t) ∧
    closedNodes (ms.foldl (tryInsert P cur (calc_grid_index P cur)) t) = closedNodes t ∧
    ∃ new, (ms.foldl (tryInsert P cur (calc_grid_index P cur)) t).node_queue =
        t.node_queue ++ new ∧
      ∀ x ∈ new, ∃ m ∈ ms, x = neighbour cur (calc_grid_index P cur) m := by
  induction ms generalizing t with
  | nil => exact ⟨hc, rfl, [], by simp, by simp⟩
  | cons m r ih =>
    rw [List.foldl_cons]
    have hm : m ∈ P.motion := hms m (List.mem_cons_self _ _)
    have hc1 := core_tryInsert P nstart ngoal0 t cur m hc hcur hm
    have hcl1 : closedNodes (tryInsert P cur (calc_grid_index P cur) t m) = closedNodes t := by
      rcases tryInsert_cases P nstart ngoal0 t cur (calc_grid_index P cur) m hc with h | h
      · rw [h.1]
      · rw [h.1]; rfl
    have hq1 : ∃ new, (tryInsert P cur (calc_grid_index P cur) t m).node_queue =
        t.node_queue ++ new ∧ ∀ x ∈ new, x = neighbour cur (calc_grid_index P cur) m := by
      rcases tryInsert_cases P nstart ngoal0 t cur (calc_grid_index P cur) m hc with h | h
      · rw [h.1]; exact ⟨[], by simp, by simp⟩
      · rw [h.1]; exact ⟨[_], rfl, by simp⟩
    obtain ⟨new1, hn1, hn1b⟩ := hq1
    obtain ⟨h1, h2, new2, h3, h4⟩ := ih (fun x hx => hms x (List.mem_cons_of_mem _ hx)) _ hc1
      (by rw [hcl1]; exact hcur)
    refine ⟨h1, by rw [h2, hcl1], new1 ++ new2, by rw [h3, hn1, List.append_assoc], ?_⟩
    intro x hx
    rcases List.mem_append.mp hx with hx | hx
    · exact ⟨m, List.mem_cons_self _ _, hn1b x hx⟩
    · obtain ⟨m2, hm2, hx2⟩ := h4 x hx
      exact ⟨m2, List.mem_cons_of_mem _ hm2, hx2⟩

theorem rowNode_x (P : GraphSearchPlanner α) (x0 y0 : Int) (c0 c1 : α) (j : Nat) :
    (rowNode P x0 y0 c0 c1 j).x = x0 + j := by
  induction j with
  | zero => simp [rowNode, Node.x]
  | succ j ih =>
    show (rowNode P x0 y0 c0 c1 j).x + 1 = _
    rw [ih]; push_cast; ring

theorem rowNode_y (P : GraphSearchPlanner α) (x0 y0 : Int) (c0 c1 : α) (j : Nat) :
    (rowNode P x0 y0 c0 c1 j).y = y0 := by
  induction j with
  | zero => simp [rowNode, Node.y]
  | succ j ih =>
    show (rowNode P x0 y0 c0 c1 j).y + 0 = _
    rw [ih]; simp

theorem rowNode_within (P : GraphSearchPlanner α) (x0 y0 : Int) (c0 c1 : α) (j : Nat) :
    Within x0 y0 (j : Int) (rowNode P x0 y0 c0 c1 j) := by
  unfold Within
  rw [rowNode_x, rowNode_y]
  omega

end

section

variable {α : Type}

theorem within_mono (x0 y0 : Int) (i j : Int) (h : i ≤ j) (n : Node α)
    (hn : Within x0 y0 i n) : Within x0 y0 j n := by
  unfold Within at hn ⊢
  omega

end

section

variable {α : Type} [Add α]

theorem within_neighbour (x0 y0 : Int) (j : Int) (cur : Node α) (key : Int)
    (m : Int × Int × α) (hm : -1 ≤ m.1 ∧ m.1 ≤ 1 ∧ -1 ≤ m.2.1 ∧ m.2.1 ≤ 1)
    (hn : Within x0 y0 j cur) : Within x0 y0 (j + 1) (neighbour cur key m) := by
  unfold Within at hn ⊢
  have e1 : (neighbour cur key m).x = cur.x + m.1 := rfl
  have e2 : (neighbour cur key m).y = cur.y + m.2.1 := rfl
  rw [e1, e2]
  omega

theorem straight_init (P : GraphSearchPlanner α) (x0 y0 : Int) (c0 c1 : α) (k : Nat)
    (ngoal0 : Node α) :
    Straight P x0 y0 c0 c1 k (initState P (Node.root x0 y0 c0 (-1)) ngoal0) :=
  ⟨0, [], [], Nat.zero_le _, rfl, by simp [initState, closedNodes], by simp⟩

theorem straight_step (P : GraphSearchPlanner α) (x0 y0 : Int) (c0 c1 : α) (k : Nat)
    (ngoal0 : Node α) (ms : List (Int × Int × α)) (hmot : P.motion = (1, 0, c1) :: ms)
    (hbound : ∀ m ∈ P.motion, -1 ≤ m.1 ∧ m.1 ≤ 1 ∧ -1 ≤ m.2.1 ∧ m.2.1 ≤ 1)
    (hob : ∀ x y, P.obmap x y = false) (hin0 : InGrid P x0 y0)
    (hink : InGrid P (x0 + k) y0) (hgoal : ngoal0.x = x0 + k ∧ ngoal0.y = y0)
    (s s2 : State α) (hc : Core P (Node.root x0 y0 c0 (-1)) ngoal0 s)
    (hs : Straight P x0 y0 c0 c1 k s) (h : step P s = (s2, none)) :
    Straight P x0 y0 c0 c1 k s2 := by
  obtain ⟨j, front, back, hjk, hq, hnear, hback⟩ := hs
  cases front with
  | cons f front2 =>
    obtain ⟨_, _, cur, rest, new, hq2, _, hcl, hq3, hnew, _⟩ :=
      core_step P _ ngoal0 s s2 hc h
    rw [hq] at hq2
    simp only [List.cons_append, List.cons.injEq] at hq2
    obtain ⟨hf, hrest⟩ := hq2
    subst hf
    refine ⟨j, front2, back ++ new, hjk, ?_, ?_, ?_⟩
    · rw [hq3, ← hrest]; simp
    · intro n hn
      apply hnear
      rw [hcl] at hn
      simp only [List.mem_append, List.mem_singleton, List.mem_cons] at hn ⊢
      tauto
    · intro n hn
      rcases List.mem_append.mp hn with hn | hn
      · exact hback n hn
      · obtain ⟨m, hm, hnm, _⟩ := hnew n hn
        rw [hnm]
        have := within_neighbour x0 y0 ((j : Int) - 1) f (calc_grid_index P f) m
          (hbound m hm) (hnear f (by simp))
        simpa using this
  | nil =>
    obtain ⟨cur, rest, hq2, _, hg, hs2⟩ := step_running_inv P s s2 h
    rw [hq] at hq2
    simp only [List.nil_append, List.cons.injEq] at hq2
    obtain ⟨hcur, hrest⟩ := hq2
    rw [List.nil_append] at hq
    subst hrest
    rw [← hcur] at hs2 hg
    clear hcur cur
    have hjlt : j < k := by
      rcases Nat.lt_or_ge j k with h1 | h1
      · exact h1
      · exfalso
        have : j = k := le_antisymm hjk h1
        apply hg
        rw [hc.goal_eq, rowNode_x, rowNode_y, hgoal.1, hgoal.2, this]
        exact ⟨rfl, rfl⟩
    have hcp := core_pop P _ ngoal0 s _ back hc hq
    obtain ⟨_, hclp, _⟩ := pop_closedNodes P _ ngoal0 s _ back hc hq
    have hqp : (pop P s (rowNode P x0 y0 c0 c1 j) back).node_queue = back := rfl
    have hnode : neighbour (rowNode P x0 y0 c0 c1 j)
        (calc_grid_index P (rowNode P x0 y0 c0 c1 j)) (1, 0, c1) =
        rowNode P x0 y0 c0 c1 (j + 1) := rfl
    have hnin : InGrid P (rowNode P x0 y0 c0 c1 (j + 1)).x (rowNode P x0 y0 c0 c1 (j + 1)).y := by
      rw [rowNode_x, rowNode_y]
      unfold InGrid at hin0 hink ⊢
      push_cast
      omega
    have hv : verify_node P (rowNode P x0 y0 c0 c1 (j + 1)) = true :=
      (is_free_iff P _ _).mpr ⟨hnin, hob _ _⟩
    have hwp : ∀ n ∈ closedNodes (pop P s (rowNode P x0 y0 c0 c1 j) back) ++ back,
        Within x0 y0 (j : Int) n := by
      intro n hn
      rw [hclp] at hn
      simp only [List.mem_append, List.mem_singleton] at hn
      rcases hn with (hn | hn) | hn
      · exact within_mono x0 y0 _ _ (by omega) n (hnear n (by simp [hn]))
      · rw [hn]; exact rowNode_within P x0 y0 c0 c1 j
      · exact hback n hn
    have hk : calc_grid_index P (rowNode P x0 y0 c0 c1 (j + 1)) ∉
        (closedNodes (pop P s (rowNode P x0 y0 c0 c1 j) back) ++
          (pop P s (rowNode P x0 y0 c0 c1 j) back).node_queue).map (calc_grid_index P) := by
      intro hmem
      obtain ⟨x, hx, hxk⟩ := List.mem_map.mp hmem
      have hxin := core_key_nonneg P _ ngoal0 _ hcp hin0 x hx
      have := (key_inj P x.x x.y _ _ hxin hnin hxk).1
      rw [hqp] at hx
      have hw := (hwp x hx).2.1
      rw [this, rowNode_x] at hw
      push_cast at hw
      omega
    have ht1 : tryInsert P (rowNode P x0 y0 c0 c1 j)
        (calc_grid_index P (rowNode P x0 y0 c0 c1 j))
        (pop P s (rowNode P x0 y0 c0 c1 j) back) (1, 0, c1) =
        insertNode P (pop P s (rowNode P x0 y0 c0 c1 j) back)
          (rowNode P x0 y0 c0 c1 (j + 1)) := by
      rcases tryInsert_cases P _ ngoal0 _ (rowNode P x0 y0 c0 c1 j)
        (calc_grid_index P (rowNode P x0 y0 c0 c1 j)) (1, 0, c1) hcp with h1 | h1
      · exact absurd (h1.2 hv) hk
      · exact h1.1
    have hm1 : ((1 : Int), (0 : Int), c1) ∈ P.motion := by rw [hmot]; simp
    have hcurp : rowNode P x0 y0 c0 c1 j ∈
        closedNodes (pop P s (rowNode P x0 y0 c0 c1 j) back) := by
      rw [hclp]; simp
    have hc1 := core_insertNode P _ ngoal0 _ (rowNode P x0 y0 c0 c1 j) (1, 0, c1) hcp hcurp
      hm1 hv hk
    rw [hnode] at hc1
    rw [hmot, List.foldl_cons, ht1] at hs2
    obtain ⟨_, hcl2, new, hq2, hnew⟩ := fold_summary P _ ngoal0 (rowNode P x0 y0 c0 c1 j) ms
      (fun m hm => by rw [hmot]; exact List.mem_cons_of_mem _ hm) _ hc1 hcurp
    rw [← hs2] at hcl2 hq2
    refine ⟨j + 1, back, new, hjlt, ?_, ?_, ?_⟩
    · rw [hq2]
      show (back ++ [_]) ++ new = _
      simp
    · intro n hn
      have hcl3 : closedNodes s2 = closedNodes s ++ [rowNode P x0 y0 c0 c1 j] := by
        rw [hcl2]; exact hclp
      have : Within x0 y0 (j : Int) n := by
        apply hwp
        rw [hclp]
        rw [hcl3] at hn
        exact hn
      apply within_mono x0 y0 _ _ _ n this
      push_cast; omega
    · intro n hn
      obtain ⟨m, hm, hnm⟩ := hnew n hn
      rw [hnm]
      have := within_neighbour x0 y0 (j : Int) (rowNode P x0 y0 c0 c1 j)
        (calc_grid_index P (rowNode P x0 y0 c0 c1 j)) m
        (hbound m (by rw [hmot]; exact List.mem_cons_of_mem _ hm))
        (rowNode_within P x0 y0 c0 c1 j)
      simpa using this

end

section

variable {α : Type}

/-- The state in which the loop is left through the goal test, with an
invariant of the state before the last pass and the walked nodes. -/
theorem goal_exit_full [Add α] (P : GraphSearchPlanner α) (x0 y0 : Int) (c0 : α)
    (ngoal0 : Node α) (Extra : State α → Prop)
    (hpres : ∀ t t2, Core P (Node.root x0 y0 c0 (-1)) ngoal0 t → Extra t →
      step P t = (t2, none) → Extra t2)
    (hx0 : Extra (initState P (Node.root x0 y0 c0 (-1)) ngoal0))
    (hin : InGrid P x0 y0) (n : Nat) (s : State α)
    (h : run P n (initState P (Node.root x0 y0 c0 (-1)) ngoal0) = some (Exit.GoalFound, s)) :
    ∃ t cur rest, Core P (Node.root x0 y0 c0 (-1)) ngoal0 t ∧ Extra t ∧
      t.node_queue = cur :: rest ∧ cur.x = ngoal0.x ∧ cur.y = ngoal0.y ∧
      s.ngoal = handOver ngoal0 cur ∧
      final_nodes s.ngoal s.closed_set = some (s.ngoal :: cur.ancestors) := by
  obtain ⟨t, cur, rest, hct, hbt, hq, hgx, hgy, hcp, hcl, hs1, hs2, _, _⟩ :=
    exit_goal P _ ngoal0 Extra hpres n _ s
      (core_init P (Node.root x0 y0 c0 (-1)) ngoal0 rfl) hx0 h
  have hcur : cur ∈ closedNodes (pop P t cur rest) := by rw [hcl]; simp
  obtain ⟨ns, h1, _, _, h4⟩ := pred_chain_spec P x0 y0 c0 ngoal0 _ hcp
    (pop P t cur rest).closed_set.length cur hcur (le_of_lt (hcp.depth_closed cur hcur))
  refine ⟨t, cur, rest, hct, hbt, hq, hgx, hgy, hs2, ?_⟩
  rw [final_nodes_reached s.ngoal cur s.closed_set (by rw [hs1]; exact hcur)
    (by rw [hs2, handOver_x, hgx]) (by rw [hs2, handOver_y, hgy])]
  rw [hs1, hs2, handOver_parent_index, h1, h4 hin]
  rfl

theorem rowNode_ancestors [Add α] (P : GraphSearchPlanner α) (x0 y0 : Int) (c0 c1 : α)
    (k : Nat) : (rowNode P x0 y0 c0 c1 k).ancestors =
      (List.range k).reverse.map (rowNode P x0 y0 c0 c1) := by
  induction k with
  | zero => rfl
  | succ k ih =>
    rw [List.range_succ, List.reverse_append, List.reverse_singleton, List.singleton_append,
      List.map_cons, ← ih]
    rfl

theorem rowNode_cost [AddMonoid α] (P : GraphSearchPlanner α) (x0 y0 : Int) (c1 : α)
    (k : Nat) : (rowNode P x0 y0 0 c1 k).cost = k • c1 := by
  induction k with
  | zero => simp [rowNode, Node.cost]
  | succ k ih =>
    rw [succ_nsmul, ← ih]
    rfl

end

section

variable {α : Type} [AddMonoid α]

/-- C7 (amended): straight-line scenario. With a positive resolution, no
occupied cell, a MotionModel of 8-neighbourhood steps whose first move is
`(1, 0)` at cost `c1`, start cell `(x0, y0)` and goal cell `(x0 + k, y0)` both
inside the grid, the loop is left through the goal test and `planning`
returns the `k + 1` cells `(x0 + k, y0), …, (x0, y0)` in goal-to-start order:
along the returned sequence x strictly decreases and y is constant; the cost
handed to the goal node is `k • c1`. -/
theorem straight_line_path (P : GraphSearchPlanner α) (sx sy gx gy : ℚ) (x0 y0 : Int)
    (k : Nat) (c1 : α) (ms : List (Int × Int × α)) (hr : 0 < P.reso)
    (hmot : P.motion = (1, 0, c1) :: ms)
    (hbound : ∀ m ∈ P.motion, -1 ≤ m.1 ∧ m.1 ≤ 1 ∧ -1 ≤ m.2.1 ∧ m.2.1 ≤ 1)
    (hob : ∀ x y, P.obmap x y = false)
    (hsx : calc_xyindex P sx P.minx = x0) (hsy : calc_xyindex P sy P.miny = y0)
    (hgx : calc_xyindex P gx P.minx = x0 + k) (hgy : calc_xyindex P gy P.miny = y0)
    (hin0 : InGrid P x0 y0) (hink : InGrid P (x0 + k) y0) :
    ∃ (s : State α) (path : List (ℚ × ℚ)),
      search P sx sy gx gy = some (Exit.GoalFound, s) ∧
      planning P sx sy gx gy = some path ∧
      path = (List.range (k + 1)).reverse.map (fun i : Nat =>
        (calc_grid_position P (x0 + i) P.minx, calc_grid_position P y0 P.miny)) ∧
      path.length = k + 1 ∧
      path.Pairwise (fun a b => b.1 < a.1) ∧
      (∀ p ∈ path, p.2 = calc_grid_position P y0 P.miny) ∧
      s.ngoal.cost = k • c1 := by
  have hns : mk_nstart P sx sy = Node.root x0 y0 0 (-1) := by
    unfold mk_nstart; rw [hsx, hsy]
  have hng : mk_ngoal P gx gy = Node.root (x0 + k) y0 0 (-1) := by
    unfold mk_ngoal; rw [hgx, hgy]
  have hgoal : (mk_ngoal P gx gy).x = x0 + k ∧ (mk_ngoal P gx gy).y = y0 := by
    rw [hng]; exact ⟨rfl, rfl⟩
  have hpres : ∀ t t2, Core P (Node.root x0 y0 0 (-1)) (mk_ngoal P gx gy) t →
      Straight P x0 y0 0 c1 k t → step P t = (t2, none) → Straight P x0 y0 0 c1 k t2 :=
    fun t t2 hc hs hst =>
      straight_step P x0 y0 0 c1 k _ ms hmot hbound hob hin0 hink hgoal t t2 hc hs hst
  obtain ⟨n, ⟨e, s⟩, hn, _, hrun⟩ :=
    loop_exit_within P (mk_nstart P sx sy) (mk_ngoal P gx gy) rfl
  have hsearch := search_of_run P sx sy gx gy n hn _ hrun
  rw [hns] at hrun
  cases e with
  | FrontierExhausted =>
    exfalso
    obtain ⟨t, hct, hst, hstep⟩ := run_exit P _ (mk_ngoal P gx gy) (Straight P x0 y0 0 c1 k)
      hpres n _ s _ (core_init P (Node.root x0 y0 0 (-1)) _ rfl)
      (straight_init P x0 y0 0 c1 k _) hrun
    obtain ⟨_, h2⟩ := step_exhausted_inv P t s hstep
    obtain ⟨j, front, back, _, hq, _, _⟩ := hst
    rcases h2 with h2 | h2
    · rw [hq] at h2; simp at h2
    · rw [hct.open_eq, hq] at h2; simp at h2
  | GoalFound =>
    obtain ⟨t, cur, rest, hct, hst, hq, hcx, hcy, hsg, hfin⟩ :=
      goal_exit_full P x0 y0 0 (mk_ngoal P gx gy) (Straight P x0 y0 0 c1 k) hpres
        (straight_init P x0 y0 0 c1 k _) hin0 n s hrun
    obtain ⟨j, front, back, hjk, hq2, hnear, _⟩ := hst
    have hcur : cur = rowNode P x0 y0 0 c1 k := by
      cases front with
      | cons f front2 =>
        exfalso
        rw [hq] at hq2
        simp only [List.cons_append, List.cons.injEq] at hq2
        have hw := (hnear f (by simp)).2.1
        rw [← hq2.1, hcx, hgoal.1] at hw
        omega
      | nil =>
        rw [hq] at hq2
        simp only [List.nil_append, List.cons.injEq] at hq2
        have hx := hcx
        rw [hq2.1, rowNode_x, hgoal.1] at hx
        have : j = k := by omega
        rw [hq2.1, this]
    subst hcur
    have hpath : (s.ngoal :: (rowNode P x0 y0 0 c1 k).ancestors).map (world P) =
        (List.range (k + 1)).reverse.map (fun i : Nat =>
          (calc_grid_position P (x0 + i) P.minx, calc_grid_position P y0 P.miny)) := by
      rw [List.range_succ, List.reverse_append, List.reverse_singleton, List.singleton_append,
        List.map_cons, List.map_cons, rowNode_ancestors, List.map_map]
      congr 1
      · rw [hsg]
        simp only [world, handOver_x, handOver_y, hgoal.1, hgoal.2]
      · apply List.map_congr_left
        intro i _
        simp only [Function.comp, world, rowNode_x, rowNode_y]
    refine ⟨s, (s.ngoal :: (rowNode P x0 y0 0 c1 k).ancestors).map (world P), hsearch, ?_,
      hpath, ?_, ?_, ?_, ?_⟩
    · rw [planning_of_search P sx sy gx gy _ _ hsearch]
      exact calc_final_path_of_nodes P _ _ _ hfin
    · rw [hpath]; simp
    · rw [hpath, List.pairwise_map, List.pairwise_reverse]
      apply List.Pairwise.imp _ (List.pairwise_lt_range (k + 1))
      intro a b hab
      simp only [calc_grid_position]
      have h1 : (a : ℚ) < (b : ℚ) := by exact_mod_cast hab
      have h2 := mul_lt_mul_of_pos_right h1 hr
      push_cast
      linarith
    · rw [hpath]
      intro p hp
      obtain ⟨i, _, hi⟩ := List.mem_map.mp hp
      rw [← hi]
    · rw [hsg, handOver_cost, rowNode_cost]

end

section

variable {α : Type} [Add α] [Zero α]

theorem planning_of_nodes (P : GraphSearchPlanner α) (sx sy gx gy : ℚ) :
    planning P sx sy gx gy = (search_nodes P sx sy gx gy).map (fun ns => ns.map (world P)) := by
  unfold planning search_nodes calc_final_path
  cases search P sx sy gx gy with
  | none => rfl
  | some r => cases h : final_nodes r.2.ngoal r.2.closed_set <;> simp [h, world]

end

section

variable {α : Type}

theorem exists_of_map_fst (o : Option (Exit × State α)) (e : Exit)
    (h : o.map Prod.fst = some e) : ∃ s, o = some (e, s) := by
  cases o with
  | none => simp at h
  | some r =>
    obtain ⟨e2, s⟩ := r
    simp only [Option.map_some', Option.some.injEq] at h
    exact ⟨s, by rw [h]⟩

end

section

variable {α : Type} [Add α] [Zero α]

theorem unit_xy (w h : Nat) (ob : Int → Int → Bool) (a : Int) :
    calc_xyindex (unitPlanner w h ob) (a : ℚ) (unitPlanner w h ob).minx = a ∧
    calc_xyindex (unitPlanner w h ob) (a : ℚ) (unitPlanner w h ob).miny = a :=
  ⟨calc_xyindex_unit _ rfl a, calc_xyindex_unit _ rfl a⟩

end

section

variable {α : Type}

theorem row_search : (search rowPlanner 0 0 3 0).map Prod.fst = some Exit.GoalFound := by
  have h := search_unit 4 1 (fun _ _ => false) 0 0 3 0
  simp only [Int.cast_zero, Int.cast_ofNat] at h
  unfold rowPlanner
  rw [h]
  decide

theorem row_xy : calc_xyindex rowPlanner 0 rowPlanner.minx = 0 ∧
    calc_xyindex rowPlanner 0 rowPlanner.miny = 0 ∧
    calc_xyindex rowPlanner 3 rowPlanner.minx = 3 := by
  have h0 := unit_xy 4 1 (fun _ _ => false) 0
  have h3 := unit_xy 4 1 (fun _ _ => false) 3
  simp only [Int.cast_zero, Int.cast_ofNat] at h0 h3
  exact ⟨h0.1, h0.2, h3.1⟩

/-- C1, counterexample: start cell `(0, 0)` occupied, goal cell `(1, 0)`: the
goal is found and the walked path `(1, 0), (0, 0)` holds the occupied start
cell. -/
theorem goal_path_occupied_start :
    (search occupiedStartPlanner 0 0 1 0).map Prod.fst = some Exit.GoalFound ∧
    (search_nodes occupiedStartPlanner 0 0 1 0).map (List.map Node.cell) =
      some [(1, 0), (0, 0)] ∧
    planning occupiedStartPlanner 0 0 1 0 = some [(1, 0), (0, 0)] ∧
    occupiedStartPlanner.obmap 0 0 = true ∧ is_free occupiedStartPlanner 0 0 = false := by
  have h := search_unit 2 1 (fun x _ => decide (x = 0)) 0 0 1 0
  simp only [Int.cast_zero, Int.cast_one] at h
  have hn : search_nodes occupiedStartPlanner 0 0 1 0 =
      some [Node.root 1 0 1 0, Node.root 0 0 0 (-1)] := by
    unfold search_nodes occupiedStartPlanner
    rw [h]
    decide
  refine ⟨?_, ?_, ?_, rfl, by decide⟩
  · unfold occupiedStartPlanner
    rw [h]
    decide
  · rw [hn]; rfl
  · rw [planning_of_nodes, hn]
    simp [world, calc_grid_position, occupiedStartPlanner, unitPlanner, Node.x, Node.y]

/-- C1, witness: the row of four free cells, start `(0, 0)`, goal `(3, 0)`. -/
theorem goal_path_steps_free_witness :
    ∃ s : State (ℤ√2), search rowPlanner 0 0 3 0 = some (Exit.GoalFound, s) ∧
      ∃ ns : List (Node (ℤ√2)), final_nodes s.ngoal s.closed_set = some ns ∧
        planning rowPlanner 0 0 3 0 = some (ns.map (fun n =>
          (calc_grid_position rowPlanner n.x rowPlanner.minx,
            calc_grid_position rowPlanner n.y rowPlanner.miny))) ∧
        List.Chain' (fun a b : Node (ℤ√2) =>
          ∃ m ∈ rowPlanner.motion, a.x = b.x + m.1 ∧ a.y = b.y + m.2.1) ns ∧
        ∀ n ∈ ns, ¬ (n.x = calc_xyindex rowPlanner 0 rowPlanner.minx ∧
            n.y = calc_xyindex rowPlanner 0 rowPlanner.miny) →
          InGrid rowPlanner n.x n.y ∧ rowPlanner.obmap n.x n.y = false := by
  obtain ⟨s, hs⟩ := exists_of_map_fst _ _ row_search
  exact ⟨s, hs, goal_path_steps_free rowPlanner 0 0 3 0 s hs⟩

theorem ring_xy : calc_xyindex ringPlanner 1 ringPlanner.minx = 1 ∧
    calc_xyindex ringPlanner 1 ringPlanner.miny = 1 ∧
    calc_xyindex ringPlanner 0 ringPlanner.minx = 0 ∧
    calc_xyindex ringPlanner 0 ringPlanner.miny = 0 := by
  have h0 := unit_xy 3 3 (fun x y => !(decide (x = 1) && decide (y = 1))) 0
  have h1 := unit_xy 3 3 (fun x y => !(decide (x = 1) && decide (y = 1))) 1
  simp only [Int.cast_zero, Int.cast_one] at h0 h1
  exact ⟨h1.1, h1.2, h0.1, h0.2⟩

/-- C2, witness: the row of four free cells, start `(0, 0)`, goal `(3, 0)`,
route of three moves `(1, 0)`. -/
theorem search_complete_witness :
    InGrid rowPlanner (calc_xyindex rowPlanner 0 rowPlanner.minx)
      (calc_xyindex rowPlanner 0 rowPlanner.miny) ∧
    (∀ m ∈ [((1 : Int), (0 : Int), (1 : ℤ√2)), (1, 0, 1), (1, 0, 1)], m ∈ rowPlanner.motion) ∧
    follow rowPlanner (calc_xyindex rowPlanner 0 rowPlanner.minx,
        calc_xyindex rowPlanner 0 rowPlanner.miny) [(1, 0, 1), (1, 0, 1), (1, 0, 1)] =
      some (calc_xyindex rowPlanner 3 rowPlanner.minx,
        calc_xyindex rowPlanner 0 rowPlanner.miny) ∧
    (∃ s : State (ℤ√2), search rowPlanner 0 0 3 0 = some (Exit.GoalFound, s)) ∧
    ∀ s : State (ℤ√2), search rowPlanner 0 0 3 0 ≠ some (Exit.FrontierExhausted, s) := by
  have hin : InGrid rowPlanner (calc_xyindex rowPlanner 0 rowPlanner.minx)
      (calc_xyindex rowPlanner 0 rowPlanner.miny) := by
    rw [row_xy.1, row_xy.2.1]; decide
  have hms : ∀ m ∈ [((1 : Int), (0 : Int), (1 : ℤ√2)), (1, 0, 1), (1, 0, 1)],
      m ∈ rowPlanner.motion := by decide
  have hroute : follow rowPlanner (calc_xyindex rowPlanner 0 rowPlanner.minx,
        calc_xyindex rowPlanner 0 rowPlanner.miny) [(1, 0, 1), (1, 0, 1), (1, 0, 1)] =
      some (calc_xyindex rowPlanner 3 rowPlanner.minx,
        calc_xyindex rowPlanner 0 rowPlanner.miny) := by
    rw [row_xy.1, row_xy.2.1, row_xy.2.2]; decide
  exact ⟨hin, hms, hroute, search_complete rowPlanner 0 0 3 0 hin _ hms hroute⟩

/-- C3, counterexample: a grid of one free cell, start cell `(-1, -1)` outside
it, goal cell `(5, 5)`: after `1 * 1 + 1` passes the loop is still running;
it is left in the third pass, through the exhaustion test. -/
theorem loop_needs_cells_plus_two :
    run cellPlanner (cellPlanner.xwidth * cellPlanner.ywidth + 1)
      (initState cellPlanner (mk_nstart cellPlanner (-1) (-1)) (mk_ngoal cellPlanner 5 5)) =
        none ∧
    (run cellPlanner (cellPlanner.xwidth * cellPlanner.ywidth + 2)
      (initState cellPlanner (mk_nstart cellPlanner (-1) (-1))
        (mk_ngoal cellPlanner 5 5))).map Prod.fst = some Exit.FrontierExhausted := by
  have h1 := mk_nstart_unit 1 1 (fun _ _ => false) (-1) (-1)
  have h2 := mk_ngoal_unit 1 1 (fun _ _ => false) 5 5
  simp only [Int.cast_neg, Int.cast_one, Int.cast_ofNat] at h1 h2
  unfold cellPlanner
  rw [h1, h2]
  constructor
  · rw [← Option.isNone_iff_eq_none]
    decide
  · decide

/-- C4, counterexample: every neighbour of the start cell `(1, 1)` is
occupied and the goal cell is the start cell: the loop is left through the
goal test. -/
theorem enclosed_start_goal_found :
    (∀ m ∈ ringPlanner.motion, is_free ringPlanner (1 + m.1) (1 + m.2.1) = false) ∧
    calc_xyindex ringPlanner 1 ringPlanner.minx = 1 ∧
    calc_xyindex ringPlanner 1 ringPlanner.miny = 1 ∧
    (search ringPlanner 1 1 1 1).map Prod.fst = some Exit.GoalFound := by
  refine ⟨by decide, ring_xy.1, ring_xy.2.1, ?_⟩
  have h := search_unit 3 3 (fun x y => !(decide (x = 1) && decide (y = 1))) 1 1 1 1
  simp only [Int.cast_one] at h
  unfold ringPlanner
  rw [h]
  decide

/-- C4, witness: every neighbour of the start cell `(1, 1)` is occupied, goal
cell `(0, 0)`. -/
theorem enclosed_start_exhausted_witness :
    ¬ (calc_xyindex ringPlanner 1 ringPlanner.minx = calc_xyindex ringPlanner 0 ringPlanner.minx ∧
      calc_xyindex ringPlanner 1 ringPlanner.miny = calc_xyindex ringPlanner 0 ringPlanner.miny) ∧
    (∀ m ∈ ringPlanner.motion,
      is_free ringPlanner (calc_xyindex ringPlanner 1 ringPlanner.minx + m.1)
        (calc_xyindex ringPlanner 1 ringPlanner.miny + m.2.1) = false) ∧
    ∃ s : State (ℤ√2), search ringPlanner 1 1 0 0 = some (Exit.FrontierExhausted, s) ∧
      s.closed_set = [(calc_grid_index ringPlanner (mk_nstart ringPlanner 1 1),
        mk_nstart ringPlanner 1 1)] := by
  have hne : ¬ (calc_xyindex ringPlanner 1 ringPlanner.minx =
        calc_xyindex ringPlanner 0 ringPlanner.minx ∧
      calc_xyindex ringPlanner 1 ringPlanner.miny =
        calc_xyindex ringPlanner 0 ringPlanner.miny) := by
    rw [ring_xy.1, ring_xy.2.1, ring_xy.2.2.1, ring_xy.2.2.2]; decide
  have hencl : ∀ m ∈ ringPlanner.motion,
      is_free ringPlanner (calc_xyindex ringPlanner 1 ringPlanner.minx + m.1)
        (calc_xyindex ringPlanner 1 ringPlanner.miny + m.2.1) = false := by
    rw [ring_xy.1, ring_xy.2.1]; decide
  exact ⟨hne, hencl, enclosed_start_exhausted ringPlanner 1 1 0 0 hne hencl⟩

theorem wall_search :
    (search wallPlanner 0 0 2 0).map Prod.fst = some Exit.FrontierExhausted := by
  have h := search_unit 3 1 (fun x _ => decide (x = 1)) 0 0 2 0
  simp only [Int.cast_zero, Int.cast_ofNat] at h
  unfold wallPlanner
  rw [h]
  decide

/-- Three cells in a row with the middle one occupied and goal cell `(2, 0)`:
the failed call from `(0, 0)` returns the empty sequence, the successful call
from `(2, 0)` the goal cell. -/
theorem wall_failure_and_success :
    (search wallPlanner 0 0 2 0).map Prod.fst = some Exit.FrontierExhausted ∧
    (search wallPlanner 2 0 2 0).map Prod.fst = some Exit.GoalFound ∧
    planning wallPlanner 0 0 2 0 = some [] ∧
    planning wallPlanner 2 0 2 0 = some [(2, 0)] := by
  have h1 := search_unit 3 1 (fun x _ => decide (x = 1)) 0 0 2 0
  have h2 := search_unit 3 1 (fun x _ => decide (x = 1)) 2 0 2 0
  simp only [Int.cast_zero, Int.cast_ofNat] at h1 h2
  have n1 : search_nodes wallPlanner 0 0 2 0 = some [] := by
    unfold search_nodes wallPlanner
    rw [h1]
    decide
  have n2 : search_nodes wallPlanner 2 0 2 0 = some [Node.root 2 0 0 (-1)] := by
    unfold search_nodes wallPlanner
    rw [h2]
    decide
  refine ⟨wall_search, ?_, ?_, ?_⟩
  · unfold wallPlanner
    rw [h2]
    decide
  · rw [planning_of_nodes, n1]
    rfl
  · rw [planning_of_nodes, n2]
    simp [world, calc_grid_position, wallPlanner, unitPlanner, Node.x, Node.y]

/-- C5, witness: three cells in a row with the middle one occupied, start
`(0, 0)`, goal `(2, 0)`. -/
theorem failure_distinguishable_witness :
    ∃ s : State (ℤ√2), search wallPlanner 0 0 2 0 = some (Exit.FrontierExhausted, s) ∧
      planning wallPlanner 0 0 2 0 = some [] ∧
      ∀ (P2 : GraphSearchPlanner (ℤ√2)) (sx2 sy2 gx2 gy2 : ℚ) (s2 : State (ℤ√2)),
        search P2 sx2 sy2 gx2 gy2 = some (Exit.GoalFound, s2) →
        (∃ rest : List (ℚ × ℚ), planning P2 sx2 sy2 gx2 gy2 =
          some ((calc_grid_position P2 (calc_xyindex P2 gx2 P2.minx) P2.minx,
                 calc_grid_position P2 (calc_xyindex P2 gy2 P2.miny) P2.miny) :: rest)) ∧
        planning P2 sx2 sy2 gx2 gy2 ≠ planning wallPlanner 0 0 2 0 := by
  obtain ⟨s, hs⟩ := exists_of_map_fst _ _ wall_search
  exact ⟨s, hs, failure_distinguishable wallPlanner 0 0 2 0 s hs⟩

theorem cpp_round_nine_quarters : cpp_round (9 / 4 : ℚ) = 2 := by
  unfold cpp_round
  have h : (0 : ℚ) ≤ 9 / 4 := by norm_num
  rw [if_pos h, Int.floor_eq_iff]
  constructor <;> norm_num

/-- C6, witness: on the row of four free cells the start `(9/4, 0)` and the
goal `(2, 0)` discretize to the cell `(2, 0)`. -/
theorem same_cell_goal_found_witness :
    calc_xyindex rowPlanner (9 / 4) rowPlanner.minx = calc_xyindex rowPlanner 2 rowPlanner.minx ∧
    calc_xyindex rowPlanner 0 rowPlanner.miny = calc_xyindex rowPlanner 0 rowPlanner.miny ∧
    ∃ s : State (ℤ√2),
      run rowPlanner 1 (initState rowPlanner (mk_nstart rowPlanner (9 / 4) 0)
        (mk_ngoal rowPlanner 2 0)) = some (Exit.GoalFound, s) ∧
      search rowPlanner (9 / 4) 0 2 0 = some (Exit.GoalFound, s) ∧
      s.closed_set = [(calc_grid_index rowPlanner (mk_nstart rowPlanner (9 / 4) 0),
        mk_nstart rowPlanner (9 / 4) 0)] ∧
      s.open_set = [] ∧ s.node_queue = [] ∧
      s.ngoal.cost = 0 ∧ s.ngoal.parent_index = -1 ∧ s.ngoal.parent = none ∧
      planning rowPlanner (9 / 4) 0 2 0 =
        some [(calc_grid_position rowPlanner (calc_xyindex rowPlanner 2 rowPlanner.minx)
                rowPlanner.minx,
               calc_grid_position rowPlanner (calc_xyindex rowPlanner 0 rowPlanner.miny)
                rowPlanner.miny)] := by
  have hx : calc_xyindex rowPlanner (9 / 4) rowPlanner.minx =
      calc_xyindex rowPlanner 2 rowPlanner.minx := by
    have h2 := (unit_xy 4 1 (fun _ _ => false) 2).1
    simp only [Int.cast_ofNat] at h2
    unfold rowPlanner
    rw [h2]
    unfold calc_xyindex
    simp only [unitPlanner]
    have := cpp_round_nine_quarters
    simpa using this
  exact ⟨hx, rfl, same_cell_goal_found rowPlanner (9 / 4) 0 2 0 hx rfl⟩

/-- C7, counterexample: scenario 1 of the spec, start `(0, 0)`, goal `(3, 0)`
on a row of free cells: along the returned sequence x is not increasing, the
sequence runs from the goal to the start. -/
theorem straight_line_not_increasing :
    planning rowPlanner 0 0 3 0 = some [(3, 0), (2, 0), (1, 0), (0, 0)] ∧
    ¬ List.Chain' (fun a b : ℚ × ℚ => a.1 < b.1) [(3, 0), (2, 0), (1, 0), (0, 0)] := by
  have h := search_unit 4 1 (fun _ _ => false) 0 0 3 0
  simp only [Int.cast_zero, Int.cast_ofNat] at h
  have hn : search_nodes rowPlanner 0 0 3 0 =
      some [Node.root 3 0 3 2, Node.child 2 0 2 1 (Node.child 1 0 1 0 (Node.root 0 0 0 (-1))),
        Node.child 1 0 1 0 (Node.root 0 0 0 (-1)), Node.root 0 0 0 (-1)] := by
    unfold search_nodes rowPlanner
    rw [h]
    decide
  constructor
  · rw [planning_of_nodes, hn]
    simp [world, calc_grid_position, rowPlanner, unitPlanner, Node.x, Node.y]
  · norm_num

/-- C7, witness: scenario 1 of the spec: resolution 1, no occupied cell, start
`(0, 0)`, goal `(3, 0)`, `k = 3`. -/
theorem straight_line_path_witness :
    (0 : ℚ) < rowPlanner.reso ∧
    rowPlanner.motion = (1, 0, 1) :: [(0, 1, 1), (-1, 0, 1), (0, -1, 1),
      (-1, -1, Zsqrtd.sqrtd), (-1, 1, Zsqrtd.sqrtd), (1, -1, Zsqrtd.sqrtd),
      (1, 1, Zsqrtd.sqrtd)] ∧
    (∀ x y, rowPlanner.obmap x y = false) ∧
    InGrid rowPlanner 0 0 ∧ InGrid rowPlanner (0 + (3 : Nat)) 0 ∧
    ∃ (s : State (ℤ√2)) (path : List (ℚ × ℚ)),
      search rowPlanner 0 0 3 0 = some (Exit.GoalFound, s) ∧
      planning rowPlanner 0 0 3 0 = some path ∧
      path = (List.range (3 + 1)).reverse.map (fun i : Nat =>
        (calc_grid_position rowPlanner (0 + i) rowPlanner.minx,
          calc_grid_position rowPlanner 0 rowPlanner.miny)) ∧
      path.length = 3 + 1 ∧
      path.Pairwise (fun a b => b.1 < a.1) ∧
      (∀ p ∈ path, p.2 = calc_grid_position rowPlanner 0 rowPlanner.miny) ∧
      s.ngoal.cost = 3 • (1 : ℤ√2) := by
  have hr : (0 : ℚ) < rowPlanner.reso := by simp [rowPlanner, unitPlanner]
  have hgx : calc_xyindex rowPlanner 3 rowPlanner.minx = 0 + ((3 : Nat) : Int) := by
    rw [row_xy.2.2]; rfl
  exact ⟨hr, rfl, fun _ _ => rfl, by decide, by decide,
    straight_line_path rowPlanner 0 0 3 0 0 0 3 1 _ hr rfl (by decide) (fun _ _ => rfl)
      row_xy.1 row_xy.2.1 hgx row_xy.2.1 (by decide) (by decide)⟩

/-- C8, witness: the row of four free cells, start `(0, 0)`, goal `(3, 0)`. -/
theorem goal_path_min_steps_witness :
    InGrid rowPlanner (calc_xyindex rowPlanner 0 rowPlanner.minx)
      (calc_xyindex rowPlanner 0 rowPlanner.miny) ∧
    ∃ s : State (ℤ√2), search rowPlanner 0 0 3 0 = some (Exit.GoalFound, s) ∧
      ∃ ns : List (Node (ℤ√2)), final_nodes s.ngoal s.closed_set = some ns ∧
        (∀ ms : List (Int × Int × ℤ√2), (∀ m ∈ ms, m ∈ rowPlanner.motion) →
          follow rowPlanner (calc_xyindex rowPlanner 0 rowPlanner.minx,
              calc_xyindex rowPlanner 0 rowPlanner.miny) ms =
            some (calc_xyindex rowPlanner 3 rowPlanner.minx,
              calc_xyindex rowPlanner 0 rowPlanner.miny) →
          ns.length ≤ ms.length + 1) ∧
        (∃ ms : List (Int × Int × ℤ√2), (∀ m ∈ ms, m ∈ rowPlanner.motion) ∧
          follow rowPlanner (calc_xyindex rowPlanner 0 rowPlanner.minx,
              calc_xyindex rowPlanner 0 rowPlanner.miny) ms =
            some (calc_xyindex rowPlanner 3 rowPlanner.minx,
              calc_xyindex rowPlanner 0 rowPlanner.miny) ∧
          ms.length + 1 = ns.length) ∧
        (closedNodes s).Pairwise (fun a b => a.depth ≤ b.depth) := by
  have hin : InGrid rowPlanner (calc_xyindex rowPlanner 0 rowPlanner.minx)
      (calc_xyindex rowPlanner 0 rowPlanner.miny) := by
    rw [row_xy.1, row_xy.2.1]; decide
  obtain ⟨s, hs⟩ := exists_of_map_fst _ _ row_search
  exact ⟨hin, s, hs, goal_path_min_steps rowPlanner 0 0 3 0 s hin hs⟩

/-- C10, witness: the row of four free cells, start `(0, 0)`, goal `(3, 0)`. -/
theorem predecessor_walk_reaches_start_witness :
    InGrid rowPlanner (calc_xyindex rowPlanner 0 rowPlanner.minx)
      (calc_xyindex rowPlanner 0 rowPlanner.miny) ∧
    ∃ s : State (ℤ√2), search rowPlanner 0 0 3 0 = some (Exit.GoalFound, s) ∧
      ∃ (ns : List (Node (ℤ√2))) (path : List (ℚ × ℚ)),
        final_nodes s.ngoal s.closed_set = some ns ∧
        (ns.map Node.cell).Nodup ∧ ns.Nodup ∧
        ns.head? = some s.ngoal ∧
        s.ngoal.cell = (calc_xyindex rowPlanner 3 rowPlanner.minx,
          calc_xyindex rowPlanner 0 rowPlanner.miny) ∧
        ns.getLast? = some (mk_nstart rowPlanner 0 0) ∧
        (mk_nstart rowPlanner 0 0 : Node (ℤ√2)).parent_index = -1 ∧
        (∀ n ∈ ns.dropLast, n.parent_index ≠ -1) ∧
        planning rowPlanner 0 0 3 0 = some path ∧
        path.length = ns.length ∧
        path.head? = some (calc_grid_position rowPlanner
            (calc_xyindex rowPlanner 3 rowPlanner.minx) rowPlanner.minx,
          calc_grid_position rowPlanner (calc_xyindex rowPlanner 0 rowPlanner.miny)
            rowPlanner.miny) ∧
        path.getLast? = some (calc_grid_position rowPlanner
            (calc_xyindex rowPlanner 0 rowPlanner.minx) rowPlanner.minx,
          calc_grid_position rowPlanner (calc_xyindex rowPlanner 0 rowPlanner.miny)
            rowPlanner.miny) := by
  have hin : InGrid rowPlanner (calc_xyindex rowPlanner 0 rowPlanner.minx)
      (calc_xyindex rowPlanner 0 rowPlanner.miny) := by
    rw [row_xy.1, row_xy.2.1]; decide
  obtain ⟨s, hs⟩ := exists_of_map_fst _ _ row_search
  exact ⟨hin, s, hs, predecessor_walk_reaches_start rowPlanner 0 0 3 0 s hin hs⟩

end

section

variable {α : Type} [Add α]

theorem core_forget_goal (P : GraphSearchPlanner α) (nstart ngoal0 : Node α) (s : State α)
    (hc : Core P nstart ngoal0 s) : Core P nstart ngoal0 { s with ngoal := ngoal0 } := by
  have : { s with ngoal := ngoal0 } = s := by
    rw [← hc.goal_eq]
  rw [this]; exact hc

theorem tryInsert_closed (P : GraphSearchPlanner α) (nstart ngoal0 : Node α) (s : State α)
    (cur : Node α) (key : Int) (m : Int × Int × α) (hc : Core P nstart ngoal0 s) :
    (tryInsert P cur key s m).closed_set = s.closed_set ∧
    (tryInsert P cur key s m).ngoal = s.ngoal := by
  rcases tryInsert_cases P nstart ngoal0 s cur key m hc with h | h
  · rw [h.1]; exact ⟨rfl, rfl⟩
  · rw [h.1]; exact ⟨rfl, rfl⟩

theorem cfgInv_micro (P : GraphSearchPlanner α) (nstart ngoal0 : Node α) (c : Config α)
    (h : CfgInv P nstart ngoal0 c) : CfgInv P nstart ngoal0 (micro P c) := by
  obtain ⟨ph, s⟩ := c
  cases ph with
  | top =>
    have hc : Core P nstart ngoal0 s := h
    cases hq : s.node_queue with
    | nil =>
      simp only [micro, hq]
      exact core_forget_goal P nstart ngoal0 s hc
    | cons cur rest =>
      by_cases ho : s.open_set.length = 0
      · simp only [micro, hq, ho, if_true]
        exact core_forget_goal P nstart ngoal0 s hc
      · simp only [micro, hq, ho, if_false]
        refine ⟨core_pop P nstart ngoal0 s cur rest hc hq, ?_, rfl⟩
        rw [(pop_closedNodes P nstart ngoal0 s cur rest hc hq).2.1]; simp
  | removed cur key =>
    obtain ⟨hc, hcur, hkey⟩ := h
    by_cases hg : cur.x = s.ngoal.x ∧ cur.y = s.ngoal.y
    · simp only [micro, hg, and_self, if_true]
      exact core_forget_goal P nstart ngoal0 s hc
    · simp only [micro, hg, if_false]
      exact ⟨hc, hcur, hkey, fun m hm => hm⟩
  | expanding cur key todo =>
    obtain ⟨hc, hcur, hkey, htodo⟩ := h
    cases todo with
    | nil => exact hc
    | cons m todo =>
      simp only [micro]
      subst hkey
      refine ⟨core_tryInsert P nstart ngoal0 s cur m hc hcur (htodo m (by simp)), ?_, rfl,
        fun x hx => htodo x (by simp [hx])⟩
      unfold closedNodes
      rw [(tryInsert_closed P nstart ngoal0 s cur _ m hc).1]
      exact hcur
  | finished e => exact h

theorem cfgInv_reach (P : GraphSearchPlanner α) (nstart ngoal0 : Node α)
    (h0 : nstart.depth = 0) (n : Nat) : CfgInv P nstart ngoal0 (reach P nstart ngoal0 n) := by
  induction n with
  | zero => exact core_init P nstart ngoal0 h0
  | succ n ih =>
    unfold reach at ih ⊢
    rw [Function.iterate_succ_apply']
    exact cfgInv_micro P nstart ngoal0 _ ih

/-- In every reachable configuration the maps and the queue satisfy `Core`,
up to the hand-over onto the goal node. -/
theorem reach_core (P : GraphSearchPlanner α) (nstart ngoal0 : Node α)
    (h0 : nstart.depth = 0) (n : Nat) :
    Core P nstart ngoal0 { (reach P nstart ngoal0 n).state with ngoal := ngoal0 } := by
  have h := cfgInv_reach P nstart ngoal0 h0 n
  generalize reach P nstart ngoal0 n = c at h
  obtain ⟨ph, s⟩ := c
  cases ph with
  | top => exact core_forget_goal P nstart ngoal0 s h
  | removed cur key => exact core_forget_goal P nstart ngoal0 s h.1
  | expanding cur key todo => exact core_forget_goal P nstart ngoal0 s h.1
  | finished e => exact h

theorem micro_expand (P : GraphSearchPlanner α) (cur : Node α) (key : Int) :
    ∀ (ms : List (Int × Int × α)) (t : State α),
      (micro P)^[ms.length + 1] { phase := Phase.expanding cur key ms, state := t } =
        { phase := Phase.top, state := ms.foldl (tryInsert P cur key) t } := by
  intro ms
  induction ms with
  | nil => intro t; rfl
  | cons m r ih =>
    intro t
    rw [List.length_cons, Function.iterate_succ_apply]
    exact ih _

/-- The small steps refine `step`: a pass that stays in the loop is the
removal, the failed goal test, one small step per move and the return to the
top. -/
theorem micro_step_running (P : GraphSearchPlanner α) (s s2 : State α)
    (h : step P s = (s2, none)) :
    (micro P)^[P.motion.length + 3] { phase := Phase.top, state := s } =
      { phase := Phase.top, state := s2 } := by
  obtain ⟨cur, rest, hq, ho, hg, hs2⟩ := step_running_inv P s s2 h
  have e : P.motion.length + 3 = (P.motion.length + 1) + 1 + 1 := by omega
  rw [e, Function.iterate_succ_apply, Function.iterate_succ_apply]
  have h1 : micro P { phase := Phase.top, state := s } =
      { phase := Phase.removed cur (calc_grid_index P cur), state := pop P s cur rest } := by
    simp only [micro, hq, ho, if_false]
  have hg2 : ¬ (cur.x = (pop P s cur rest).ngoal.x ∧ cur.y = (pop P s cur rest).ngoal.y) := hg
  have h2 :
      micro P { phase := Phase.removed cur (calc_grid_index P cur), state := pop P s cur rest } =
      { phase := Phase.expanding cur (calc_grid_index P cur) P.motion,
        state := pop P s cur rest } := by
    simp only [micro, hg2, if_false]
  rw [h1, h2, micro_expand, hs2]

/-- The small steps refine `step`: a pass that leaves the loop ends in the
phase `finished` with the state `step` returns. -/
theorem micro_step_exit (P : GraphSearchPlanner α) (s s2 : State α) (e : Exit)
    (h : step P s = (s2, some e)) :
    ∃ k, k ≤ 2 ∧ (micro P)^[k] { phase := Phase.top, state := s } =
      { phase := Phase.finished e, state := s2 } := by
  cases e with
  | FrontierExhausted =>
    obtain ⟨h1, h2⟩ := step_exhausted_inv P s s2 h
    subst h1
    refine ⟨1, by omega, ?_⟩
    rw [Function.iterate_one]
    cases hq : s2.node_queue with
    | nil => simp only [micro, hq]
    | cons cur rest =>
      rcases h2 with h2 | h2
      · rw [hq] at h2; simp at h2
      · simp only [micro, hq, h2, if_true]
  | GoalFound =>
    obtain ⟨cur, rest, hq, ho, hg, hs2⟩ := step_goal_inv P s s2 h
    refine ⟨2, le_refl _, ?_⟩
    rw [Function.iterate_succ_apply, Function.iterate_one]
    have h1 : micro P { phase := Phase.top, state := s } =
        { phase := Phase.removed cur (calc_grid_index P cur), state := pop P s cur rest } := by
      simp only [micro, hq, ho, if_false]
    have hg2 : cur.x = (pop P s cur rest).ngoal.x ∧ cur.y = (pop P s cur rest).ngoal.y := hg
    rw [h1, hs2]
    simp only [micro, hg2, and_self, if_true]
    rfl

/-- The state in which `run` leaves the loop is the state of a reachable
configuration in the phase `finished`. -/
theorem run_reach (P : GraphSearchPlanner α) (e : Exit) (s : State α) :
    ∀ (n : Nat) (s0 : State α), run P n s0 = some (e, s) →
      ∃ k, (micro P)^[k] { phase := Phase.top, state := s0 } =
        { phase := Phase.finished e, state := s } := by
  intro n
  induction n with
  | zero => intro s0 h; simp [run] at h
  | succ n ih =>
    intro s0 h
    rcases hst : step P s0 with ⟨t2, _ | e2⟩
    · rw [run_succ_running P n s0 t2 hst] at h
      obtain ⟨k, hk⟩ := ih t2 h
      refine ⟨k + (P.motion.length + 3), ?_⟩
      rw [Function.iterate_add_apply, micro_step_running P s0 t2 hst, hk]
    · rw [run_succ_exit P n s0 t2 e2 hst] at h
      simp only [Option.some.injEq, Prod.mk.injEq] at h
      obtain ⟨h1, h2⟩ := h
      subst h1; subst h2
      obtain ⟨k, _, hk⟩ := micro_step_exit P s0 t2 e2 hst
      exact ⟨k, hk⟩

end

section

variable {α : Type}

theorem find_append_left (a b : NodeMap α) (k : Int) (v : Node α)
    (h : NodeMap.find a k = some v) : NodeMap.find (a ++ b) k = some v := by
  induction a with
  | nil => simp [NodeMap.find] at h
  | cons e r ih =>
    obtain ⟨k1, v1⟩ := e
    by_cases hk : k1 = k
    · simp only [List.cons_append, NodeMap.find, hk, if_true] at h ⊢
      exact h
    · simp only [List.cons_append, NodeMap.find, hk, if_false] at h ⊢
      exact ih h

theorem find_append_right (a b : NodeMap α) (k : Int) (h : k ∉ a.map Prod.fst) :
    NodeMap.find (a ++ b) k = NodeMap.find b k := by
  induction a with
  | nil => rfl
  | cons e r ih =>
    obtain ⟨k1, v1⟩ := e
    simp only [List.map_cons, List.mem_cons, not_or] at h
    have hk : ¬ k1 = k := fun e => h.1 e.symm
    simp only [List.cons_append, NodeMap.find, hk, if_false]
    exact ih h.2

theorem find_mem_keys (a : NodeMap α) (k : Int) (v : Node α) (h : NodeMap.find a k = some v) :
    k ∈ a.map Prod.fst :=
  List.mem_map.mpr ⟨(k, v), find_some_mem a k v h, rfl⟩

theorem stored_iff (s : State α)
    (hd : List.Disjoint (s.open_set.map Prod.fst) (s.closed_set.map Prod.fst)) (idx : Int)
    (node : Node α) :
    Stored s idx node ↔ NodeMap.find (s.closed_set ++ s.open_set) idx = some node := by
  constructor
  · rintro (h | h)
    · exact find_append_left _ _ _ _ h
    · rw [find_append_right _ _ _ (fun hc => hd (find_mem_keys _ _ _ h) hc)]
      exact h
  · intro h
    by_cases hk : idx ∈ s.closed_set.map Prod.fst
    · left
      cases hf : NodeMap.find s.closed_set idx with
      | none =>
        have := (find_isNone_iff s.closed_set idx).mp (by rw [hf]; rfl)
        exact absurd hk this
      | some v =>
        rw [find_append_left _ _ _ _ hf] at h
        exact h
    · right
      rw [find_append_right _ _ _ hk] at h
      exact h

end

section

variable {α : Type} [Add α]

theorem core_disjoint (P : GraphSearchPlanner α) (nstart ngoal0 : Node α) (s : State α)
    (hc : Core P nstart ngoal0 s) :
    List.Disjoint (s.open_set.map Prod.fst) (s.closed_set.map Prod.fst) := by
  have h := hc.nodup
  rw [List.map_append] at h
  rw [hc.open_eq, hc.closed_eq, map_fst_entry, map_fst_entry]
  exact (List.disjoint_of_nodup_append h).symm

theorem core_heldNodes (P : GraphSearchPlanner α) (nstart ngoal0 : Node α) (s : State α)
    (hc : Core P nstart ngoal0 s) : heldNodes s = closedNodes s ++ s.node_queue := by
  unfold heldNodes closedNodes
  rw [hc.open_eq, map_snd_entry]

/-- A small step only appends to the entries stored in the two maps. -/
theorem micro_grows (P : GraphSearchPlanner α) (nstart ngoal0 : Node α) (c : Config α)
    (h : CfgInv P nstart ngoal0 c) :
    ∃ extra, (micro P c).state.closed_set ++ (micro P c).state.open_set =
      c.state.closed_set ++ c.state.open_set ++ extra := by
  obtain ⟨ph, s⟩ := c
  cases ph with
  | top =>
    have hc : Core P nstart ngoal0 s := h
    cases hq : s.node_queue with
    | nil => exact ⟨[], by simp only [micro, hq, List.append_nil]⟩
    | cons cur rest =>
      by_cases ho : s.open_set.length = 0
      · exact ⟨[], by simp only [micro, hq, ho, if_true, List.append_nil]⟩
      · refine ⟨[], ?_⟩
        simp only [micro, hq, ho, if_false, List.append_nil]
        obtain ⟨e1, _, e3⟩ := pop_closedNodes P nstart ngoal0 s cur rest hc hq
        rw [e1, e3]
        conv_rhs => rw [hc.closed_eq, hc.open_eq, hq]
        simp
  | removed cur key =>
    refine ⟨[], ?_⟩
    by_cases hg : cur.x = s.ngoal.x ∧ cur.y = s.ngoal.y
    · simp only [micro, hg, and_self, if_true, List.append_nil]
    · simp only [micro, hg, if_false, List.append_nil]
  | expanding cur key todo =>
    obtain ⟨hc, hcur, hkey, htodo⟩ := h
    cases todo with
    | nil => exact ⟨[], by simp only [micro, List.append_nil]⟩
    | cons m todo =>
      simp only [micro]
      rcases tryInsert_cases P nstart ngoal0 s cur key m hc with h1 | h1
      · exact ⟨[], by rw [h1.1, List.append_nil]⟩
      · refine ⟨[entry P (neighbour cur key m)], ?_⟩
        rw [h1.1]
        have hk : calc_grid_index P (neighbour cur key m) ∉ s.open_set.map Prod.fst := by
          rw [hc.open_eq, map_fst_entry]
          intro hmem
          exact h1.2.2 (List.mem_map.mpr (by
            obtain ⟨x, hx, hxk⟩ := List.mem_map.mp hmem
            exact ⟨x, List.mem_append_right _ hx, hxk⟩))
        show s.closed_set ++ NodeMap.set s.open_set _ _ = _
        rw [set_of_not_mem _ _ _ hk, List.append_assoc]
        rfl
  | finished e => exact ⟨[], by simp only [micro, List.append_nil]⟩

theorem reach_add (P : GraphSearchPlanner α) (nstart ngoal0 : Node α) (n k : Nat) :
    reach P nstart ngoal0 (n + k) = (micro P)^[k] (reach P nstart ngoal0 n) := by
  unfold reach
  rw [Nat.add_comm, Function.iterate_add_apply]

theorem reach_grows (P : GraphSearchPlanner α) (nstart ngoal0 : Node α)
    (h0 : nstart.depth = 0) (n k : Nat) :
    ∃ extra, (reach P nstart ngoal0 (n + k)).state.closed_set ++
        (reach P nstart ngoal0 (n + k)).state.open_set =
      (reach P nstart ngoal0 n).state.closed_set ++ (reach P nstart ngoal0 n).state.open_set ++
        extra := by
  induction k with
  | zero => exact ⟨[], by simp⟩
  | succ k ih =>
    obtain ⟨e1, h1⟩ := ih
    have hinv := cfgInv_reach P nstart ngoal0 h0 (n + k)
    obtain ⟨e2, h2⟩ := micro_grows P nstart ngoal0 _ hinv
    refine ⟨e1 ++ e2, ?_⟩
    have : reach P nstart ngoal0 (n + (k + 1)) = micro P (reach P nstart ngoal0 (n + k)) := by
      rw [← Nat.add_assoc]
      unfold reach
      rw [Function.iterate_succ_apply']
    rw [this, h2, h1, List.append_assoc]

end

section

variable {α : Type} [Add α] [Zero α]

theorem search_config_core (P : GraphSearchPlanner α) (sx sy gx gy : ℚ) (n : Nat) :
    Core P (mk_nstart P sx sy) (mk_ngoal P gx gy)
      { (search_config P sx sy gx gy n).state with ngoal := mk_ngoal P gx gy } :=
  reach_core P (mk_nstart P sx sy) (mk_ngoal P gx gy) rfl n

/-- C11: in every configuration the loop of `planning` reaches (after the
initialisation, after each removal of a node, after each pass of the `for`
loop over the moves, after a `break`) no grid index is a key of both the
frontier map and the visited map. -/
theorem open_closed_disjoint (P : GraphSearchPlanner α) (sx sy gx gy : ℚ) (n : Nat) :
    List.Disjoint ((search_config P sx sy gx gy n).state.open_set.map Prod.fst)
      ((search_config P sx sy gx gy n).state.closed_set.map Prod.fst) := by
  have h := core_disjoint P _ _ _ (search_config_core P sx sy gx gy n)
  exact h

/-- C12 (amended): in every configuration the loop of `planning` reaches,
every node held by the frontier map, the visited map or the queue is the start
node or lies inside the grid; all of them lie inside the grid when the start
cell does. -/
theorem stored_nodes_in_bounds (P : GraphSearchPlanner α) (sx sy gx gy : ℚ) (n : Nat)
    (node : Node α)
    (hn : node ∈ heldNodes (search_config P sx sy gx gy n).state ++
      (search_config P sx sy gx gy n).state.node_queue) :
    (node = mk_nstart P sx sy ∨
      (0 ≤ node.x ∧ node.x < (P.xwidth : Int) ∧ 0 ≤ node.y ∧ node.y < (P.ywidth : Int))) ∧
    (InGrid P (calc_xyindex P sx P.minx) (calc_xyindex P sy P.miny) →
      0 ≤ node.x ∧ node.x < (P.xwidth : Int) ∧ 0 ≤ node.y ∧ node.y < (P.ywidth : Int)) := by
  have hc := search_config_core P sx sy gx gy n
  have hh := core_heldNodes P _ _ _ hc
  have hn2 : node ∈ closedNodes (search_config P sx sy gx gy n).state ++
      (search_config P sx sy gx gy n).state.node_queue := by
    rcases List.mem_append.mp hn with h | h
    · have h2 : node ∈ heldNodes
          { (search_config P sx sy gx gy n).state with ngoal := mk_ngoal P gx gy } := h
      rw [hh] at h2
      exact h2
    · exact List.mem_append_right _ h
  have h1 := origin_inGrid P _ _ node (hc.origin node hn2)
  refine ⟨h1, fun hin => ?_⟩
  rcases h1 with h | h
  · rw [h]; exact hin
  · exact h

/-- C14: a node stored for a grid index, in the frontier map or the visited
map, at some configuration of the loop is the node stored for that index at
every later configuration; and a candidate neighbour whose index is a key of
the visited map or of the frontier map leaves frontier map, queue and visited
map as they are, whatever its cost. -/
theorem first_seen_policy (P : GraphSearchPlanner α) (sx sy gx gy : ℚ) :
    (∀ (n k : Nat) (idx : Int) (node : Node α),
      Stored (search_config P sx sy gx gy n).state idx node →
      Stored (search_config P sx sy gx gy (n + k)).state idx node) ∧
    (∀ (s : State α) (current : Node α) (key : Int) (m : Int × Int × α),
      ((s.closed_set.find (calc_grid_index P (neighbour current key m))).isSome = true ∨
        (s.open_set.find (calc_grid_index P (neighbour current key m))).isSome = true) →
      tryInsert P current key s m = s) := by
  constructor
  · intro n k idx node h
    have d1 := open_closed_disjoint P sx sy gx gy n
    have d2 := open_closed_disjoint P sx sy gx gy (n + k)
    rw [stored_iff _ d1] at h
    rw [stored_iff _ d2]
    obtain ⟨extra, he⟩ := reach_grows P (mk_nstart P sx sy) (mk_ngoal P gx gy) rfl n k
    unfold search_config
    rw [he]
    exact find_append_left _ _ _ _ h
  · intro s current key m h
    unfold tryInsert
    simp only []
    split
    · rfl
    · split
      · rename_i h2
        rw [Bool.and_eq_true] at h2
        rcases h with h | h
        · rw [Option.isNone_iff_eq_none] at h2
          rw [h2.1] at h
          simp at h
        · rw [Option.isNone_iff_eq_none, Option.isNone_iff_eq_none] at h2
          rw [h2.2] at h
          simp at h
      · rfl

/-- C17: two nodes held by the frontier map or the visited map in a reachable
configuration with the same grid index have the same cell; on cells with
`0 ≤ cell_x < width` the index `cell_x + cell_y * width` has the inverse
`(index mod width, index div width)` (floor division) and is injective. -/
theorem grid_index_unique (P : GraphSearchPlanner α) (sx sy gx gy : ℚ) :
    (∀ (n : Nat) (a b : Node α), a ∈ heldNodes (search_config P sx sy gx gy n).state →
      b ∈ heldNodes (search_config P sx sy gx gy n).state →
      calc_grid_index P a = calc_grid_index P b → a.x = b.x ∧ a.y = b.y) ∧
    (∀ node : Node α, 0 ≤ node.x → node.x < (P.xwidth : Int) →
      calc_grid_index P node % (P.xwidth : Int) = node.x ∧
      calc_grid_index P node / (P.xwidth : Int) = node.y) ∧
    (∀ a b : Node α, 0 ≤ a.x → a.x < (P.xwidth : Int) → 0 ≤ b.x → b.x < (P.xwidth : Int) →
      calc_grid_index P a = calc_grid_index P b → a.x = b.x ∧ a.y = b.y) := by
  have inv : ∀ node : Node α, 0 ≤ node.x → node.x < (P.xwidth : Int) →
      calc_grid_index P node % (P.xwidth : Int) = node.x ∧
      calc_grid_index P node / (P.xwidth : Int) = node.y := by
    intro node h1 h2
    unfold calc_grid_index
    constructor
    · rw [Int.add_mul_emod_self, Int.emod_eq_of_lt h1 h2]
    · rw [Int.add_mul_ediv_right _ _ (by omega), Int.ediv_eq_zero_of_lt h1 h2, Int.zero_add]
  refine ⟨?_, inv, ?_⟩
  · intro n a b ha hb hk
    have hc := search_config_core P sx sy gx gy n
    have hh := core_heldNodes P _ _ _ hc
    have ha2 : a ∈ heldNodes
        { (search_config P sx sy gx gy n).state with ngoal := mk_ngoal P gx gy } := ha
    have hb2 : b ∈ heldNodes
        { (search_config P sx sy gx gy n).state with ngoal := mk_ngoal P gx gy } := hb
    rw [hh] at ha2 hb2
    have := List.inj_on_of_nodup_map hc.nodup ha2 hb2 hk
    rw [this]
    exact ⟨rfl, rfl⟩
  · intro a b a1 a2 b1 b2 hk
    obtain ⟨ia1, ia2⟩ := inv a a1 a2
    obtain ⟨ib1, ib2⟩ := inv b b1 b2
    rw [hk] at ia1 ia2
    exact ⟨by rw [← ia1, ib1], by rw [← ia2, ib2]⟩

/-- C18: in every configuration the loop of `planning` reaches, and so at the
top of every loop iteration, the grid indices of the queued nodes are pairwise
distinct, they are the keys of the frontier map, each key maps to the queued
node, and the frontier map is empty exactly when the queue is. -/
theorem frontier_map_matches_queue (P : GraphSearchPlanner α) (sx sy gx gy : ℚ) (n : Nat) :
    ((search_config P sx sy gx gy n).state.node_queue.map (calc_grid_index P)).Nodup ∧
    (search_config P sx sy gx gy n).state.open_set.map Prod.fst =
      (search_config P sx sy gx gy n).state.node_queue.map (calc_grid_index P) ∧
    (∀ node ∈ (search_config P sx sy gx gy n).state.node_queue,
      (search_config P sx sy gx gy n).state.open_set.find (calc_grid_index P node) =
        some node) ∧
    ((search_config P sx sy gx gy n).state.open_set.length = 0 ↔
      (search_config P sx sy gx gy n).state.node_queue = []) := by
  have hc := search_config_core P sx sy gx gy n
  have ho : (search_config P sx sy gx gy n).state.open_set =
      (search_config P sx sy gx gy n).state.node_queue.map (entry P) := hc.open_eq
  have hnd : ((search_config P sx sy gx gy n).state.node_queue.map (calc_grid_index P)).Nodup := by
    have := hc.nodup
    rw [List.map_append] at this
    exact (List.nodup_append.mp this).2.1
  refine ⟨hnd, by rw [ho, map_fst_entry], ?_, ?_⟩
  · intro node hnode
    apply find_of_mem
    · rw [ho, map_fst_entry]; exact hnd
    · rw [ho]; exact List.mem_map.mpr ⟨node, hnode, rfl⟩
  · rw [ho]; simp

end

section

variable {α : Type}

theorem routeCells_concat (m : Int × Int × α) :
    ∀ (ms : List (Int × Int × α)) (c : Int × Int),
      routeCells c (ms ++ [m]) =
        routeCells c ms ++ [((endCell c ms).1 + m.1, (endCell c ms).2 + m.2.1)] := by
  intro ms
  induction ms with
  | nil => intro c; rfl
  | cons a r ih =>
    intro c
    show c :: routeCells (c.1 + a.1, c.2 + a.2.1) (r ++ [m]) = _
    rw [ih]
    rfl

end

section

variable {α : Type} [Add α]

/-- A visited node lies at the end of the moves that produced the nodes of its
parent chain, and its cost is their step costs added up from the start. -/
theorem chain_route (P : GraphSearchPlanner α) (x0 y0 : Int) (c0 : α) (ngoal0 : Node α)
    (s : State α) (hc : Core P (Node.root x0 y0 c0 (-1)) ngoal0 s) :
    ∀ n : Node α, n ∈ closedNodes s →
      ∃ ms : List (Int × Int × α), (∀ m ∈ ms, m ∈ P.motion) ∧ ms.length = n.depth ∧
        endCell (x0, y0) ms = (n.x, n.y) ∧ n.cost = routeCost c0 ms ∧
        (n :: n.ancestors).reverse.map Node.cell = routeCells (x0, y0) ms := by
  intro n
  induction n with
  | root x y c i =>
    intro hn
    rcases hc.origin _ (List.mem_append_left _ hn) with h | ⟨p, m, hp, hm, hnp, hv⟩
    · simp only [Node.root.injEq] at h
      obtain ⟨h1, h2, h3, _⟩ := h
      subst h1; subst h2; subst h3
      exact ⟨[], by simp, rfl, rfl, rfl, rfl⟩
    · simp [neighbour] at hnp
  | child x y c i p ih =>
    intro hn
    rcases hc.origin _ (List.mem_append_left _ hn) with h | ⟨p2, m, hp, hm, hnp, hv⟩
    · simp at h
    · have hnp2 := hnp
      simp only [neighbour, Node.child.injEq] at hnp2
      obtain ⟨hx, hy, hcost, _, hpp⟩ := hnp2
      subst hpp
      obtain ⟨ms, h1, h2, h3, h4, h5⟩ := ih hp
      refine ⟨ms ++ [m], ?_, ?_, ?_, ?_, ?_⟩
      · intro a ha
        rcases List.mem_append.mp ha with ha | ha
        · exact h1 a ha
        · simp only [List.mem_singleton] at ha
          rw [ha]; exact hm
      · simp [h2, Node.depth]
      · simp only [endCell, List.foldl_append, List.foldl_cons, List.foldl_nil] at h3 ⊢
        rw [h3]
        simp [Node.x, Node.y, hx, hy]
      · simp only [routeCost, List.foldl_append, List.foldl_cons, List.foldl_nil] at h4 ⊢
        rw [← h4]
        exact hcost
      · rw [routeCells_concat, ← h5, h3]
        simp only [Node.ancestors, List.reverse_cons, List.map_append, List.map_cons,
          List.map_nil, List.append_assoc, List.singleton_append]
        simp [Node.cell, Node.x, Node.y, hx, hy]

end

section

variable {α : Type} [Add α] [Zero α]

/-- C13: the start node has cost 0; every other node held by the frontier map
or the visited map was generated from a visited node, its parent, by a move,
and its cost is the parent's cost plus the step cost of that move; when the
loop is left through the goal test, the cost handed to the goal node is the
sum, added up from 0 in start-to-goal order, of the step costs of the moves
that produced the parent chain of the removed goal-cell node, which is the
chain `calc_final_path` walks when the start cell is inside the grid. -/
theorem cost_invariant (P : GraphSearchPlanner α) (sx sy gx gy : ℚ) :
    (mk_nstart P sx sy).cost = 0 ∧
    (∀ (n : Nat) (node : Node α), node ∈ heldNodes (search_config P sx sy gx gy n).state →
      node ≠ mk_nstart P sx sy →
      ∃ p m, m ∈ P.motion ∧ node.parent = some p ∧
        p ∈ (search_config P sx sy gx gy n).state.closed_set.map Prod.snd ∧
        node.cost = p.cost + m.2.2 ∧ node.x = p.x + m.1 ∧ node.y = p.y + m.2.1) ∧
    (∀ s : State α, search P sx sy gx gy = some (Exit.GoalFound, s) →
      ∃ (cur : Node α) (ms : List (Int × Int × α)),
        cur ∈ s.closed_set.map Prod.snd ∧
        cur.x = calc_xyindex P gx P.minx ∧ cur.y = calc_xyindex P gy P.miny ∧
        s.ngoal.cost = cur.cost ∧ (∀ m ∈ ms, m ∈ P.motion) ∧
        (cur :: cur.ancestors).reverse.map Node.cell =
          routeCells (calc_xyindex P sx P.minx, calc_xyindex P sy P.miny) ms ∧
        s.ngoal.cost = routeCost 0 ms ∧
        (InGrid P (calc_xyindex P sx P.minx) (calc_xyindex P sy P.miny) →
          final_nodes s.ngoal s.closed_set = some (s.ngoal :: cur.ancestors))) := by
  refine ⟨rfl, ?_, ?_⟩
  · intro n node hn hne
    have hc := search_config_core P sx sy gx gy n
    have hh := core_heldNodes P _ _ _ hc
    have hn2 : node ∈ heldNodes
        { (search_config P sx sy gx gy n).state with ngoal := mk_ngoal P gx gy } := hn
    rw [hh] at hn2
    rcases hc.origin node hn2 with h | ⟨p, m, hp, hm, hnp, _⟩
    · exact absurd h hne
    · exact ⟨p, m, hm, by rw [hnp]; rfl, hp, by rw [hnp]; rfl, by rw [hnp]; rfl,
        by rw [hnp]; rfl⟩
  · intro s h
    obtain ⟨sp, cur, ns, hc, hcur, hcl, hg, hgx, hgy, hfin, _, _, hanc⟩ :=
      goal_exit_nodes P _ _ 0 (mk_ngoal P gx gy) _ s h
    obtain ⟨ms, h1, _, _, h4, h5⟩ := chain_route P _ _ 0 (mk_ngoal P gx gy) sp hc cur hcur
    have hcost : s.ngoal.cost = cur.cost := by rw [hg, handOver_cost]
    refine ⟨cur, ms, ?_, hgx, hgy, hcost, h1, h5, by rw [hcost, h4], ?_⟩
    · rw [hcl]; exact hcur
    · intro hin
      rw [hfin, hanc hin]

/-- C15 (amended): when the loop is left through the goal test, the goal node
carries the cost and the parent index of the removed node `current`, the last
node put in the visited map; the parent pointer of the goal node is not
assigned and stays null, which is the parent pointer of `current` only when
`current` is the start node. -/
theorem goal_hand_over (P : GraphSearchPlanner α) (sx sy gx gy : ℚ) (s : State α)
    (h : search P sx sy gx gy = some (Exit.GoalFound, s)) :
    ∃ (front : List (Node α)) (current : Node α),
      s.closed_set.map Prod.snd = front ++ [current] ∧
      current.x = s.ngoal.x ∧ current.y = s.ngoal.y ∧
      s.ngoal.cost = current.cost ∧ s.ngoal.parent_index = current.parent_index ∧
      s.ngoal.parent = none ∧
      (current.parent = none ↔ current = mk_nstart P sx sy) := by
  obtain ⟨t, cur, rest, hct, _, hq, hgx, hgy, hcp, hcl, hs1, hs2, _, _⟩ :=
    exit_goal P _ (mk_ngoal P gx gy) (fun _ => True) (fun _ _ _ _ _ => trivial) _ _ s
      (core_init P (mk_nstart P sx sy) (mk_ngoal P gx gy) rfl) trivial h
  refine ⟨closedNodes t, cur, ?_, ?_, ?_, ?_, ?_, ?_, ?_⟩
  · rw [hs1]; exact hcl
  · rw [hs2, handOver_x, hgx]
  · rw [hs2, handOver_y, hgy]
  · rw [hs2, handOver_cost]
  · rw [hs2, handOver_parent_index]
  · rw [hs2, handOver_parent]; rfl
  · have hcur : cur ∈ closedNodes (pop P t cur rest) := by rw [hcl]; simp
    rcases hcp.origin cur (List.mem_append_left _ hcur) with h1 | ⟨p, m, _, _, hnp, _⟩
    · rw [h1]; exact ⟨fun _ => rfl, fun _ => rfl⟩
    · rw [hnp]
      constructor
      · intro h2; simp [neighbour, Node.parent] at h2
      · intro h2; simp [neighbour, mk_nstart] at h2

/-- C19 (amended): in every configuration the loop of `planning` reaches,
every node held by the frontier map or the visited map other than the start
node has a parent index that is a key of the visited map, and the visited map
holds at that key the node it was generated from; the parent index differs
from `-1` when the grid index of the start node does (as it does for a start
cell inside the grid); and when the loop is left through the goal test the
walk of parent indices from the goal node misses no lookup. -/
theorem predecessor_lookup_safe (P : GraphSearchPlanner α) (sx sy gx gy : ℚ) (n : Nat)
    (node : Node α) (hn : node ∈ heldNodes (search_config P sx sy gx gy n).state)
    (hne : node ≠ mk_nstart P sx sy) :
    (∃ p, node.parent = some p ∧ node.parent_index = calc_grid_index P p ∧
      (search_config P sx sy gx gy n).state.closed_set.find node.parent_index = some p) ∧
    (calc_grid_index P (mk_nstart P sx sy) ≠ -1 → node.parent_index ≠ -1) ∧
    (InGrid P (calc_xyindex P sx P.minx) (calc_xyindex P sy P.miny) →
      node.parent_index ≠ -1) ∧
    (∀ sf : State α, search P sx sy gx gy = some (Exit.GoalFound, sf) →
      ∃ ns, final_nodes sf.ngoal sf.closed_set = some ns) := by
  have hc := search_config_core P sx sy gx gy n
  have hh := core_heldNodes P _ _ _ hc
  have hn2 : node ∈ heldNodes
      { (search_config P sx sy gx gy n).state with ngoal := mk_ngoal P gx gy } := hn
  rw [hh] at hn2
  rcases hc.origin node hn2 with h | ⟨p, m, hp, hm, hnp, _⟩
  · exact absurd h hne
  · have hkey : calc_grid_index P (mk_nstart P sx sy) ≠ -1 → node.parent_index ≠ -1 := by
      intro hk
      rw [hnp]
      show calc_grid_index P p ≠ -1
      rcases origin_inGrid P _ _ p (hc.origin p (List.mem_append_left _ hp)) with h1 | h1
      · rw [h1]; exact hk
      · have := (key_range P p.x p.y h1).1
        unfold calc_grid_index
        omega
    refine ⟨⟨p, by rw [hnp]; rfl, by rw [hnp]; rfl, ?_⟩, hkey, ?_, ?_⟩
    · have := core_find P _ _ _ hc p hp
      rw [hnp]
      exact this
    · intro hin
      apply hkey
      have := (key_range P _ _ hin).1
      unfold calc_grid_index
      simp only [mk_nstart, Node.x, Node.y]
      omega
    · intro sf hsf
      obtain ⟨_, _, ns, _, _, _, _, _, _, hfin, _⟩ :=
        goal_exit_nodes P _ _ 0 (mk_ngoal P gx gy) _ sf hsf
      exact ⟨_, hfin⟩

end

section

variable {α : Type}

theorem pose_body_epoch (L : Libm) (x_goal y_goal theta_goal : ℚ) (s : PoseVars) :
    (pose_body L x_goal y_goal theta_goal s).1.epoch = s.epoch + 1 ∧
    (pose_body L x_goal y_goal theta_goal s).2 = decide (s.epoch + 1 > 320) :=
  ⟨rfl, rfl⟩

theorem pose_loop_bound (L : Libm) (x_goal y_goal theta_goal : ℚ) :
    ∀ (fuel : Nat) (s : PoseVars) (count : Nat), s.epoch = (count : Int) →
      321 ≤ count + fuel → count ≤ 320 →
      ∃ (final : PoseVars) (c : Nat),
        pose_loop L x_goal y_goal theta_goal fuel s count = some (final, c) ∧
        c ≤ 321 ∧ final.epoch = (c : Int) ∧ (final.rho ≤ 5 / 1000 ∨ final.epoch > 320) ∧
        (s.rho ≤ 5 / 1000 → c = count) := by
  intro fuel
  induction fuel with
  | zero => intro s count _ h1 h2; omega
  | succ fuel ih =>
    intro s count he h1 h2
    by_cases hr : s.rho > 5 / 1000
    · obtain ⟨e1, e2⟩ := pose_body_epoch L x_goal y_goal theta_goal s
      rcases hb : pose_body L x_goal y_goal theta_goal s with ⟨s2, brk⟩
      rw [hb] at e1 e2
      simp only at e1 e2
      cases brk with
      | true =>
        refine ⟨s2, count + 1, ?_, by omega, ?_, ?_, ?_⟩
        · simp only [pose_loop, hr, if_true, hb]
        · rw [e1, he]; push_cast; ring
        · right
          have := of_decide_eq_true e2.symm
          rw [e1]; exact this
        · intro h; exact absurd hr (not_lt.mpr h)
      | false =>
        have hlt : ¬ (s.epoch + 1 > 320) := of_decide_eq_false e2.symm
        have he2 : s2.epoch = ((count + 1 : Nat) : Int) := by
          rw [e1, he]; push_cast; ring
        obtain ⟨final, c, h3, h4, h5, h6, _⟩ := ih s2 (count + 1) he2 (by omega)
          (by rw [he] at hlt; omega)
        refine ⟨final, c, ?_, h4, h5, h6, ?_⟩
        · simp only [pose_loop, hr, if_true, hb]
          exact h3
        · intro h; exact absurd hr (not_lt.mpr h)
    · refine ⟨s, count, ?_, by omega, he, Or.inl (not_lt.mp hr), fun _ => rfl⟩
      simp only [pose_loop, hr, if_false]

/-- C20: for every start pose, every goal pose and whatever the library
functions behind `calc_control_command` return, the loop of `move_to_pose` is
left after at most 321 passes through its body, with `rho ≤ 0.005` or with the
epoch counter above 320; the epoch counter is the number of passes; and no
pass is made when the initial distance is at most `0.005`. -/
theorem move_to_pose_bounded (L : Libm)
    (x_start y_start theta_start x_goal y_goal theta_goal : ℚ) :
    ∃ (final : PoseVars) (passes : Nat),
      move_to_pose L x_start y_start theta_start x_goal y_goal theta_goal =
        some (final, passes) ∧
      passes ≤ 321 ∧ final.epoch = (passes : Int) ∧
      (final.rho ≤ 5 / 1000 ∨ final.epoch > 320) ∧
      (L.hypot (x_goal - x_start) (y_goal - y_start) ≤ 5 / 1000 → passes = 0) := by
  obtain ⟨final, c, h1, h2, h3, h4, h5⟩ := pose_loop_bound L x_goal y_goal theta_goal 321
    (pose_init L x_start y_start theta_start x_goal y_goal) 0 rfl (by omega) (by omega)
  exact ⟨final, c, h1, h2, h3, h4, h5⟩

theorem search_config_unit (w h : Nat) (ob : Int → Int → Bool) (a b c d : Int) (n : Nat) :
    search_config (unitPlanner w h ob) (a : ℚ) (b : ℚ) (c : ℚ) (d : ℚ) n =
      reach (unitPlanner w h ob) (Node.root a b 0 (-1)) (Node.root c d 0 (-1)) n := by
  unfold search_config
  rw [mk_nstart_unit, mk_ngoal_unit]

/-- C12, counterexample: a grid of one free cell and the start cell
`(-1, -1)`: after the initialisation the frontier map holds the start node,
whose cell is outside the grid. -/
theorem start_node_out_of_bounds :
    Node.root (-1) (-1) 0 (-1) ∈ heldNodes (search_config cellPlanner (-1) (-1) 5 5 0).state ∧
    (search_config cellPlanner (-1) (-1) 5 5 0).state.open_set =
      [(-2, Node.root (-1) (-1) 0 (-1))] ∧
    ¬ (0 ≤ (Node.root (-1) (-1) (0 : ℤ√2) (-1)).x) := by
  have h := search_config_unit 1 1 (fun _ _ => false) (-1) (-1) 5 5 0
  simp only [Int.cast_neg, Int.cast_one, Int.cast_ofNat] at h
  unfold cellPlanner
  rw [h]
  decide

/-- C12, witness: the row of four free cells, start `(0, 0)`, after the first
neighbour `(1, 0)` was admitted. -/
theorem stored_nodes_in_bounds_witness :
    Node.child 1 0 1 0 (Node.root 0 0 0 (-1)) ∈
      heldNodes (search_config rowPlanner 0 0 3 0 3).state ++
        (search_config rowPlanner 0 0 3 0 3).state.node_queue ∧
    ((Node.child 1 0 1 0 (Node.root 0 0 0 (-1)) = mk_nstart rowPlanner 0 0 ∨
      (0 ≤ (Node.child 1 0 (1 : ℤ√2) 0 (Node.root 0 0 0 (-1))).x ∧
        (Node.child 1 0 (1 : ℤ√2) 0 (Node.root 0 0 0 (-1))).x < (rowPlanner.xwidth : Int) ∧
        0 ≤ (Node.child 1 0 (1 : ℤ√2) 0 (Node.root 0 0 0 (-1))).y ∧
        (Node.child 1 0 (1 : ℤ√2) 0 (Node.root 0 0 0 (-1))).y < (rowPlanner.ywidth : Int))) ∧
    (InGrid rowPlanner (calc_xyindex rowPlanner 0 rowPlanner.minx)
        (calc_xyindex rowPlanner 0 rowPlanner.miny) →
      0 ≤ (Node.child 1 0 (1 : ℤ√2) 0 (Node.root 0 0 0 (-1))).x ∧
        (Node.child 1 0 (1 : ℤ√2) 0 (Node.root 0 0 0 (-1))).x < (rowPlanner.xwidth : Int) ∧
        0 ≤ (Node.child 1 0 (1 : ℤ√2) 0 (Node.root 0 0 0 (-1))).y ∧
        (Node.child 1 0 (1 : ℤ√2) 0 (Node.root 0 0 0 (-1))).y < (rowPlanner.ywidth : Int))) := by
  have h := search_config_unit 4 1 (fun _ _ => false) 0 0 3 0 3
  simp only [Int.cast_zero, Int.cast_ofNat] at h
  have hn : Node.child 1 0 1 0 (Node.root 0 0 0 (-1)) ∈
      heldNodes (search_config rowPlanner 0 0 3 0 3).state ++
        (search_config rowPlanner 0 0 3 0 3).state.node_queue := by
    unfold rowPlanner
    rw [h]
    decide
  exact ⟨hn, stored_nodes_in_bounds rowPlanner 0 0 3 0 3 _ hn⟩

/-- C15, counterexample: the row of four free cells, start `(0, 0)`, goal
`(1, 0)`: the goal node leaves the loop with a null parent pointer while the
removed node `current` points to the start node. -/
theorem goal_parent_pointer_null :
    (search rowPlanner 0 0 1 0).map (fun r => (r.1, r.2.ngoal.parent,
        (r.2.closed_set.map Prod.snd).getLast?.bind Node.parent)) =
      some (Exit.GoalFound, none, some (Node.root 0 0 0 (-1))) := by
  have h := search_unit 4 1 (fun _ _ => false) 0 0 1 0
  simp only [Int.cast_zero, Int.cast_one] at h
  unfold rowPlanner
  rw [h]
  decide

/-- C15, witness: the row of four free cells, start `(0, 0)`, goal `(3, 0)`. -/
theorem goal_hand_over_witness :
    ∃ s : State (ℤ√2), search rowPlanner 0 0 3 0 = some (Exit.GoalFound, s) ∧
      ∃ (front : List (Node (ℤ√2))) (current : Node (ℤ√2)),
        s.closed_set.map Prod.snd = front ++ [current] ∧
        current.x = s.ngoal.x ∧ current.y = s.ngoal.y ∧
        s.ngoal.cost = current.cost ∧ s.ngoal.parent_index = current.parent_index ∧
        s.ngoal.parent = none ∧
        (current.parent = none ↔ current = mk_nstart rowPlanner 0 0) := by
  obtain ⟨s, hs⟩ := exists_of_map_fst _ _ row_search
  exact ⟨s, hs, goal_hand_over rowPlanner 0 0 3 0 s hs⟩

/-- C19, counterexample: a grid of one free cell and the start cell `(-1, 0)`,
whose grid index is `-1`: the admitted neighbour `(0, 0)` is not the start
node and its parent index is the "no predecessor" value `-1`. -/
theorem parent_index_is_sentinel :
    Node.child 0 0 1 (-1) (Node.root (-1) 0 0 (-1)) ∈
      heldNodes (search_config cellPlanner (-1) 0 5 5 3).state ∧
    Node.child 0 0 1 (-1) (Node.root (-1) 0 0 (-1)) ≠ mk_nstart cellPlanner (-1) 0 ∧
    (Node.child 0 0 (1 : ℤ√2) (-1) (Node.root (-1) 0 0 (-1))).parent_index = -1 := by
  have h := search_config_unit 1 1 (fun _ _ => false) (-1) 0 5 5 3
  have h2 := mk_nstart_unit 1 1 (fun _ _ => false) (-1) 0
  simp only [Int.cast_neg, Int.cast_one, Int.cast_ofNat, Int.cast_zero] at h h2
  unfold cellPlanner
  rw [h, h2]
  decide

/-- C19, witness: the row of four free cells, start `(0, 0)`, after the first
neighbour `(1, 0)` was admitted. -/
theorem predecessor_lookup_safe_witness :
    Node.child 1 0 1 0 (Node.root 0 0 0 (-1)) ∈
      heldNodes (search_config rowPlanner 0 0 3 0 3).state ∧
    Node.child 1 0 1 0 (Node.root 0 0 0 (-1)) ≠ mk_nstart rowPlanner 0 0 ∧
    (∃ p, (Node.child 1 0 (1 : ℤ√2) 0 (Node.root 0 0 0 (-1))).parent = some p ∧
      (Node.child 1 0 (1 : ℤ√2) 0 (Node.root 0 0 0 (-1))).parent_index =
        calc_grid_index rowPlanner p ∧
      (search_config rowPlanner 0 0 3 0 3).state.closed_set.find
        (Node.child 1 0 (1 : ℤ√2) 0 (Node.root 0 0 0 (-1))).parent_index = some p) ∧
    (calc_grid_index rowPlanner (mk_nstart rowPlanner 0 0) ≠ -1 →
      (Node.child 1 0 (1 : ℤ√2) 0 (Node.root 0 0 0 (-1))).parent_index ≠ -1) ∧
    (InGrid rowPlanner (calc_xyindex rowPlanner 0 rowPlanner.minx)
        (calc_xyindex rowPlanner 0 rowPlanner.miny) →
      (Node.child 1 0 (1 : ℤ√2) 0 (Node.root 0 0 0 (-1))).parent_index ≠ -1) ∧
    (∀ sf : State (ℤ√2), search rowPlanner 0 0 3 0 = some (Exit.GoalFound, sf) →
      ∃ ns, final_nodes sf.ngoal sf.closed_set = some ns) := by
  have h := search_config_unit 4 1 (fun _ _ => false) 0 0 3 0 3
  have h2 := mk_nstart_unit 4 1 (fun _ _ => false) 0 0
  simp only [Int.cast_zero, Int.cast_ofNat] at h h2
  have hn : Node.child 1 0 1 0 (Node.root 0 0 0 (-1)) ∈
      heldNodes (search_config rowPlanner 0 0 3 0 3).state := by
    unfold rowPlanner
    rw [h]
    decide
  have hne : Node.child 1 0 1 0 (Node.root 0 0 0 (-1)) ≠ mk_nstart rowPlanner 0 0 := by
    unfold rowPlanner
    rw [h2]
    decide
  exact ⟨hn, hne, predecessor_lookup_safe rowPlanner 0 0 3 0 3 _ hn hne⟩

theorem one_lt_sqrt_two : (1 : ℝ) < Real.sqrt 2 := by
  rw [show (1 : ℝ) = Real.sqrt 1 by simp]
  exact Real.sqrt_lt_sqrt (by norm_num) (by norm_num)

/-- C16: on the 4 × 3 grid with the occupied cell `(1, 1)`, the 8-connected
MotionModel with costs 1 and √2, start `(0, 1)` and goal `(3, 2)`, the call of
`planning` ends in GoalFound with the cost `3√2` on the goal node, while the moves
`(1, 1), (1, 0), (1, 0)` lead from the start cell to the goal cell through
free cells at the cost `2 + √2`, which is smaller. -/
theorem weighted_cost_suboptimal :
    ∃ (P : GraphSearchPlanner (ℤ√2)) (sx sy gx gy : ℚ) (s : State (ℤ√2))
      (ms : List (Int × Int × ℤ√2)),
      P.motion = motion8 1 Zsqrtd.sqrtd ∧
      search P sx sy gx gy = some (Exit.GoalFound, s) ∧
      (∀ m ∈ ms, m ∈ P.motion) ∧
      follow P (calc_xyindex P sx P.minx, calc_xyindex P sy P.miny) ms =
        some (calc_xyindex P gx P.minx, calc_xyindex P gy P.miny) ∧
      s.ngoal.cost = ⟨0, 3⟩ ∧ routeCost 0 ms = ⟨2, 1⟩ ∧
      Zsqrtd.toReal (show (0 : ℤ) ≤ 2 by norm_num) (routeCost 0 ms) <
        Zsqrtd.toReal (show (0 : ℤ) ≤ 2 by norm_num) s.ngoal.cost := by
  have h := search_unit 4 3 (fun x y => decide (x = 1) && decide (y = 1)) 0 1 3 2
  simp only [Int.cast_zero, Int.cast_one, Int.cast_ofNat] at h
  have hs : (search detourPlanner 0 1 3 2).map (fun r => (r.1, r.2.ngoal.cost)) =
      some (Exit.GoalFound, ⟨0, 3⟩) := by
    unfold detourPlanner
    rw [h]
    decide
  have hx : ∃ s : State (ℤ√2), search detourPlanner 0 1 3 2 = some (Exit.GoalFound, s) ∧
      s.ngoal.cost = ⟨0, 3⟩ := by
    cases ho : search detourPlanner 0 1 3 2 with
    | none => rw [ho] at hs; simp at hs
    | some r =>
      obtain ⟨e, s⟩ := r
      rw [ho] at hs
      simp only [Option.map_some', Option.some.injEq, Prod.mk.injEq] at hs
      exact ⟨s, by rw [hs.1], hs.2⟩
  obtain ⟨s, hs1, hs2⟩ := hx
  have h0 := unit_xy 4 3 (fun x y => decide (x = 1) && decide (y = 1)) 0
  have h1 := unit_xy 4 3 (fun x y => decide (x = 1) && decide (y = 1)) 1
  have h2 := unit_xy 4 3 (fun x y => decide (x = 1) && decide (y = 1)) 2
  have h3 := unit_xy 4 3 (fun x y => decide (x = 1) && decide (y = 1)) 3
  simp only [Int.cast_zero, Int.cast_one, Int.cast_ofNat] at h0 h1 h2 h3
  refine ⟨detourPlanner, 0, 1, 3, 2, s,
    [(1, 1, Zsqrtd.sqrtd), (1, 0, 1), (1, 0, 1)], rfl, hs1, by decide, ?_, hs2, by decide, ?_⟩
  · unfold detourPlanner
    rw [h0.1, h1.2, h3.1, h2.2]
    decide
  · rw [hs2]
    have e : routeCost (0 : ℤ√2) [((1 : Int), (1 : Int), (Zsqrtd.sqrtd : ℤ√2)), (1, 0, 1),
        (1, 0, 1)] = ⟨2, 1⟩ := by decide
    rw [e]
    simp only [Zsqrtd.toReal, Zsqrtd.lift]
    simp
    have := one_lt_sqrt_two
    linarith

theorem calc_control_command_rho (L : Libm) (C : PathFinderController)
    (x_diff y_diff theta theta_goal : ℚ) :
    (calc_control_command L C x_diff y_diff theta theta_goal).1 = L.hypot x_diff y_diff := by
  unfold calc_control_command
  simp only []
  split <;> rfl

theorem pose_body_rho (L : Libm) (x_goal y_goal theta_goal : ℚ) (s : PoseVars) :
    (pose_body L x_goal y_goal theta_goal s).1.rho = L.hypot (x_goal - s.x) (y_goal - s.y) :=
  calc_control_command_rho L controller _ _ _ _

theorem pose_loop_unit (x_goal y_goal theta_goal : ℚ) :
    ∀ (fuel : Nat) (s : PoseVars) (count : Nat), s.rho = 1 → s.epoch = (count : Int) →
      count + fuel = 321 → 1 ≤ fuel →
      ∃ final, pose_loop unitLibm x_goal y_goal theta_goal fuel s count = some (final, 321) := by
  intro fuel
  induction fuel with
  | zero => intro s count _ _ _ h; omega
  | succ fuel ih =>
    intro s count hr he h1 _
    have hgt : s.rho > 5 / 1000 := by rw [hr]; norm_num
    obtain ⟨e1, e2⟩ := pose_body_epoch unitLibm x_goal y_goal theta_goal s
    have e3 := pose_body_rho unitLibm x_goal y_goal theta_goal s
    rcases hb : pose_body unitLibm x_goal y_goal theta_goal s with ⟨s2, brk⟩
    rw [hb] at e1 e2 e3
    simp only at e1 e2 e3
    cases brk with
    | true =>
      have := of_decide_eq_true e2.symm
      have hc : count = 320 := by rw [he] at this; omega
      refine ⟨s2, ?_⟩
      simp only [pose_loop, hgt, if_true, hb, hc]
    | false =>
      have hlt : ¬ (s.epoch + 1 > 320) := of_decide_eq_false e2.symm
      have he2 : s2.epoch = ((count + 1 : Nat) : Int) := by
        rw [e1, he]; push_cast; ring
      obtain ⟨final, hf⟩ := ih s2 (count + 1) e3 he2 (by omega) (by rw [he] at hlt; omega)
      refine ⟨final, ?_⟩
      simp only [pose_loop, hgt, if_true, hb]
      exact hf

/-- The bound of 321 passes is attained: when the library reports the distance
1 whatever the pose, `move_to_pose` leaves its loop through the `break` after
321 passes. -/
theorem move_to_pose_attains :
    ∃ final, move_to_pose unitLibm 0 0 0 1 0 0 = some (final, 321) :=
  pose_loop_unit 1 0 0 321 _ 0 rfl rfl (by omega) (by omega)

end

end CppRobotics
